import Mathlib

/-!
Dancing Links exact-cover solver (`dlx.h`).

A shallow embedding of the class `dlx::DLX`.  The node store (`node_blocks_`) is
flattened into one list of nodes: block 0 (the column headers followed by the
head sentinel) starts at address 0, and every block allocated by `AddRow` is
appended after the blocks allocated before it.  A `Node*` is the address of a
node in this store.  Every pointer-chasing loop carries a fuel counter; running
out of fuel, dereferencing the null `min_col` and a failed `assert` are the three
faults a run can end in.
-/

namespace dlx

/-- The struct `Node`: the four ring links, the owning column header and the
union of `size` (column header) and `row` (normal node). -/
structure Node where
  left : Nat
  right : Nat
  up : Nat
  down : Nat
  column : Nat
  size : Nat
deriving DecidableEq, Repr

/-- The member `row` of the union shares its storage with `size`. -/
def Node.row (nd : Node) : Nat := nd.size

instance : Inhabited Node := ⟨⟨0, 0, 0, 0, 0, 0⟩⟩

/-- The flattened node store. -/
abbrev Mesh := List Node

/-- How a run can fail to return. -/
inductive Fault where
  | outOfFuel
  | nullDeref
  | assertFailed
deriving DecidableEq, Repr

/-- `size++` on a `size_t`. -/
def incr (s : Nat) : Nat := (s + 1) % 18446744073709551616

/-- `size--` on a `size_t`. -/
def decr (s : Nat) : Nat := (s + 18446744073709551615) % 18446744073709551616

/-- Read the node at address `p`. -/
def rd (M : Mesh) (p : Nat) : Node := M.getD p default

/-- `p->left = v`. -/
def setLeft (M : Mesh) (p v : Nat) : Mesh := M.set p { rd M p with left := v }

/-- `p->right = v`. -/
def setRight (M : Mesh) (p v : Nat) : Mesh := M.set p { rd M p with right := v }

/-- `p->up = v`. -/
def setUp (M : Mesh) (p v : Nat) : Mesh := M.set p { rd M p with up := v }

/-- `p->down = v`. -/
def setDown (M : Mesh) (p v : Nat) : Mesh := M.set p { rd M p with down := v }

/-- `p->column = v`. -/
def setColumn (M : Mesh) (p v : Nat) : Mesh := M.set p { rd M p with column := v }

/-- `p->size = v` (and equally `p->row = v`). -/
def setSize (M : Mesh) (p v : Nat) : Mesh := M.set p { rd M p with size := v }

/-- The loop `for (Node* p = start; p != stop; p = next(p)) body(p)` over a state
of type `σ`; `next` is read in the state left by the body. -/
def forRing {σ : Type} (next : σ → Nat → Nat) (stop : Nat)
    (body : Nat → σ → Except Fault σ) : Nat → Nat → σ → Except Fault σ
  | 0, _, _ => .error .outOfFuel
  | fuel + 1, p, s =>
    if p = stop then .ok s else
      match body p s with
      | .error e => .error e
      | .ok s1 => forRing next stop body fuel (next s1 p) s1

/-- The body of the inner loop of `CoverColumn` (lines 29-31). -/
def coverCell (c : Nat) (M : Mesh) : Mesh :=
  let M := setUp M (rd M c).down (rd M c).up
  let M := setDown M (rd M c).up (rd M c).down
  setSize M (rd M c).column (decr (rd M (rd M c).column).size)

/-- The body of the inner loop of `UncoverColumn` (lines 39-41). -/
def uncoverCell (c : Nat) (M : Mesh) : Mesh :=
  let M := setUp M (rd M c).down c
  let M := setDown M (rd M c).up c
  setSize M (rd M c).column (incr (rd M (rd M c).column).size)

/-- `DLX::CoverColumn` (lines 24-34). -/
def CoverColumn (fuel : Nat) (column : Nat) (M : Mesh) : Except Fault Mesh :=
  let M := setLeft M (rd M column).right (rd M column).left
  let M := setRight M (rd M column).left (rd M column).right
  forRing (fun M r => (rd M r).down) column
    (fun r M => forRing (fun M c => (rd M c).right) r (fun c M => .ok (coverCell c M))
      fuel (rd M r).right M)
    fuel (rd M column).down M

/-- `DLX::UncoverColumn` (lines 36-46). -/
def UncoverColumn (fuel : Nat) (column : Nat) (M : Mesh) : Except Fault Mesh :=
  match forRing (fun M r => (rd M r).up) column
      (fun r M => forRing (fun M c => (rd M c).left) r (fun c M => .ok (uncoverCell c M))
        fuel (rd M r).left M)
      fuel (rd M column).up M with
  | .error e => .error e
  | .ok M =>
    let M := setLeft M (rd M column).right column
    .ok (setRight M (rd M column).left column)

/-- The class `DLX`: its data members, with `node_blocks_` flattened. -/
structure DLX where
  n_cols : Nat
  n_rows : Nat
  covered : List Bool
  nodes : Mesh
  selected_rows : List Nat
  head : Nat
deriving DecidableEq, Repr

/-- One iteration of the constructor's loop (lines 78-82). -/
def initNode (n_cols : Nat) (M : Mesh) (i : Nat) : Mesh :=
  let M := setRight M i ((i + 1) % (n_cols + 1))
  let M := setLeft M ((i + 1) % (n_cols + 1)) i
  let M := setDown M i i
  let M := setUp M i i
  let M := setColumn M i i
  setSize M i 0

/-- The constructor `DLX::DLX(n_cols)` (lines 73-84). -/
def DLX.new (n_cols : Nat) : DLX :=
  { n_cols := n_cols
    n_rows := 0
    covered := List.replicate n_cols false
    nodes := (List.range (n_cols + 1)).foldl (initNode n_cols)
      (List.replicate (n_cols + 1) default)
    selected_rows := []
    head := n_cols }

/-- The algorithm `std::unique` on a list: of every run of equal neighbours the
first one is kept. -/
def unique : List Nat → List Nat
  | [] => []
  | [a] => [a]
  | a :: b :: l => if a = b then unique (b :: l) else a :: unique (b :: l)

/-- One iteration of the loop of `AddRow` (lines 95-103); `nodes` is the address
of the new block, `indices` the sorted and deduplicated vector, `n` its length. -/
def addCell (nodes : Nat) (indices : List Nat) (n : Nat) (n_rows : Nat) (M : Mesh) (i : Nat) :
    Mesh :=
  let M := setRight M (nodes + i) (nodes + (i + 1) % n)
  let M := setLeft M (nodes + (i + 1) % n) (nodes + i)
  let column := 0 + indices.getD i 0
  let M := setUp M (nodes + i) (rd M column).up
  let M := setDown M (nodes + i) column
  let M := setSize M (nodes + i) n_rows
  let M := setColumn M (nodes + i) column
  let M := setDown M (rd M column).up (nodes + i)
  let M := setUp M column (nodes + i)
  setSize M column (incr (rd M column).size)

/-- `DLX::AddRow` (lines 89-106). -/
def DLX.AddRow (d : DLX) (indices : List Nat) : DLX :=
  let nodes := d.nodes.length
  let M := d.nodes ++ List.replicate indices.length default
  let sorted := indices.insertionSort (· ≤ ·)
  let uniq := unique sorted
  let n := uniq.length
  { d with
    nodes := (List.range n).foldl (addCell nodes uniq n d.n_rows) M
    n_rows := incr d.n_rows }

/-- `DLX::PreCoverColumn` (lines 108-110). -/
def DLX.PreCoverColumn (d : DLX) (index : Nat) : DLX :=
  { d with covered := d.covered.set index true }

/-- The column scan of `Search` (lines 52-58), entered at `c` with the current
`min_col`. -/
def selectColumn (M : Mesh) (head : Nat) : Nat → Nat → Option Nat → Except Fault (Option Nat)
  | 0, _, _ => .error .outOfFuel
  | fuel + 1, c, min_col =>
    if (rd M c).right = head then .ok min_col else
      let smaller : Bool :=
        match min_col with
        | none => true
        | some m => decide ((rd M c).size < (rd M m).size)
      if smaller then
        if (rd M c).size = 1 then .ok (some c)
        else selectColumn M head fuel (rd M c).right (some c)
      else selectColumn M head fuel (rd M c).right min_col

/-- The candidate-row loop of `Search` (lines 60-67), entered at row node `r`;
`search` is the recursive call.  The result `(false, d)` means the loop ran to
its end. -/
def tryRows (fuel : Nat) (search : DLX → Except Fault (Bool × DLX)) (min_col : Nat) :
    Nat → Nat → DLX → Except Fault (Bool × DLX)
  | 0, _, _ => .error .outOfFuel
  | k + 1, r, d =>
    if r = min_col then .ok (false, d) else
      let d1 := { d with selected_rows := d.selected_rows ++ [(rd d.nodes r).row] }
      match forRing (fun M c => (rd M c).right) r
          (fun c M => CoverColumn fuel (rd M c).column M) fuel (rd d1.nodes r).right d1.nodes with
      | .error e => .error e
      | .ok M2 =>
        match search { d1 with nodes := M2 } with
        | .error e => .error e
        | .ok (true, d3) => .ok (true, d3)
        | .ok (false, d3) =>
          match forRing (fun M c => (rd M c).left) r
              (fun c M => UncoverColumn fuel (rd M c).column M) fuel (rd d3.nodes r).left
              d3.nodes with
          | .error e => .error e
          | .ok M4 =>
            let d5 := { d3 with nodes := M4, selected_rows := d3.selected_rows.dropLast }
            tryRows fuel search min_col k (rd d5.nodes r).down d5

/-- `DLX::Search` (lines 48-70).  `fuel` bounds every loop, the second argument
bounds the recursion depth. -/
def Search (fuel : Nat) : Nat → DLX → Except Fault (Bool × DLX)
  | 0, _ => .error .outOfFuel
  | depth + 1, d =>
    if (rd d.nodes d.head).right = d.head then .ok (true, d) else
      match selectColumn d.nodes d.head fuel (rd d.nodes d.head).right none with
      | .error e => .error e
      | .ok none => .error .nullDeref
      | .ok (some min_col) =>
        match CoverColumn fuel min_col d.nodes with
        | .error e => .error e
        | .ok M1 =>
          match tryRows fuel (fun d2 => Search fuel depth d2) min_col fuel (rd M1 min_col).down
              { d with nodes := M1 } with
          | .error e => .error e
          | .ok (true, d3) => .ok (true, d3)
          | .ok (false, d3) =>
            match UncoverColumn fuel min_col d3.nodes with
            | .error e => .error e
            | .ok M4 => .ok (false, { d3 with nodes := M4 })

/-- The pre-covering loop of `Solve` (lines 114-116). -/
def preCover (fuel : Nat) (covered : List Bool) (M : Mesh) (i : Nat) : Except Fault Mesh :=
  if covered.getD i false then CoverColumn fuel (0 + i) M else .ok M

/-- `DLX::Solve` (lines 112-121). -/
def DLX.Solve (fuel : Nat) (d : DLX) : Except Fault (Bool × DLX) :=
  match (List.range d.n_cols).foldlM (preCover fuel d.covered) d.nodes with
  | .error e => .error e
  | .ok M =>
    match forRing (fun M c => (rd M c).right) d.head
        (fun c M => if (rd M c).size > 0 then .ok M else .error .assertFailed)
        fuel (rd M d.head).right M with
    | .error e => .error e
    | .ok M1 => Search fuel fuel { d with nodes := M1 }

/-- `DLX::GetSolution` (lines 123-125). -/
def DLX.GetSolution (d : DLX) : List Nat := d.selected_rows

/-- A solver built by the constructor followed by one `AddRow` per element of
`rows`, in order. -/
def build (n_cols : Nat) (rows : List (List Nat)) : DLX :=
  rows.foldl DLX.AddRow (DLX.new n_cols)

/-- The calls `PreCoverColumn(i)` for the elements `i` of `pre`, in order. -/
def preCoverAll (d : DLX) (pre : List Nat) : DLX :=
  pre.foldl DLX.PreCoverColumn d

/-! ## Specification vocabulary

The shape of a mesh is described by ghost data: the header ring, the ring of
every column and the rows, each as the list of addresses met when walking it. -/

/-- `Chain nxt prv a l b`: following `nxt` from `a` visits exactly the nodes of
`l`, in order, and then reaches `b`; `prv` leads back along the same path. -/
def Chain (nxt prv : Nat → Nat) : Nat → List Nat → Nat → Prop
  | a, [], b => nxt a = b ∧ prv b = a
  | a, x :: l, b => nxt a = x ∧ prv x = a ∧ Chain nxt prv x l b

/-- The nodes of `l` form one closed doubly linked ring, in this order. -/
def RingOn (nxt prv : Nat → Nat) : List Nat → Prop
  | [] => True
  | h :: t => Chain nxt prv h t h

/-- Ghost description of a mesh: `H` lists the column headers linked into the
header ring (walking right from the head), `cols` all column headers, `V j` the
cells linked into the ring of column `j` (walking down from the header) and
`rows` the cells of every row (walking right from its first cell). -/
structure Shape where
  H : List Nat
  cols : List Nat
  V : Nat → List Nat
  rows : List (List Nat)

/-- The cells met when walking right from `x` around its row, `x` excluded. -/
def Shape.others (S : Shape) (x : Nat) : List Nat :=
  match S.rows.find? (fun ρ => decide (x ∈ ρ)) with
  | some ρ => (ρ.dropWhile (fun z => decide (z ≠ x))).tail ++ ρ.takeWhile (fun z => decide (z ≠ x))
  | none => []

/-- The cells `CoverColumn(c)` unlinks, in the order in which it unlinks them. -/
def Shape.touched (S : Shape) (c : Nat) : List Nat := (S.V c).flatMap S.others

/-- The shape after the cells of `L` were unlinked from their columns. -/
def Shape.remove (S : Shape) (L : List Nat) : Shape :=
  { S with V := fun j => (S.V j).filter (fun y => decide (y ∉ L)) }

/-- The shape after `CoverColumn(c)`. -/
def Shape.cover (S : Shape) (c : Nat) : Shape :=
  { S.remove (S.touched c) with H := S.H.erase c }

/-- Structural well-formedness of a mesh with head `hd` against a shape. -/
structure WF0 (M : Mesh) (hd : Nat) (S : Shape) : Prop where
  hd_lt : hd < M.length
  hd_notin : hd ∉ S.cols
  hd_vert : (rd M hd).up = hd ∧ (rd M hd).down = hd
  H_sub : ∀ c ∈ S.H, c ∈ S.cols
  H_nodup : S.H.Nodup
  hring : Chain (fun x => (rd M x).right) (fun x => (rd M x).left) hd S.H hd
  col_lt : ∀ j ∈ S.cols, j < M.length
  col_self : ∀ j ∈ S.cols, (rd M j).column = j
  col_size : ∀ j ∈ S.cols, (rd M j).size = (S.V j).length ∧
    (S.V j).length < 18446744073709551616
  vring : ∀ j ∈ S.cols, Chain (fun x => (rd M x).down) (fun x => (rd M x).up) j (S.V j) j
  vnodup : ∀ j ∈ S.cols, (S.V j).Nodup
  vcell : ∀ j ∈ S.cols, ∀ x ∈ S.V j,
    x < M.length ∧ x ∉ S.cols ∧ x ≠ hd ∧ (rd M x).column = j
  row_ring : ∀ ρ ∈ S.rows, RingOn (fun x => (rd M x).right) (fun x => (rd M x).left) ρ
  row_cols : ∀ ρ ∈ S.rows, (ρ.map (fun x => (rd M x).column)).Nodup
  row_cell : ∀ ρ ∈ S.rows, ∀ x ∈ ρ,
    x < M.length ∧ x ∉ S.cols ∧ x ≠ hd ∧ (rd M x).column ∈ S.cols
  rows_disj : S.rows.Pairwise List.Disjoint

/-- Well-formedness: the structure, every linked cell belongs to a row, and the
rows that remain linked are exactly the rows all of whose columns are in the
header ring. -/
structure WF (M : Mesh) (hd : Nat) (S : Shape) extends WF0 M hd S : Prop where
  vrow : ∀ j ∈ S.cols, ∀ x ∈ S.V j, ∃ ρ ∈ S.rows, x ∈ ρ
  live : ∀ j ∈ S.H, ∀ x ∈ S.V j, ∀ ρ ∈ S.rows, x ∈ ρ →
    ∀ y ∈ ρ, (rd M y).column ∈ S.H ∧ y ∈ S.V (rd M y).column
  full : ∀ ρ ∈ S.rows, (∀ y ∈ ρ, (rd M y).column ∈ S.H) → ∀ y ∈ ρ, y ∈ S.V (rd M y).column

/-- The first two statements of `CoverColumn`: unlink the header. -/
def unlinkHdr (column : Nat) (M : Mesh) : Mesh :=
  let M := setLeft M (rd M column).right (rd M column).left
  setRight M (rd M column).left (rd M column).right

/-- The last two statements of `UncoverColumn`: relink the header. -/
def relinkHdr (column : Nat) (M : Mesh) : Mesh :=
  let M := setLeft M (rd M column).right column
  setRight M (rd M column).left column

/-- The cell steps of a cover, composed over a list of cells. -/
def coverCells (L : List Nat) (M : Mesh) : Mesh := L.foldl (fun M y => coverCell y M) M

/-- The mesh `CoverColumn(c)` produces on a mesh of shape `S`. -/
def coverPure (S : Shape) (c : Nat) (M : Mesh) : Mesh :=
  coverCells (S.touched c) (unlinkHdr c M)

/-- A list of distinct cells that are all linked into their columns. -/
def Linked (S : Shape) (L : List Nat) : Prop :=
  L.Nodup ∧ ∀ y ∈ L, ∃ j ∈ S.cols, y ∈ S.V j

/-- The fuel `CoverColumn(c)` and `UncoverColumn(c)` need on a mesh of shape `S`. -/
def Shape.coverFuel (S : Shape) (c : Nat) (fuel : Nat) : Prop :=
  (S.V c).length < fuel ∧ ∀ x ∈ S.V c, (S.others x).length < fuel

/-- The mesh after `CoverColumn` was applied to the columns of `C`, in order,
starting from a mesh of shape `S`. -/
def coverCols : Shape → List Nat → Mesh → Mesh
  | _, [], M => M
  | S, c :: C, M => coverCols (S.cover c) C (coverPure S c M)

/-- The shape after `CoverColumn` was applied to the columns of `C`, in order. -/
def coverShape (S : Shape) (C : List Nat) : Shape := C.foldl Shape.cover S

/-- The columns of the cells of a row. -/
def colsOf (M : Mesh) (ρ : List Nat) : List Nat := ρ.map (fun x => (rd M x).column)

/-- The rows `sel` are rows of the mesh and together contain every column of the
header ring exactly once, and no other column. -/
def IsCover (M : Mesh) (S : Shape) (sel : List (List Nat)) : Prop :=
  (∀ ρ ∈ sel, ρ ∈ S.rows) ∧ (sel.flatMap (colsOf M)).Perm S.H

/-- What a run of `Search` entered on the solver `d`, whose mesh has shape `S`,
establishes when it returns `b` and leaves the solver `d'`.  On `false` nothing
has changed and no exact cover of the header ring exists.  On `true` the rows
chosen (each with the cell `Search` entered it by) are an exact cover of the
header ring, their identifiers were appended to the selection in the order
chosen, and the mesh is the entry mesh with all columns of the header ring
covered. -/
def SearchPost (d : DLX) (S : Shape) (b : Bool) (d' : DLX) : Prop :=
  match b with
  | false => d' = d ∧ ¬ ∃ sel, IsCover d.nodes S sel
  | true => ∃ (picks : List (Nat × List Nat)) (C : List Nat),
      (∀ p ∈ picks, p.1 ∈ p.2) ∧ IsCover d.nodes S (picks.map Prod.snd) ∧ C.Perm S.H ∧
      d' = { d with
        nodes := coverCols S C d.nodes
        selected_rows := d.selected_rows ++ picks.map (fun p => (rd d.nodes p.1).row) }

/-- The statements of `AddRow` that link the new cell `x` into the ring of
`column` (lines 98-103). -/
def linkCell (x column n_rows : Nat) (M : Mesh) : Mesh :=
  let M := setUp M x (rd M column).up
  let M := setDown M x column
  let M := setSize M x n_rows
  let M := setColumn M x column
  let M := setDown M (rd M column).up x
  let M := setUp M column x
  setSize M column (incr (rd M column).size)

/-- The shape after the cell `x` was linked in at the bottom of column `j`. -/
def Shape.link (S : Shape) (j x : Nat) : Shape :=
  { S with V := fun j' => if j' = j then S.V j ++ [x] else S.V j' }

/-- The shape after the cells `base + i` were linked in at the bottom of the
columns `us[i]`. -/
def Shape.addCells (S : Shape) (base : Nat) (us : List Nat) : Shape :=
  { S with V := fun j => S.V j ++ (if j ∈ us then [base + us.indexOf j] else []) }

/-- The shape after `AddRow` appended a block at `base` and made a row of the
columns `us`. -/
def Shape.addRow (S : Shape) (base : Nat) (us : List Nat) : Shape :=
  { S.addCells base us with rows := S.rows ++ [List.range' base us.length] }

/-- The invariant of the loop of `AddRow` after `t` iterations: the cells
`base + i`, `i < t`, are linked into their columns and carry their row links,
column and row identifier, and the nodes allocated before keep their row links,
column and (unless they head a column of the new row) size. -/
structure AddInv (S : Shape) (hd base raw : Nat) (u : List Nat) (nr : Nat) (M0 : Mesh) (t : Nat)
    (M : Mesh) : Prop where
  wf : WF0 M hd (S.addCells base (u.take t))
  len : M.length = base + raw
  frame : ∀ q, q < base → (rd M q).left = (rd M0 q).left ∧ (rd M q).right = (rd M0 q).right ∧
    (rd M q).column = (rd M0 q).column ∧ (q ∉ u → (rd M q).size = (rd M0 q).size)
  horiz : ∀ i < t, (rd M (base + i)).right = base + (i + 1) % u.length ∧
    (rd M (base + (i + 1) % u.length)).left = base + i
  cell : ∀ i < t, (rd M (base + i)).column = u.getD i 0 ∧ (rd M (base + i)).size = nr

/-- The cells of the rows that `AddRow` calls with the lists `rows` create when
the first block is allocated at address `base`: a call allocates as many nodes as
its list is long and uses the first ones, one per distinct index. -/
def rowCells : Nat → List (List Nat) → List (List Nat)
  | _, [] => []
  | base, r :: rs =>
    List.range' base (unique (r.insertionSort (· ≤ ·))).length :: rowCells (base + r.length) rs

/-- The columns `Solve` covers before the search: the marked columns, in index
order. -/
def preList (n : Nat) (pre : List Nat) : List Nat :=
  (List.range n).filter (fun i => decide (i ∈ pre))

/-- The solver `d`, of shape `S`, is what the constructor for `n` columns followed
by `AddRow` of the lists `rows` (in order) produces. -/
structure Built (n : Nat) (rows : List (List Nat)) (d : DLX) (S : Shape) : Prop where
  wf : WF d.nodes n S
  head_eq : d.head = n
  n_cols_eq : d.n_cols = n
  n_rows_eq : d.n_rows = rows.length
  covered_eq : d.covered = List.replicate n false
  selected_eq : d.selected_rows = []
  cols_eq : S.cols = List.range n
  H_eq : S.H = List.range n
  rows_len : S.rows.length = rows.length
  row_cols : ∀ i, i < rows.length →
    colsOf d.nodes (S.rows.getD i []) = unique ((rows.getD i []).insertionSort (· ≤ ·))
  row_id : ∀ i, i < rows.length → ∀ x ∈ S.rows.getD i [], (rd d.nodes x).row = i
  linked : ∀ ρ ∈ S.rows, ∀ y ∈ ρ, y ∈ S.V (rd d.nodes y).column
  vlen : ∀ j, (S.V j).length ≤ rows.length
  len_eq : d.nodes.length = n + 1 + (rows.map List.length).sum
  rows_eq : S.rows = rowCells (n + 1) rows

/-- The four links of the node `x` are consistent: `x.right.left = x`,
`x.left.right = x`, `x.up.down = x` and `x.down.up = x`. -/
def LinkOK (M : Mesh) (x : Nat) : Prop :=
  (rd M (rd M x).right).left = x ∧ (rd M (rd M x).left).right = x ∧
    (rd M (rd M x).up).down = x ∧ (rd M (rd M x).down).up = x

/-- The head and the column headers reachable from it by `right` links. -/
inductive LiveCol (M : Mesh) (hd : Nat) : Nat → Prop
  | head : LiveCol M hd hd
  | right {c : Nat} : LiveCol M hd c → LiveCol M hd (rd M c).right

/-- The live nodes: the head, the column headers reachable from it by `right`
links, and the nodes reachable from those by `down` links. -/
inductive Live (M : Mesh) (hd : Nat) : Nat → Prop
  | col {c : Nat} : LiveCol M hd c → Live M hd c
  | down {x : Nat} : Live M hd x → Live M hd (rd M x).down

/-- The number of cells visited when walking `down` from `r` until `column` is
reached. -/
def downCount (M : Mesh) (column : Nat) : Nat → Nat → Option Nat
  | 0, _ => none
  | fuel + 1, r =>
    if r = column then some 0 else (downCount M column fuel (rd M r).down).map (· + 1)

/-- The meshes reached from a solver built by the constructor and `AddRow` calls
with in-range indices by complete `CoverColumn` calls on columns that are in the
header ring and complete `UncoverColumn` calls on the column covered last (the
way `Solve` and `Search` call them); the list is the stack of covered columns. -/
inductive Reach (n : Nat) : List Nat → Mesh → Prop
  | built (rows : List (List Nat)) (hrows : ∀ r ∈ rows, ∀ j ∈ r, j < n)
      (hlen : rows.length < 18446744073709551616) : Reach n [] (build n rows).nodes
  | cover {stk : List Nat} {M : Mesh} (c fuel : Nat) (M' : Mesh) :
      Reach n stk M → LiveCol M n c → c ≠ n → CoverColumn fuel c M = .ok M' →
      Reach n (c :: stk) M'
  | uncover {stk : List Nat} {M : Mesh} (c fuel : Nat) (M' : Mesh) :
      Reach n (c :: stk) M → UncoverColumn fuel c M = .ok M' → Reach n stk M'

/-- The invariant of `Reach`: the mesh is well formed, and it is the result of
covering the columns of the stack one after the other, each in a well-formed
mesh whose header ring contained it. -/
def StackInv (n : Nat) : List Nat → Mesh → Shape → Prop
  | [], M, S => WF M n S ∧ S.cols = List.range n
  | c :: stk, M, S => ∃ M0 S0, StackInv n stk M0 S0 ∧ c ∈ S0.H ∧ M = coverPure S0 c M0 ∧
      S = S0.cover c

/-- The solver a run leaves behind (a fresh empty solver when the run faults). -/
def finalState (r : Except Fault (Bool × DLX)) : DLX :=
  match r with
  | .ok (_, d) => d
  | .error _ => DLX.new 0

/-- The rows of Knuth's example, with columns numbered from 0. -/
def knuthRows : List (List Nat) :=
  [[0, 3, 6], [0, 3], [3, 4, 6], [2, 4, 5], [1, 2, 5, 6], [1, 6]]

/-- The column scan of `Search` (lines 52-58) without the early exit
`if (min_col->size == 1) break;`: the scan the early exit is compared with. -/
def selectColumnNoBreak (M : Mesh) (head : Nat) :
    Nat → Nat → Option Nat → Except Fault (Option Nat)
  | 0, _, _ => .error .outOfFuel
  | fuel + 1, c, min_col =>
    if (rd M c).right = head then .ok min_col else
      let smaller : Bool :=
        match min_col with
        | none => true
        | some m => decide ((rd M c).size < (rd M m).size)
      if smaller then selectColumnNoBreak M head fuel (rd M c).right (some c)
      else selectColumnNoBreak M head fuel (rd M c).right min_col

/-- The rows all of whose cells lie in columns of the header ring: the rows that
can still be selected. -/
def Shape.liveRows (S : Shape) (M : Mesh) : List (List Nat) :=
  S.rows.filter (fun ρ => ρ.all (fun y => decide ((rd M y).column ∈ S.H)))

/-- The mesh a run leaves behind (the empty store when the run faults). -/
def finalMesh (r : Except Fault Mesh) : Mesh :=
  match r with
  | .ok M => M
  | .error _ => []

/-- The statement `Chosen fuel depth d ids d'`: a run of `Search` of nesting depth
at most `depth` entered on `d` returns `true` leaving `d'`, and `ids` are the
identifiers of the rows it selected, level by level, outermost first.  At each
level the row is entered by a cell `r` of the column `c` the scan selected, after
`CoverColumn(c)`, and the next level is entered after the identifier of the row
is pushed and the columns of the other cells of the row are covered. -/
inductive Chosen (fuel : Nat) : Nat → DLX → List Nat → DLX → Prop
  | done (depth : Nat) (d : DLX) :
      (rd d.nodes d.head).right = d.head → Chosen fuel (depth + 1) d [] d
  | step (depth : Nat) (d : DLX) (c r : Nat) (M1 M2 : Mesh) (ids : List Nat) (d' : DLX) :
      (rd d.nodes d.head).right ≠ d.head →
      selectColumn d.nodes d.head fuel (rd d.nodes d.head).right none = .ok (some c) →
      CoverColumn fuel c d.nodes = .ok M1 →
      r ≠ c → (rd M1 r).column = c →
      forRing (fun M c => (rd M c).right) r (fun c M => CoverColumn fuel (rd M c).column M)
        fuel (rd M1 r).right M1 = .ok M2 →
      Chosen fuel depth
        { d with nodes := M2, selected_rows := d.selected_rows ++ [(rd M1 r).row] } ids d' →
      Chosen fuel (depth + 1) d ((rd M1 r).row :: ids) d'

/-- The rows of a five-column matrix on which the early exit of the column scan
changes the column chosen. -/
def exitRows : List (List Nat) :=
  [[0, 1], [1, 3], [2, 4]]

/-- The mesh on which `Search` is entered the second time in the run of `Solve` on
five columns and `exitRows`: the scan selected column 0, `CoverColumn(0)` ran, the
first cell down from column 0 is the cell 6 of the row `{0, 1}`, and the column
of its other cell was covered. -/
def exitMesh : Mesh :=
  finalMesh (forRing (fun M c => (rd M c).right) 6
    (fun c M => CoverColumn 12 (rd M c).column M) 12
    (rd (finalMesh (CoverColumn 12 0 (build 5 exitRows).nodes)) 6).right
    (finalMesh (CoverColumn 12 0 (build 5 exitRows).nodes)))

/-! ## The node store -/

theorem rd_set (M : Mesh) (p q : Nat) (v : Node) :
    rd (M.set p v) q = if q = p ∧ p < M.length then v else rd M q := by
  unfold rd
  rw [List.getD_eq_getElem?_getD, List.getD_eq_getElem?_getD, List.getElem?_set]
  by_cases h : p = q
  · subst h
    by_cases hl : p < M.length
    · simp [hl]
    · simp [hl]
      rw [List.getElem?_eq_none (by omega)]
      rfl
  · have h' : ¬ q = p := fun e => h e.symm
    simp [h, h']

theorem mesh_ext {M N : Mesh} (hl : M.length = N.length)
    (h : ∀ q, q < M.length → rd M q = rd N q) : M = N := by
  apply List.ext_getElem hl
  intro n h1 h2
  have := h n h1
  unfold rd at this
  rw [List.getD_eq_getElem?_getD, List.getD_eq_getElem?_getD,
    List.getElem?_eq_getElem h1, List.getElem?_eq_getElem h2] at this
  simpa using this

@[simp] theorem length_setLeft (M : Mesh) (p v : Nat) : (setLeft M p v).length = M.length := by
  simp [setLeft]

@[simp] theorem length_setRight (M : Mesh) (p v : Nat) : (setRight M p v).length = M.length := by
  simp [setRight]

@[simp] theorem length_setUp (M : Mesh) (p v : Nat) : (setUp M p v).length = M.length := by
  simp [setUp]

@[simp] theorem length_setDown (M : Mesh) (p v : Nat) : (setDown M p v).length = M.length := by
  simp [setDown]

@[simp] theorem length_setColumn (M : Mesh) (p v : Nat) :
    (setColumn M p v).length = M.length := by
  simp [setColumn]

@[simp] theorem length_setSize (M : Mesh) (p v : Nat) : (setSize M p v).length = M.length := by
  simp [setSize]

theorem rd_setLeft (M : Mesh) (p v q : Nat) :
    rd (setLeft M p v) q = if q = p ∧ p < M.length then { rd M p with left := v } else rd M q := by
  simp [setLeft, rd_set]

theorem rd_setRight (M : Mesh) (p v q : Nat) :
    rd (setRight M p v) q =
      if q = p ∧ p < M.length then { rd M p with right := v } else rd M q := by
  simp [setRight, rd_set]

theorem rd_setUp (M : Mesh) (p v q : Nat) :
    rd (setUp M p v) q = if q = p ∧ p < M.length then { rd M p with up := v } else rd M q := by
  simp [setUp, rd_set]

theorem rd_setDown (M : Mesh) (p v q : Nat) :
    rd (setDown M p v) q = if q = p ∧ p < M.length then { rd M p with down := v } else rd M q := by
  simp [setDown, rd_set]

theorem rd_setColumn (M : Mesh) (p v q : Nat) :
    rd (setColumn M p v) q =
      if q = p ∧ p < M.length then { rd M p with column := v } else rd M q := by
  simp [setColumn, rd_set]

theorem rd_setSize (M : Mesh) (p v q : Nat) :
    rd (setSize M p v) q = if q = p ∧ p < M.length then { rd M p with size := v } else rd M q := by
  simp [setSize, rd_set]

theorem rd_of_le (M : Mesh) (q : Nat) (h : M.length ≤ q) : rd M q = default := by
  unfold rd
  rw [List.getD_eq_getElem?_getD, List.getElem?_eq_none h]
  rfl

@[simp] theorem setLeft_left (M : Mesh) (p v q : Nat) :
    (rd (setLeft M p v) q).left = if q = p ∧ p < M.length then v else (rd M q).left := by
  rw [rd_setLeft]; split <;> rfl

@[simp] theorem setLeft_right (M : Mesh) (p v q : Nat) :
    (rd (setLeft M p v) q).right = (rd M q).right := by
  rw [rd_setLeft]; split
  · rename_i h; rw [h.1]
  · rfl

@[simp] theorem setLeft_up (M : Mesh) (p v q : Nat) :
    (rd (setLeft M p v) q).up = (rd M q).up := by
  rw [rd_setLeft]; split
  · rename_i h; rw [h.1]
  · rfl

@[simp] theorem setLeft_down (M : Mesh) (p v q : Nat) :
    (rd (setLeft M p v) q).down = (rd M q).down := by
  rw [rd_setLeft]; split
  · rename_i h; rw [h.1]
  · rfl

@[simp] theorem setLeft_column (M : Mesh) (p v q : Nat) :
    (rd (setLeft M p v) q).column = (rd M q).column := by
  rw [rd_setLeft]; split
  · rename_i h; rw [h.1]
  · rfl

@[simp] theorem setLeft_size (M : Mesh) (p v q : Nat) :
    (rd (setLeft M p v) q).size = (rd M q).size := by
  rw [rd_setLeft]; split
  · rename_i h; rw [h.1]
  · rfl

@[simp] theorem setRight_left (M : Mesh) (p v q : Nat) :
    (rd (setRight M p v) q).left = (rd M q).left := by
  rw [rd_setRight]; split
  · rename_i h; rw [h.1]
  · rfl

@[simp] theorem setRight_right (M : Mesh) (p v q : Nat) :
    (rd (setRight M p v) q).right = if q = p ∧ p < M.length then v else (rd M q).right := by
  rw [rd_setRight]; split <;> rfl

@[simp] theorem setRight_up (M : Mesh) (p v q : Nat) :
    (rd (setRight M p v) q).up = (rd M q).up := by
  rw [rd_setRight]; split
  · rename_i h; rw [h.1]
  · rfl

@[simp] theorem setRight_down (M : Mesh) (p v q : Nat) :
    (rd (setRight M p v) q).down = (rd M q).down := by
  rw [rd_setRight]; split
  · rename_i h; rw [h.1]
  · rfl

@[simp] theorem setRight_column (M : Mesh) (p v q : Nat) :
    (rd (setRight M p v) q).column = (rd M q).column := by
  rw [rd_setRight]; split
  · rename_i h; rw [h.1]
  · rfl

@[simp] theorem setRight_size (M : Mesh) (p v q : Nat) :
    (rd (setRight M p v) q).size = (rd M q).size := by
  rw [rd_setRight]; split
  · rename_i h; rw [h.1]
  · rfl

@[simp] theorem setUp_left (M : Mesh) (p v q : Nat) :
    (rd (setUp M p v) q).left = (rd M q).left := by
  rw [rd_setUp]; split
  · rename_i h; rw [h.1]
  · rfl

@[simp] theorem setUp_right (M : Mesh) (p v q : Nat) :
    (rd (setUp M p v) q).right = (rd M q).right := by
  rw [rd_setUp]; split
  · rename_i h; rw [h.1]
  · rfl

@[simp] theorem setUp_up (M : Mesh) (p v q : Nat) :
    (rd (setUp M p v) q).up = if q = p ∧ p < M.length then v else (rd M q).up := by
  rw [rd_setUp]; split <;> rfl

@[simp] theorem setUp_down (M : Mesh) (p v q : Nat) :
    (rd (setUp M p v) q).down = (rd M q).down := by
  rw [rd_setUp]; split
  · rename_i h; rw [h.1]
  · rfl

@[simp] theorem setUp_column (M : Mesh) (p v q : Nat) :
    (rd (setUp M p v) q).column = (rd M q).column := by
  rw [rd_setUp]; split
  · rename_i h; rw [h.1]
  · rfl

@[simp] theorem setUp_size (M : Mesh) (p v q : Nat) :
    (rd (setUp M p v) q).size = (rd M q).size := by
  rw [rd_setUp]; split
  · rename_i h; rw [h.1]
  · rfl

@[simp] theorem setDown_left (M : Mesh) (p v q : Nat) :
    (rd (setDown M p v) q).left = (rd M q).left := by
  rw [rd_setDown]; split
  · rename_i h; rw [h.1]
  · rfl

@[simp] theorem setDown_right (M : Mesh) (p v q : Nat) :
    (rd (setDown M p v) q).right = (rd M q).right := by
  rw [rd_setDown]; split
  · rename_i h; rw [h.1]
  · rfl

@[simp] theorem setDown_up (M : Mesh) (p v q : Nat) :
    (rd (setDown M p v) q).up = (rd M q).up := by
  rw [rd_setDown]; split
  · rename_i h; rw [h.1]
  · rfl

@[simp] theorem setDown_down (M : Mesh) (p v q : Nat) :
    (rd (setDown M p v) q).down = if q = p ∧ p < M.length then v else (rd M q).down := by
  rw [rd_setDown]; split <;> rfl

@[simp] theorem setDown_column (M : Mesh) (p v q : Nat) :
    (rd (setDown M p v) q).column = (rd M q).column := by
  rw [rd_setDown]; split
  · rename_i h; rw [h.1]
  · rfl

@[simp] theorem setDown_size (M : Mesh) (p v q : Nat) :
    (rd (setDown M p v) q).size = (rd M q).size := by
  rw [rd_setDown]; split
  · rename_i h; rw [h.1]
  · rfl

@[simp] theorem setColumn_left (M : Mesh) (p v q : Nat) :
    (rd (setColumn M p v) q).left = (rd M q).left := by
  rw [rd_setColumn]; split
  · rename_i h; rw [h.1]
  · rfl

@[simp] theorem setColumn_right (M : Mesh) (p v q : Nat) :
    (rd (setColumn M p v) q).right = (rd M q).right := by
  rw [rd_setColumn]; split
  · rename_i h; rw [h.1]
  · rfl

@[simp] theorem setColumn_up (M : Mesh) (p v q : Nat) :
    (rd (setColumn M p v) q).up = (rd M q).up := by
  rw [rd_setColumn]; split
  · rename_i h; rw [h.1]
  · rfl

@[simp] theorem setColumn_down (M : Mesh) (p v q : Nat) :
    (rd (setColumn M p v) q).down = (rd M q).down := by
  rw [rd_setColumn]; split
  · rename_i h; rw [h.1]
  · rfl

@[simp] theorem setColumn_column (M : Mesh) (p v q : Nat) :
    (rd (setColumn M p v) q).column = if q = p ∧ p < M.length then v else (rd M q).column := by
  rw [rd_setColumn]; split <;> rfl

@[simp] theorem setColumn_size (M : Mesh) (p v q : Nat) :
    (rd (setColumn M p v) q).size = (rd M q).size := by
  rw [rd_setColumn]; split
  · rename_i h; rw [h.1]
  · rfl

@[simp] theorem setSize_left (M : Mesh) (p v q : Nat) :
    (rd (setSize M p v) q).left = (rd M q).left := by
  rw [rd_setSize]; split
  · rename_i h; rw [h.1]
  · rfl

@[simp] theorem setSize_right (M : Mesh) (p v q : Nat) :
    (rd (setSize M p v) q).right = (rd M q).right := by
  rw [rd_setSize]; split
  · rename_i h; rw [h.1]
  · rfl

@[simp] theorem setSize_up (M : Mesh) (p v q : Nat) :
    (rd (setSize M p v) q).up = (rd M q).up := by
  rw [rd_setSize]; split
  · rename_i h; rw [h.1]
  · rfl

@[simp] theorem setSize_down (M : Mesh) (p v q : Nat) :
    (rd (setSize M p v) q).down = (rd M q).down := by
  rw [rd_setSize]; split
  · rename_i h; rw [h.1]
  · rfl

@[simp] theorem setSize_column (M : Mesh) (p v q : Nat) :
    (rd (setSize M p v) q).column = (rd M q).column := by
  rw [rd_setSize]; split
  · rename_i h; rw [h.1]
  · rfl

@[simp] theorem setSize_size (M : Mesh) (p v q : Nat) :
    (rd (setSize M p v) q).size = if q = p ∧ p < M.length then v else (rd M q).size := by
  rw [rd_setSize]; split <;> rfl

/-! ### What one cell step writes -/

@[simp] theorem length_coverCell (c : Nat) (M : Mesh) : (coverCell c M).length = M.length := by
  simp [coverCell]

@[simp] theorem length_uncoverCell (c : Nat) (M : Mesh) :
    (uncoverCell c M).length = M.length := by
  simp [uncoverCell]

@[simp] theorem coverCell_left (c : Nat) (M : Mesh) (q : Nat) :
    (rd (coverCell c M) q).left = (rd M q).left := by
  simp [coverCell]

@[simp] theorem coverCell_right (c : Nat) (M : Mesh) (q : Nat) :
    (rd (coverCell c M) q).right = (rd M q).right := by
  simp [coverCell]

@[simp] theorem coverCell_column (c : Nat) (M : Mesh) (q : Nat) :
    (rd (coverCell c M) q).column = (rd M q).column := by
  simp [coverCell]

theorem coverCell_up (c : Nat) (M : Mesh) (q : Nat) :
    (rd (coverCell c M) q).up =
      if q = (rd M c).down ∧ (rd M c).down < M.length then (rd M c).up else (rd M q).up := by
  simp [coverCell]

theorem coverCell_down (c : Nat) (M : Mesh) (q : Nat) :
    (rd (coverCell c M) q).down =
      if q = (rd M c).up ∧ (rd M c).up < M.length then (rd M c).down else (rd M q).down := by
  simp [coverCell]

theorem coverCell_size (c : Nat) (M : Mesh) (q : Nat) :
    (rd (coverCell c M) q).size =
      if q = (rd M c).column ∧ (rd M c).column < M.length then decr (rd M (rd M c).column).size
      else (rd M q).size := by
  simp [coverCell]

@[simp] theorem uncoverCell_left (c : Nat) (M : Mesh) (q : Nat) :
    (rd (uncoverCell c M) q).left = (rd M q).left := by
  simp [uncoverCell]

@[simp] theorem uncoverCell_right (c : Nat) (M : Mesh) (q : Nat) :
    (rd (uncoverCell c M) q).right = (rd M q).right := by
  simp [uncoverCell]

@[simp] theorem uncoverCell_column (c : Nat) (M : Mesh) (q : Nat) :
    (rd (uncoverCell c M) q).column = (rd M q).column := by
  simp [uncoverCell]

theorem uncoverCell_up (c : Nat) (M : Mesh) (q : Nat) :
    (rd (uncoverCell c M) q).up =
      if q = (rd M c).down ∧ (rd M c).down < M.length then c else (rd M q).up := by
  simp [uncoverCell]

theorem uncoverCell_down (c : Nat) (M : Mesh) (q : Nat) (hc : (rd M c).down ≠ c) :
    (rd (uncoverCell c M) q).down =
      if q = (rd M c).up ∧ (rd M c).up < M.length then c else (rd M q).down := by
  have h : ¬ (c = (rd M c).down ∧ (rd M c).down < M.length) := fun e => hc e.1.symm
  simp only [uncoverCell, setSize_down, setDown_down, setUp_up, setUp_down, length_setUp, h,
    if_false]

theorem uncoverCell_size (c : Nat) (M : Mesh) (q : Nat) :
    (rd (uncoverCell c M) q).size =
      if q = (rd M c).column ∧ (rd M c).column < M.length then incr (rd M (rd M c).column).size
      else (rd M q).size := by
  simp [uncoverCell]

/-! ## Chains and rings -/

theorem chain_congr {nxt prv nxt' prv' : Nat → Nat} :
    ∀ {l : List Nat} {a b : Nat}, Chain nxt prv a l b →
      (∀ x ∈ a :: l, nxt' x = nxt x) → (∀ x ∈ l ++ [b], prv' x = prv x) →
      Chain nxt' prv' a l b
  | [], a, b, h, hn, hp => by
    simp only [Chain] at h ⊢
    rw [hn a (by simp), hp b (by simp)]
    exact h
  | x :: l, a, b, h, hn, hp => by
    simp only [Chain] at h ⊢
    refine ⟨by rw [hn a (by simp)]; exact h.1, by rw [hp x (by simp)]; exact h.2.1, ?_⟩
    exact chain_congr h.2.2 (fun z hz => hn z (List.mem_cons_of_mem _ hz))
      (fun z hz => hp z (by simp at hz ⊢; tauto))

theorem chain_append {nxt prv : Nat → Nat} :
    ∀ {l1 : List Nat} {a x : Nat} {l2 : List Nat} {b : Nat},
      Chain nxt prv a (l1 ++ x :: l2) b ↔ Chain nxt prv a l1 x ∧ Chain nxt prv x l2 b
  | [], a, x, l2, b => by simp [Chain, and_assoc]
  | w :: l1, a, x, l2, b => by
    have ih := @chain_append nxt prv l1 w x l2 b
    show (nxt a = w ∧ prv w = a ∧ Chain nxt prv w (l1 ++ x :: l2) b) ↔ _
    rw [ih]
    simp only [Chain, and_assoc]

theorem chain_reverse {nxt prv : Nat → Nat} :
    ∀ {l : List Nat} {a b : Nat}, Chain nxt prv a l b → Chain prv nxt b l.reverse a
  | [], a, b, h => by
    simp only [Chain, List.reverse_nil] at h ⊢
    exact ⟨h.2, h.1⟩
  | x :: l, a, b, h => by
    simp only [Chain] at h
    rw [List.reverse_cons, chain_append]
    exact ⟨chain_reverse h.2.2, by simp only [Chain]; exact ⟨h.2.1, h.1⟩⟩

theorem chain_next {nxt prv : Nat → Nat} {l : List Nat} {a b : Nat}
    (h : Chain nxt prv a l b) : nxt a = l.headD b := by
  cases l with
  | nil => exact h.1
  | cons x l => exact h.1

theorem chain_prev {nxt prv : Nat → Nat} {l : List Nat} {a b : Nat}
    (h : Chain nxt prv a l b) : prv b = l.reverse.headD a :=
  chain_next (chain_reverse h)

theorem chain_next_mem {nxt prv : Nat → Nat} {l : List Nat} {a b : Nat}
    (h : Chain nxt prv a l b) : nxt a ∈ l ++ [b] := by
  rw [chain_next h]
  cases l <;> simp

theorem chain_prev_mem {nxt prv : Nat → Nat} {l : List Nat} {a b : Nat}
    (h : Chain nxt prv a l b) : prv b ∈ a :: l := by
  have := chain_next_mem (chain_reverse h)
  simp only [List.mem_append, List.mem_reverse, List.mem_singleton] at this
  simp only [List.mem_cons]
  tauto

/-- Inside a chain every node is the successor of its predecessor and the
predecessor of its successor. -/
theorem chain_mid {nxt prv : Nat → Nat} {l1 l2 : List Nat} {a y b : Nat}
    (h : Chain nxt prv a (l1 ++ y :: l2) b) :
    nxt (prv y) = y ∧ prv (nxt y) = y ∧ prv y ∈ a :: l1 ∧ nxt y ∈ l2 ++ [b] := by
  rw [chain_append] at h
  obtain ⟨h1, h2⟩ := h
  refine ⟨?_, ?_, chain_prev_mem h1, chain_next_mem h2⟩
  · have := chain_reverse h1
    cases hl : l1.reverse with
    | nil => rw [hl] at this; simp only [Chain] at this; rw [this.1]; exact this.2
    | cons w t => rw [hl] at this; simp only [Chain] at this; rw [this.1]; exact this.2.1
  · cases l2 with
    | nil => simp only [Chain] at h2; rw [h2.1]; exact h2.2
    | cons w t => simp only [Chain] at h2; rw [h2.1]; exact h2.2.1

/-- Unlinking the node `y` from a chain: its predecessor and successor are
linked to each other, and the chain visits the remaining nodes. -/
theorem chain_unlink {nxt prv nxt' prv' : Nat → Nat} {y : Nat}
    (hn : ∀ x, nxt' x = if x = prv y then nxt y else nxt x)
    (hp : ∀ x, prv' x = if x = nxt y then prv y else prv x) :
    ∀ {l1 : List Nat} {a : Nat} {l2 : List Nat} {b : Nat},
      Chain nxt prv a (l1 ++ y :: l2) b → (a :: (l1 ++ y :: l2)).Nodup →
      ((l1 ++ y :: l2) ++ [b]).Nodup → Chain nxt' prv' a (l1 ++ l2) b
  | [], a, l2, b, h, nd1, nd2 => by
    simp only [List.nil_append, Chain] at h
    obtain ⟨h1, h2, h3⟩ := h
    cases l2 with
    | nil =>
      simp only [Chain] at h3 ⊢
      rw [hn, hp, h2, h3.1]
      simp
    | cons z t =>
      simp only [List.nil_append, Chain] at h3 ⊢
      obtain ⟨h4, h5, h6⟩ := h3
      refine ⟨by rw [hn, h2, h4]; simp, by rw [hp, h4, h2]; simp, ?_⟩
      apply chain_congr h6
      · intro x hx
        rw [hn, h2, if_neg]
        rintro rfl
        simp only [List.nil_append, List.nodup_cons, List.mem_cons] at nd1
        simp only [List.mem_cons] at hx
        tauto
      · intro x hx
        rw [hp, h4, if_neg]
        rintro rfl
        simp only [List.nil_append, List.cons_append, List.nodup_cons, List.mem_cons,
          List.mem_append, List.mem_singleton] at nd2
        simp only [List.mem_append, List.mem_singleton] at hx
        tauto
  | w :: l1, a, l2, b, h, nd1, nd2 => by
    simp only [List.cons_append, Chain] at h ⊢
    obtain ⟨h1, h2, h3⟩ := h
    have hm := chain_mid h3
    refine ⟨?_, ?_, chain_unlink hn hp h3 (List.nodup_cons.1 nd1).2 ?_⟩
    · rw [hn, if_neg, h1]
      intro e
      have := hm.2.2.1
      rw [← e] at this
      simp only [List.cons_append, List.nodup_cons, List.mem_cons, List.mem_append] at nd1
      simp only [List.mem_cons] at this
      tauto
    · rw [hp, if_neg, h2]
      intro e
      have := hm.2.2.2
      rw [← e] at this
      simp only [List.cons_append, List.append_assoc, List.nodup_cons, List.mem_cons,
        List.mem_append, List.mem_singleton] at nd2
      simp only [List.mem_append, List.mem_singleton] at this
      tauto
    · simp only [List.cons_append, List.nodup_cons] at nd2
      exact nd2.2

/-- A ring may be entered at any of its nodes. -/
theorem ring_rotate {nxt prv : Nat → Nat} {l1 l2 : List Nat} {x : Nat}
    (h : RingOn nxt prv (l1 ++ x :: l2)) : Chain nxt prv x (l2 ++ l1) x := by
  cases l1 with
  | nil => simpa [RingOn] using h
  | cons w t =>
    simp only [List.cons_append, RingOn] at h
    rw [chain_append] at h
    rw [chain_append]
    exact ⟨h.2, h.1⟩

/-! ## The ring loop -/

/-- The loop over a ring whose nodes are `l`, when every body either succeeds or
runs out of fuel: the loop succeeds exactly when the fuel suffices, and then the
invariant holds at the end. -/
theorem forRing_spec {σ : Type} (next : σ → Nat → Nat) (stop : Nat)
    (body : Nat → σ → Except Fault σ) (good : Nat → Prop) (Inv : List Nat → σ → Prop)
    (hstep : ∀ x rest s, Inv (x :: rest) s → x ≠ stop ∧
        (¬ good x → body x s = .error .outOfFuel) ∧
        (good x → ∃ s1, body x s = .ok s1 ∧ next s1 x = rest.headD stop ∧ Inv rest s1)) :
    ∀ (l : List Nat) (fuel : Nat) (s : σ), Inv l s →
      (¬ (l.length < fuel ∧ ∀ x ∈ l, good x) →
        forRing next stop body fuel (l.headD stop) s = .error .outOfFuel) ∧
      ((l.length < fuel ∧ ∀ x ∈ l, good x) →
        ∃ s', forRing next stop body fuel (l.headD stop) s = .ok s' ∧ Inv [] s')
  | [], 0, s, _ => by simp [forRing]
  | [], fuel + 1, s, h => by simpa [forRing] using h
  | x :: rest, 0, s, _ => by simp [forRing]
  | x :: rest, fuel + 1, s, h => by
    obtain ⟨h1, h2, h3⟩ := hstep x rest s h
    simp only [forRing, List.headD_cons, h1, if_false]
    by_cases hg : good x
    · obtain ⟨s1, e1, e2, e3⟩ := h3 hg
      have ih := forRing_spec next stop body good Inv hstep rest fuel s1 e3
      rw [e1]
      simp only
      rw [e2]
      constructor
      · intro hn
        apply ih.1
        intro hh
        apply hn
        refine ⟨by simp only [List.length_cons]; omega, ?_⟩
        intro z hz
        rcases List.mem_cons.1 hz with rfl | hz
        · exact hg
        · exact hh.2 z hz
      · intro hh
        apply ih.2
        refine ⟨by simp only [List.length_cons] at hh; omega, ?_⟩
        intro z hz
        exact hh.2 z (List.mem_cons_of_mem _ hz)
    · rw [h2 hg]
      constructor
      · intro _; rfl
      · intro hh
        exact absurd (hh.2 x (List.mem_cons_self _ _)) hg

/-- Partial correctness of the loop over a ring whose nodes are `l`. -/
theorem forRing_sound {σ : Type} (next : σ → Nat → Nat) (stop : Nat)
    (body : Nat → σ → Except Fault σ) (Inv : List Nat → σ → Prop)
    (hstep : ∀ x rest s, Inv (x :: rest) s → x ≠ stop ∧
        ∀ s1, body x s = .ok s1 → next s1 x = rest.headD stop ∧ Inv rest s1) :
    ∀ (l : List Nat) (fuel : Nat) (s s' : σ), Inv l s →
      forRing next stop body fuel (l.headD stop) s = .ok s' → Inv [] s'
  | _, 0, s, s', _, hr => by simp [forRing] at hr
  | [], fuel + 1, s, s', h, hr => by
    simp [forRing] at hr
    rw [← hr]; exact h
  | x :: rest, fuel + 1, s, s', h, hr => by
    obtain ⟨h1, h2⟩ := hstep x rest s h
    simp only [forRing, List.headD_cons, h1, if_false] at hr
    cases hb : body x s with
    | error e => rw [hb] at hr; simp at hr
    | ok s1 =>
      rw [hb] at hr
      simp only at hr
      rw [(h2 s1 hb).1] at hr
      exact forRing_sound next stop body Inv hstep rest fuel s1 s' (h2 s1 hb).2 hr

/-! ## One cell step on a well-formed mesh -/

theorem node_ext {a b : Node} (h1 : a.left = b.left) (h2 : a.right = b.right) (h3 : a.up = b.up)
    (h4 : a.down = b.down) (h5 : a.column = b.column) (h6 : a.size = b.size) : a = b := by
  cases a; cases b; simp_all

theorem incr_decr (s : Nat) (h : s < 18446744073709551616) : incr (decr s) = s := by
  unfold incr decr
  omega

theorem decr_incr (s : Nat) (h : s < 18446744073709551616) : decr (incr s) = s := by
  unfold incr decr
  omega

/-- Relinking a cell that was just unlinked restores the mesh. -/
theorem uncoverCell_coverCell (M : Mesh) (y : Nat) (hd : (rd M (rd M y).down).up = y)
    (hu : (rd M (rd M y).up).down = y) (hne : (rd M y).down ≠ y)
    (hs : (rd M (rd M y).column).size < 18446744073709551616) :
    uncoverCell y (coverCell y M) = M := by
  have hyd : (rd (coverCell y M) y).down = (rd M y).down := by
    rw [coverCell_down]; split
    · rename_i h; rw [h.1]
    · rfl
  have hyu : (rd (coverCell y M) y).up = (rd M y).up := by
    rw [coverCell_up, if_neg]
    intro h; exact hne h.1.symm
  apply mesh_ext (by simp)
  intro q _
  apply node_ext
  · simp
  · simp
  · rw [uncoverCell_up, hyd, length_coverCell, coverCell_up]
    split
    · rename_i h; rw [h.1, hd]
    · rfl
  · rw [uncoverCell_down _ _ _ (by rw [hyd]; exact hne), hyu, length_coverCell, coverCell_down]
    split
    · rename_i h; rw [h.1, hu]
    · rfl
  · simp
  · rw [uncoverCell_size, coverCell_column, length_coverCell, coverCell_size, coverCell_size]
    split
    · rename_i h
      rw [if_pos ⟨rfl, h.2⟩, incr_decr _ hs, h.1]
    · rfl

theorem ring_congr {nxt prv nxt' prv' : Nat → Nat} {l : List Nat} (h : RingOn nxt prv l)
    (hn : ∀ x ∈ l, nxt' x = nxt x) (hp : ∀ x ∈ l, prv' x = prv x) : RingOn nxt' prv' l := by
  cases l with
  | nil => trivial
  | cons a t =>
    simp only [RingOn] at h ⊢
    exact chain_congr h hn (fun x hx => hp x (by simp at hx ⊢; tauto))

theorem filter_notin_self {l : List Nat} {L : List Nat} (h : ∀ x ∈ l, x ∉ L) :
    l.filter (fun z => decide (z ∉ L)) = l := by
  rw [List.filter_eq_self]
  intro a ha
  simpa using h a ha

theorem filter_notin_split {l1 l2 : List Nat} {y : Nat} (nd : (l1 ++ y :: l2).Nodup) :
    (l1 ++ y :: l2).filter (fun z => decide (z ∉ [y])) = l1 ++ l2 := by
  have h1 : y ∉ l1 := fun h => by
    have := List.nodup_append.1 nd
    exact this.2.2 h (List.mem_cons_self _ _)
  have h2 : y ∉ l2 := fun h => by
    have := (List.nodup_append.1 nd).2.1
    exact (List.nodup_cons.1 this).1 h
  have e1 : l1.filter (fun z => decide (z ∉ [y])) = l1 :=
    filter_notin_self fun x hx => by simp only [List.mem_singleton]; rintro rfl; exact h1 hx
  have e2 : l2.filter (fun z => decide (z ∉ [y])) = l2 :=
    filter_notin_self fun x hx => by simp only [List.mem_singleton]; rintro rfl; exact h2 hx
  rw [List.filter_append, List.filter_cons, e1, e2]
  simp

theorem WF0.cell_of_V {M : Mesh} {hd : Nat} {S : Shape} (h : WF0 M hd S) {j x : Nat}
    (hj : j ∈ S.cols) (hx : x ∈ S.V j) :
    x < M.length ∧ x ∉ S.cols ∧ x ≠ hd ∧ (rd M x).column = j := by
  exact h.vcell j hj x hx

theorem WF0.ring_col {M : Mesh} {hd : Nat} {S : Shape} (h : WF0 M hd S) {j x : Nat}
    (hj : j ∈ S.cols) (hx : x ∈ j :: S.V j) : (rd M x).column = j ∧ x < M.length := by
  rcases List.mem_cons.1 hx with rfl | hx
  · exact ⟨h.col_self _ hj, h.col_lt _ hj⟩
  · have := h.cell_of_V hj hx
    exact ⟨this.2.2.2, this.1⟩

/-- Unlinking a cell that is linked into its column keeps the mesh well formed,
with that cell removed from the ring of its column, and relinking it undoes the
step. -/
theorem wf0_coverCell {M : Mesh} {hd : Nat} {S : Shape} (h : WF0 M hd S) {j y : Nat}
    (hj : j ∈ S.cols) (hy : y ∈ S.V j) :
    WF0 (coverCell y M) hd (S.remove [y]) ∧ uncoverCell y (coverCell y M) = M := by
  obtain ⟨l1, l2, hl⟩ := List.append_of_mem hy
  have hyc := h.cell_of_V hj hy
  have hch := h.vring j hj
  have hnd : (j :: S.V j).Nodup := by
    refine List.nodup_cons.2 ⟨fun hm => (h.cell_of_V hj hm).2.1 hj, h.vnodup j hj⟩
  have hnd2 : (S.V j ++ [j]).Nodup := by
    have : (S.V j ++ [j]).Perm ([j] ++ S.V j) := List.perm_append_comm
    exact this.nodup_iff.2 hnd
  rw [hl] at hch hnd hnd2
  obtain ⟨m1, m2, m3, m4⟩ := chain_mid hch
  have hu : (rd M y).up ∈ j :: S.V j := by
    rw [hl]; simp only [List.mem_cons, List.mem_append] at m3 ⊢; tauto
  have hdn : (rd M y).down ∈ j :: S.V j := by
    rw [hl]; simp only [List.mem_cons, List.mem_append, List.mem_singleton] at m4 ⊢; tauto
  have hu' := h.ring_col hj hu
  have hd' := h.ring_col hj hdn
  have hne : (rd M y).down ≠ y := by
    intro e
    rw [e] at m4
    have := (List.nodup_append.1 (List.nodup_cons.1 hnd).2).2.1
    have hy2 := (List.nodup_cons.1 this).1
    simp only [List.mem_append, List.mem_singleton] at m4
    rcases m4 with m4 | m4
    · exact hy2 m4
    · exact hyc.2.1 (m4 ▸ hj)
  have hdown : ∀ x, (rd (coverCell y M) x).down =
      if x = (rd M y).up then (rd M y).down else (rd M x).down := by
    intro x; rw [coverCell_down]; simp [hu'.2]
  have hup : ∀ x, (rd (coverCell y M) x).up =
      if x = (rd M y).down then (rd M y).up else (rd M x).up := by
    intro x; rw [coverCell_up]; simp [hd'.2]
  have hcol : (fun x => (rd (coverCell y M) x).column) = fun x => (rd M x).column :=
    funext fun x => by simp
  have hother : ∀ j' ∈ S.cols, j' ≠ j → ∀ x ∈ j' :: S.V j',
      x ≠ (rd M y).up ∧ x ≠ (rd M y).down := by
    intro j' hj' hne' x hx
    have := (h.ring_col hj' hx).1
    constructor
    · rintro rfl; exact hne' (this.symm.trans hu'.1)
    · rintro rfl; exact hne' (this.symm.trans hd'.1)
  have hVother : ∀ j' ∈ S.cols, j' ≠ j → (S.remove [y]).V j' = S.V j' := by
    intro j' hj' hne'
    show (S.V j').filter _ = _
    apply filter_notin_self
    intro x hx
    simp only [List.mem_singleton]
    rintro rfl
    exact hne' ((h.cell_of_V hj' hx).2.2.2.symm.trans hyc.2.2.2)
  have hVj : (S.remove [y]).V j = l1 ++ l2 := by
    show (S.V j).filter _ = _
    rw [hl]
    exact filter_notin_split (List.nodup_cons.1 hnd).2
  have hsub : ∀ j' x, x ∈ (S.remove [y]).V j' → x ∈ S.V j' := by
    intro j' x hx
    exact (List.mem_filter.1 hx).1
  refine ⟨?_, uncoverCell_coverCell M y m2 m1 hne ?_⟩
  · refine
      { hd_lt := by simpa using h.hd_lt
        hd_notin := h.hd_notin
        hd_vert := ?_
        H_sub := h.H_sub
        H_nodup := h.H_nodup
        hring := chain_congr h.hring (fun x _ => by simp) (fun x _ => by simp)
        col_lt := fun j' hj' => by simpa using h.col_lt j' hj'
        col_self := fun j' hj' => by simpa using h.col_self j' hj'
        col_size := ?_
        vring := ?_
        vnodup := fun j' hj' => (h.vnodup j' hj').filter _
        vcell := fun j' hj' x hx => by simpa using h.vcell j' hj' x (hsub j' x hx)
        row_ring := fun ρ hρ =>
          ring_congr (h.row_ring ρ hρ) (fun x _ => by simp) (fun x _ => by simp)
        row_cols := fun ρ hρ => by rw [hcol]; exact h.row_cols ρ hρ
        row_cell := fun ρ hρ x hx => by simpa using h.row_cell ρ hρ x hx
        rows_disj := h.rows_disj }
    · have e1 : hd ≠ (rd M y).down := by
        rintro rfl
        rcases List.mem_cons.1 hdn with e | e
        · exact h.hd_notin (e ▸ hj)
        · exact (h.cell_of_V hj e).2.2.1 rfl
      have e2 : hd ≠ (rd M y).up := by
        rintro rfl
        rcases List.mem_cons.1 hu with e | e
        · exact h.hd_notin (e ▸ hj)
        · exact (h.cell_of_V hj e).2.2.1 rfl
      rw [hup, hdown, if_neg e1, if_neg e2]
      exact h.hd_vert
    · intro j' hj'
      rw [coverCell_size, hyc.2.2.2]
      by_cases e : j' = j
      · subst e
        rw [if_pos ⟨rfl, h.col_lt _ hj⟩, hVj, (h.col_size _ hj).1]
        have hlen := (h.col_size _ hj).2
        rw [hl] at hlen ⊢
        simp only [List.length_append, List.length_cons] at hlen ⊢
        unfold decr
        omega
      · rw [if_neg (fun hh => e hh.1), hVother j' hj' e]
        exact h.col_size j' hj'
    · intro j' hj'
      by_cases e : j' = j
      · subst e
        rw [hVj]
        exact chain_unlink hdown hup hch hnd hnd2
      · rw [hVother j' hj' e]
        refine chain_congr (h.vring j' hj') ?_ ?_
        · intro x hx
          show (rd (coverCell y M) x).down = _
          rw [hdown, if_neg (hother j' hj' e x hx).1]
        · intro x hx
          show (rd (coverCell y M) x).up = _
          rw [hup, if_neg (hother j' hj' e x ?_).2]
          simp only [List.mem_append, List.mem_singleton, List.mem_cons] at hx ⊢
          tauto
  · rw [hyc.2.2.2, (h.col_size _ hj).1]
    exact (h.col_size _ hj).2

/-! ## Unlinking and relinking a column header -/

@[simp] theorem length_unlinkHdr (c : Nat) (M : Mesh) : (unlinkHdr c M).length = M.length := by
  simp [unlinkHdr]

@[simp] theorem length_relinkHdr (c : Nat) (M : Mesh) : (relinkHdr c M).length = M.length := by
  simp [relinkHdr]

@[simp] theorem unlinkHdr_up (c : Nat) (M : Mesh) (q : Nat) :
    (rd (unlinkHdr c M) q).up = (rd M q).up := by
  simp [unlinkHdr]

@[simp] theorem unlinkHdr_down (c : Nat) (M : Mesh) (q : Nat) :
    (rd (unlinkHdr c M) q).down = (rd M q).down := by
  simp [unlinkHdr]

@[simp] theorem unlinkHdr_column (c : Nat) (M : Mesh) (q : Nat) :
    (rd (unlinkHdr c M) q).column = (rd M q).column := by
  simp [unlinkHdr]

@[simp] theorem unlinkHdr_size (c : Nat) (M : Mesh) (q : Nat) :
    (rd (unlinkHdr c M) q).size = (rd M q).size := by
  simp [unlinkHdr]

theorem unlinkHdr_left (c : Nat) (M : Mesh) (q : Nat) :
    (rd (unlinkHdr c M) q).left =
      if q = (rd M c).right ∧ (rd M c).right < M.length then (rd M c).left
      else (rd M q).left := by
  simp [unlinkHdr]

theorem unlinkHdr_right (c : Nat) (M : Mesh) (q : Nat) :
    (rd (unlinkHdr c M) q).right =
      if q = (rd M c).left ∧ (rd M c).left < M.length then (rd M c).right
      else (rd M q).right := by
  simp [unlinkHdr]

@[simp] theorem relinkHdr_up (c : Nat) (M : Mesh) (q : Nat) :
    (rd (relinkHdr c M) q).up = (rd M q).up := by
  simp [relinkHdr]

@[simp] theorem relinkHdr_down (c : Nat) (M : Mesh) (q : Nat) :
    (rd (relinkHdr c M) q).down = (rd M q).down := by
  simp [relinkHdr]

@[simp] theorem relinkHdr_column (c : Nat) (M : Mesh) (q : Nat) :
    (rd (relinkHdr c M) q).column = (rd M q).column := by
  simp [relinkHdr]

@[simp] theorem relinkHdr_size (c : Nat) (M : Mesh) (q : Nat) :
    (rd (relinkHdr c M) q).size = (rd M q).size := by
  simp [relinkHdr]

theorem relinkHdr_left (c : Nat) (M : Mesh) (q : Nat) :
    (rd (relinkHdr c M) q).left =
      if q = (rd M c).right ∧ (rd M c).right < M.length then c else (rd M q).left := by
  simp [relinkHdr]

theorem relinkHdr_right (c : Nat) (M : Mesh) (q : Nat) (hc : (rd M c).right ≠ c) :
    (rd (relinkHdr c M) q).right =
      if q = (rd M c).left ∧ (rd M c).left < M.length then c else (rd M q).right := by
  have h : ¬ (c = (rd M c).right ∧ (rd M c).right < M.length) := fun e => hc e.1.symm
  simp only [relinkHdr, setRight_right, setLeft_left, setLeft_right, length_setLeft, h,
    if_false]

/-- Relinking a header that was just unlinked restores the mesh. -/
theorem relinkHdr_unlinkHdr (M : Mesh) (c : Nat) (hr : (rd M (rd M c).right).left = c)
    (hl : (rd M (rd M c).left).right = c) (hne : (rd M c).right ≠ c) :
    relinkHdr c (unlinkHdr c M) = M := by
  have hcr : (rd (unlinkHdr c M) c).right = (rd M c).right := by
    rw [unlinkHdr_right]; split <;> rfl
  have hcl : (rd (unlinkHdr c M) c).left = (rd M c).left := by
    rw [unlinkHdr_left, if_neg]
    intro h; exact hne h.1.symm
  apply mesh_ext (by simp)
  intro q _
  apply node_ext
  · rw [relinkHdr_left, hcr, length_unlinkHdr, unlinkHdr_left]
    split
    · rename_i h; rw [h.1, hr]
    · rfl
  · rw [relinkHdr_right _ _ _ (by rw [hcr]; exact hne), hcl, length_unlinkHdr, unlinkHdr_right]
    split
    · rename_i h; rw [h.1, hl]
    · rfl
  · simp
  · simp
  · simp
  · simp

theorem erase_split {l1 l2 : List Nat} {c : Nat} (nd : (l1 ++ c :: l2).Nodup) :
    (l1 ++ c :: l2).erase c = l1 ++ l2 := by
  have h1 : c ∉ l1 := fun h => (List.nodup_append.1 nd).2.2 h (List.mem_cons_self _ _)
  rw [List.erase_append_right _ h1, List.erase_cons_head]

/-- Unlinking a header that is in the header ring keeps the mesh well formed,
with that header removed from the ring, and relinking it undoes the step. -/
theorem wf0_unlinkHdr {M : Mesh} {hd : Nat} {S : Shape} (h : WF0 M hd S) {c : Nat}
    (hc : c ∈ S.H) :
    WF0 (unlinkHdr c M) hd { S with H := S.H.erase c } ∧ relinkHdr c (unlinkHdr c M) = M := by
  obtain ⟨l1, l2, hl⟩ := List.append_of_mem hc
  have hch := h.hring
  have hhd : hd ∉ S.H := fun hm => h.hd_notin (h.H_sub _ hm)
  have hnd : (hd :: S.H).Nodup := List.nodup_cons.2 ⟨hhd, h.H_nodup⟩
  have hnd2 : (S.H ++ [hd]).Nodup :=
    (List.perm_append_comm : (S.H ++ [hd]).Perm ([hd] ++ S.H)).nodup_iff.2 hnd
  have hbound : ∀ x ∈ hd :: S.H, x < M.length ∧ (x = hd ∨ x ∈ S.cols) := by
    intro x hx
    rcases List.mem_cons.1 hx with rfl | hx
    · exact ⟨h.hd_lt, Or.inl rfl⟩
    · exact ⟨h.col_lt _ (h.H_sub _ hx), Or.inr (h.H_sub _ hx)⟩
  rw [hl] at hch hnd hnd2
  obtain ⟨m1, m2, m3, m4⟩ := chain_mid hch
  have hlt : (rd M c).left ∈ hd :: S.H := by
    rw [hl]; simp only [List.mem_cons, List.mem_append] at m3 ⊢; tauto
  have hrt : (rd M c).right ∈ hd :: S.H := by
    rw [hl]; simp only [List.mem_cons, List.mem_append, List.mem_singleton] at m4 ⊢; tauto
  have hne : (rd M c).right ≠ c := by
    intro e
    rw [e] at m4
    have := (List.nodup_append.1 (List.nodup_cons.1 hnd).2).2.1
    have hy2 := (List.nodup_cons.1 this).1
    simp only [List.mem_append, List.mem_singleton] at m4
    rcases m4 with m4 | m4
    · exact hy2 m4
    · exact hhd (m4 ▸ hc)
  have hright : ∀ x, (rd (unlinkHdr c M) x).right =
      if x = (rd M c).left then (rd M c).right else (rd M x).right := by
    intro x; rw [unlinkHdr_right]; simp [(hbound _ hlt).1]
  have hleft : ∀ x, (rd (unlinkHdr c M) x).left =
      if x = (rd M c).right then (rd M c).left else (rd M x).left := by
    intro x; rw [unlinkHdr_left]; simp [(hbound _ hrt).1]
  have hcol : (fun x => (rd (unlinkHdr c M) x).column) = fun x => (rd M x).column :=
    funext fun x => by simp
  have hdn : (fun x => (rd (unlinkHdr c M) x).down) = fun x => (rd M x).down :=
    funext fun x => by simp
  have hup : (fun x => (rd (unlinkHdr c M) x).up) = fun x => (rd M x).up :=
    funext fun x => by simp
  refine ⟨?_, relinkHdr_unlinkHdr M c m2 m1 hne⟩
  refine
    { hd_lt := by simpa using h.hd_lt
      hd_notin := h.hd_notin
      hd_vert := by simpa using h.hd_vert
      H_sub := fun x hx => h.H_sub x (List.mem_of_mem_erase hx)
      H_nodup := h.H_nodup.erase c
      hring := ?_
      col_lt := fun j' hj' => by simpa using h.col_lt j' hj'
      col_self := fun j' hj' => by simpa using h.col_self j' hj'
      col_size := fun j' hj' => by simpa using h.col_size j' hj'
      vring := fun j' hj' => by rw [hdn, hup]; exact h.vring j' hj'
      vnodup := h.vnodup
      vcell := fun j' hj' x hx => by simpa using h.vcell j' hj' x hx
      row_ring := ?_
      row_cols := fun ρ hρ => by rw [hcol]; exact h.row_cols ρ hρ
      row_cell := fun ρ hρ x hx => by simpa using h.row_cell ρ hρ x hx
      rows_disj := h.rows_disj }
  · show Chain _ _ hd (S.H.erase c) hd
    rw [hl, erase_split (List.nodup_cons.1 hnd).2]
    exact chain_unlink hright hleft hch hnd hnd2
  · intro ρ hρ
    have hcell : ∀ x ∈ ρ, ∀ z ∈ hd :: S.H, x ≠ z := by
      intro x hx z hz e
      obtain ⟨_, a, b, _⟩ := h.row_cell ρ hρ x hx
      rcases (hbound z hz).2 with rfl | hz'
      · exact b e
      · exact a (e ▸ hz')
    refine ring_congr (h.row_ring ρ hρ) ?_ ?_
    · intro x hx
      show (rd (unlinkHdr c M) x).right = _
      rw [hright, if_neg (hcell x hx _ hlt)]
    · intro x hx
      show (rd (unlinkHdr c M) x).left = _
      rw [hleft, if_neg (hcell x hx _ hrt)]

/-! ## Rows of a well-formed mesh -/

theorem takeWhile_dropWhile_split {l1 : List Nat} (l2 : List Nat) {x : Nat} (h : x ∉ l1) :
    (l1 ++ x :: l2).takeWhile (fun z => decide (z ≠ x)) = l1 ∧
      (l1 ++ x :: l2).dropWhile (fun z => decide (z ≠ x)) = x :: l2 := by
  induction l1 with
  | nil => simp [List.takeWhile, List.dropWhile]
  | cons a t ih =>
    have ha : a ≠ x := fun e => h (e ▸ List.mem_cons_self _ _)
    have ht : x ∉ t := fun e => h (List.mem_cons_of_mem _ e)
    have ih' := ih ht
    constructor
    · show List.takeWhile _ (a :: (t ++ x :: l2)) = _
      rw [List.takeWhile_cons, if_pos (by simpa using ha), ih'.1]
    · show List.dropWhile _ (a :: (t ++ x :: l2)) = _
      rw [List.dropWhile_cons, if_pos (by simpa using ha), ih'.2]

theorem rows_unique {rows : List (List Nat)} (hp : rows.Pairwise List.Disjoint)
    {ρ ρ' : List Nat} (h1 : ρ ∈ rows) (h2 : ρ' ∈ rows) {x : Nat} (hx : x ∈ ρ) (hx' : x ∈ ρ') :
    ρ = ρ' := by
  by_contra hne
  have hsym : Symmetric (List.Disjoint (α := Nat)) := fun a b hab => hab.symm
  exact (hp.forall hsym h1 h2 hne) hx hx'

theorem WF0.row_nodup {M : Mesh} {hd : Nat} {S : Shape} (h : WF0 M hd S) {ρ : List Nat}
    (hρ : ρ ∈ S.rows) : ρ.Nodup :=
  (h.row_cols ρ hρ).of_map _

theorem WF0.others_eq {M : Mesh} {hd : Nat} {S : Shape} (h : WF0 M hd S) {l1 l2 : List Nat}
    {x : Nat} (hρ : l1 ++ x :: l2 ∈ S.rows) : S.others x = l2 ++ l1 := by
  have hx : x ∈ l1 ++ x :: l2 := by simp
  unfold Shape.others
  cases hf : S.rows.find? (fun ρ => decide (x ∈ ρ)) with
  | none =>
    rw [List.find?_eq_none] at hf
    have := hf _ hρ
    simp at this
  | some ρ' =>
    have h1 := List.mem_of_find?_eq_some hf
    have h2 := List.find?_some hf
    simp only [decide_eq_true_eq] at h2
    have e := rows_unique h.rows_disj hρ h1 hx h2
    subst e
    have hnd := h.row_nodup hρ
    have hx1 : x ∉ l1 := fun hm => (List.nodup_append.1 hnd).2.2 hm (List.mem_cons_self _ _)
    obtain ⟨e1, e2⟩ := takeWhile_dropWhile_split l2 hx1
    simp only [e1, e2, List.tail_cons]

/-- What `Shape.others` is on a well-formed mesh: the rest of the row of `x`,
from the right neighbour of `x` round to its left neighbour. -/
theorem WF0.others_spec {M : Mesh} {hd : Nat} {S : Shape} (h : WF0 M hd S) {ρ : List Nat}
    (hρ : ρ ∈ S.rows) {x : Nat} (hx : x ∈ ρ) :
    (x :: S.others x).Nodup ∧ (∀ y, y ∈ S.others x ↔ y ∈ ρ ∧ y ≠ x) ∧
      Chain (fun z => (rd M z).right) (fun z => (rd M z).left) x (S.others x) x := by
  obtain ⟨l1, l2, rfl⟩ := List.append_of_mem hx
  rw [h.others_eq hρ]
  have hnd := h.row_nodup hρ
  have hperm : (x :: (l2 ++ l1)).Perm (l1 ++ x :: l2) := by
    have : (l1 ++ x :: l2).Perm ((x :: l2) ++ l1) := List.perm_append_comm
    exact this.symm
  have hnd' : (x :: (l2 ++ l1)).Nodup := hperm.nodup_iff.2 hnd
  refine ⟨hnd', ?_, ring_rotate (h.row_ring _ hρ)⟩
  intro y
  have hx' := (List.nodup_cons.1 hnd').1
  constructor
  · intro hy
    refine ⟨hperm.subset (List.mem_cons_of_mem _ hy), ?_⟩
    rintro rfl; exact hx' hy
  · rintro ⟨hy, hne⟩
    have := hperm.symm.subset hy
    rcases List.mem_cons.1 this with e | e
    · exact absurd e hne
    · exact e

/-! ## Unlinking a list of cells -/

theorem coverCells_append (L1 L2 : List Nat) (M : Mesh) :
    coverCells (L1 ++ L2) M = coverCells L2 (coverCells L1 M) := by
  simp [coverCells, List.foldl_append]

@[simp] theorem coverCells_nil (M : Mesh) : coverCells [] M = M := rfl

@[simp] theorem coverCells_cons (y : Nat) (L : List Nat) (M : Mesh) :
    coverCells (y :: L) M = coverCells L (coverCell y M) := rfl

@[simp] theorem length_coverCells (L : List Nat) (M : Mesh) :
    (coverCells L M).length = M.length := by
  induction L generalizing M with
  | nil => rfl
  | cons y L ih => simp [ih]

@[simp] theorem coverCells_left (L : List Nat) (M : Mesh) (q : Nat) :
    (rd (coverCells L M) q).left = (rd M q).left := by
  induction L generalizing M with
  | nil => rfl
  | cons y L ih => simp [ih]

@[simp] theorem coverCells_right (L : List Nat) (M : Mesh) (q : Nat) :
    (rd (coverCells L M) q).right = (rd M q).right := by
  induction L generalizing M with
  | nil => rfl
  | cons y L ih => simp [ih]

@[simp] theorem coverCells_column (L : List Nat) (M : Mesh) (q : Nat) :
    (rd (coverCells L M) q).column = (rd M q).column := by
  induction L generalizing M with
  | nil => rfl
  | cons y L ih => simp [ih]

theorem remove_nil (S : Shape) : S.remove [] = S := by
  cases S
  simp [Shape.remove]

theorem remove_remove (S : Shape) (L1 L2 : List Nat) :
    (S.remove L1).remove L2 = S.remove (L1 ++ L2) := by
  cases S
  simp only [Shape.remove, Shape.mk.injEq, true_and, and_true]
  funext j
  rw [List.filter_filter]
  congr 1
  funext y
  simp only [List.mem_append, not_or, Bool.decide_and]
  exact Bool.and_comm _ _

theorem Linked.left {S : Shape} {L1 L2 : List Nat} (h : Linked S (L1 ++ L2)) : Linked S L1 :=
  ⟨(List.nodup_append.1 h.1).1, fun y hy => h.2 y (List.mem_append_left _ hy)⟩

theorem wf0_coverCells (hd : Nat) : ∀ (L : List Nat) {M : Mesh} {S : Shape}, WF0 M hd S →
    Linked S L → WF0 (coverCells L M) hd (S.remove L)
  | [], M, S, h, _ => by rw [remove_nil]; exact h
  | y :: L, M, S, h, hL => by
    obtain ⟨j, hj, hy⟩ := hL.2 y (List.mem_cons_self _ _)
    have h1 := (wf0_coverCell h hj hy).1
    have hnd := List.nodup_cons.1 hL.1
    have : Linked (S.remove [y]) L := by
      refine ⟨hnd.2, fun z hz => ?_⟩
      obtain ⟨j', hj', hz'⟩ := hL.2 z (List.mem_cons_of_mem _ hz)
      refine ⟨j', hj', ?_⟩
      show z ∈ (S.V j').filter _
      rw [List.mem_filter]
      refine ⟨hz', ?_⟩
      simp only [List.mem_singleton, decide_not, Bool.not_eq_eq_eq_not, Bool.not_true,
        decide_eq_false_iff_not]
      rintro rfl; exact hnd.1 hz
    have h2 := wf0_coverCells hd L h1 this
    rw [remove_remove] at h2
    exact h2

/-! ## The loops of `CoverColumn` and `UncoverColumn` -/

/-- The inner loop of `CoverColumn` unlinks the other cells of the row. -/
theorem coverRow_loop (N : Mesh) (x : Nat) (o : List Nat)
    (hch : Chain (fun z => (rd N z).right) (fun z => (rd N z).left) x o x) (hx : x ∉ o)
    (lf : Nat) :
    forRing (fun M c => (rd M c).right) x (fun c M => .ok (coverCell c M)) lf (rd N x).right N =
      if o.length < lf then .ok (coverCells o N) else .error .outOfFuel := by
  have key := forRing_spec (fun M c => (rd M c).right) x
    (fun c M => .ok (coverCell c M)) (fun _ => True)
    (fun R s => ∃ P, o = P ++ R ∧ s = coverCells P N) (by
      rintro y rest s ⟨P, e1, e2⟩
      refine ⟨?_, fun hn => absurd trivial hn, fun _ => ⟨coverCell y s, rfl, ?_, ?_⟩⟩
      · rintro rfl; exact hx (e1 ▸ by simp)
      · rw [e1, chain_append] at hch
        have := chain_next hch.2
        simp only [coverCell_right, e2, coverCells_right]
        exact this
      · refine ⟨P ++ [y], by simp [e1], ?_⟩
        rw [coverCells_append, e2]; rfl) o lf N ⟨[], rfl, rfl⟩
  rw [← chain_next hch] at key
  by_cases hf : o.length < lf
  · obtain ⟨s', e1, P, e2, e3⟩ := key.2 ⟨hf, fun _ _ => trivial⟩
    rw [if_pos hf, e1, e3]
    simp only [List.append_nil] at e2
    rw [← e2]
  · rw [if_neg hf]
    exact key.1 (fun hh => hf hh.1)

/-- The inner loop of `UncoverColumn` relinks the cells the inner loop of
`CoverColumn` unlinked. -/
theorem uncoverRow_loop {N : Mesh} {hd : Nat} {S : Shape} (h : WF0 N hd S) (x : Nat)
    (o : List Nat) (hL : Linked S o)
    (hch : Chain (fun z => (rd N z).right) (fun z => (rd N z).left) x o x) (hx : x ∉ o)
    (lf : Nat) :
    forRing (fun M c => (rd M c).left) x (fun c M => .ok (uncoverCell c M)) lf
        (rd (coverCells o N) x).left (coverCells o N) =
      if o.length < lf then .ok N else .error .outOfFuel := by
  have hrev := chain_reverse hch
  have key := forRing_spec (fun M c => (rd M c).left) x
    (fun c M => .ok (uncoverCell c M)) (fun _ => True)
    (fun R s => ∃ Q, o = R.reverse ++ Q ∧ s = coverCells R.reverse N) (by
      rintro y rest s ⟨Q, e1, e2⟩
      have hy : y ∈ o := by rw [e1]; simp
      have e1' : o = rest.reverse ++ ([y] ++ Q) := by simpa using e1
      have hL1 : Linked S rest.reverse := (e1' ▸ hL).left
      have hw := wf0_coverCells hd rest.reverse h hL1
      obtain ⟨j, hj, hyj⟩ := hL.2 y hy
      have hyj' : y ∈ (S.remove rest.reverse).V j := by
        show y ∈ (S.V j).filter _
        rw [List.mem_filter]
        refine ⟨hyj, ?_⟩
        simp only [List.mem_reverse, decide_not, Bool.not_eq_eq_eq_not, Bool.not_true,
          decide_eq_false_iff_not]
        intro hm
        have := hL.1
        rw [e1'] at this
        exact (List.nodup_append.1 this).2.2 (List.mem_reverse.2 hm) (by simp)
      have hinv := (wf0_coverCell hw hj hyj').2
      have es : s = coverCell y (coverCells rest.reverse N) := by
        rw [e2, List.reverse_cons, coverCells_append]; rfl
      refine ⟨?_, fun hn => absurd trivial hn,
        fun _ => ⟨coverCells rest.reverse N, ?_, ?_, ⟨[y] ++ Q, e1', rfl⟩⟩⟩
      · rintro rfl; exact hx hy
      · show Except.ok (uncoverCell y s) = _
        rw [es, hinv]
      · have e3 : o.reverse = Q.reverse ++ y :: rest := by rw [e1]; simp
        rw [e3, chain_append] at hrev
        have := chain_next hrev.2
        simp only [coverCells_left]
        exact this) o.reverse lf (coverCells o N) ⟨[], by simp, by simp⟩
  have e0 : (rd (coverCells o N) x).left = o.reverse.headD x := by
    rw [coverCells_left]; exact chain_next hrev
  rw [← e0] at key
  by_cases hf : o.length < lf
  · obtain ⟨s', e1, Q, _, e3⟩ := key.2 ⟨by simpa using hf, fun _ _ => trivial⟩
    rw [if_pos hf, e1, e3]
    rfl
  · rw [if_neg hf]
    exact key.1 (fun hh => hf (by simpa using hh.1))

/-! ## The cells a cover unlinks -/

theorem WF0.col_inj {M : Mesh} {hd : Nat} {S : Shape} (h : WF0 M hd S) {ρ : List Nat}
    (hρ : ρ ∈ S.rows) {x y : Nat} (hx : x ∈ ρ) (hy : y ∈ ρ)
    (e : (rd M x).column = (rd M y).column) : x = y :=
  List.inj_on_of_nodup_map (h.row_cols ρ hρ) hx hy e

theorem WF.vcellr {M : Mesh} {hd : Nat} {S : Shape} (h : WF M hd S) (j : Nat)
    (hj : j ∈ S.cols) (x : Nat) (hx : x ∈ S.V j) :
    (rd M x).column = j ∧ ∃ ρ ∈ S.rows, x ∈ ρ :=
  ⟨(h.toWF0.vcell j hj x hx).2.2.2, h.vrow j hj x hx⟩

theorem WF.touched_mem {M : Mesh} {hd : Nat} {S : Shape} (h : WF M hd S) {c : Nat}
    (hc : c ∈ S.H) (y : Nat) :
    y ∈ S.touched c ↔ ∃ x ∈ S.V c, ∃ ρ ∈ S.rows, x ∈ ρ ∧ y ∈ ρ ∧ y ≠ x := by
  unfold Shape.touched
  rw [List.mem_flatMap]
  constructor
  · rintro ⟨x, hx, hy⟩
    obtain ⟨_, ρ, hρ, hxρ⟩ := h.vcellr c (h.H_sub c hc) x hx
    have := ((h.toWF0.others_spec hρ hxρ).2.1 y).1 hy
    exact ⟨x, hx, ρ, hρ, hxρ, this.1, this.2⟩
  · rintro ⟨x, hx, ρ, hρ, hxρ, hyρ, hne⟩
    exact ⟨x, hx, ((h.toWF0.others_spec hρ hxρ).2.1 y).2 ⟨hyρ, hne⟩⟩

theorem WF.touched_col {M : Mesh} {hd : Nat} {S : Shape} (h : WF M hd S) {c : Nat}
    (hc : c ∈ S.H) {y : Nat} (hy : y ∈ S.touched c) :
    (rd M y).column ≠ c ∧ (rd M y).column ∈ S.H ∧ y ∈ S.V (rd M y).column := by
  obtain ⟨x, hx, ρ, hρ, hxρ, hyρ, hne⟩ := (h.touched_mem hc y).1 hy
  have hcx := (h.vcellr c (h.H_sub c hc) x hx).1
  refine ⟨fun e => hne (h.toWF0.col_inj hρ hyρ hxρ (e.trans hcx.symm)), ?_⟩
  exact h.live c hc x hx ρ hρ hxρ y hyρ

theorem WF.touched_linked {M : Mesh} {hd : Nat} {S : Shape} (h : WF M hd S) {c : Nat}
    (hc : c ∈ S.H) : Linked S (S.touched c) := by
  have hcc := h.H_sub c hc
  refine ⟨?_, fun y hy => ?_⟩
  · unfold Shape.touched
    rw [List.nodup_flatMap]
    constructor
    · intro x hx
      obtain ⟨_, ρ, hρ, hxρ⟩ := h.vcellr c hcc x hx
      exact (List.nodup_cons.1 (h.toWF0.others_spec hρ hxρ).1).2
    · apply (h.vnodup c hcc).pairwise_of_forall_ne
      intro x hx x' hx' hne y hy hy'
      obtain ⟨e1, ρ, hρ, hxρ⟩ := h.vcellr c hcc x hx
      obtain ⟨e2, ρ', hρ', hxρ'⟩ := h.vcellr c hcc x' hx'
      have h1 := ((h.toWF0.others_spec hρ hxρ).2.1 y).1 hy
      have h2 := ((h.toWF0.others_spec hρ' hxρ').2.1 y).1 hy'
      have e := rows_unique h.rows_disj hρ hρ' h1.1 h2.1
      subst e
      exact hne (h.toWF0.col_inj hρ hxρ hxρ' (e1.trans e2.symm))
  · have := h.touched_col hc hy
    exact ⟨_, h.H_sub _ this.2.1, this.2.2⟩

/-! ## The mesh after a cover -/

theorem cover_eq (S : Shape) (c : Nat) :
    S.cover c = ({ S with H := S.H.erase c } : Shape).remove (S.touched c) := rfl

theorem others_remove (S : Shape) (H : List Nat) (L : List Nat) (x : Nat) :
    (({ S with H := H } : Shape).remove L).others x = S.others x := rfl

/-- The state of a cover of `c` after the rows of the cells `P`, a leading part
of the ring of `c`, were unlinked. -/
theorem cover_prefix_state {M : Mesh} {hd : Nat} {S : Shape} (h : WF M hd S) {c : Nat}
    (hc : c ∈ S.H) {P R : List Nat} (e : S.V c = P ++ R) :
    WF0 (coverCells (P.flatMap S.others) (unlinkHdr c M)) hd
        (({ S with H := S.H.erase c } : Shape).remove (P.flatMap S.others)) ∧
      (({ S with H := S.H.erase c } : Shape).remove (P.flatMap S.others)).V c = S.V c ∧
      ∀ r ∈ R, Linked (({ S with H := S.H.erase c } : Shape).remove (P.flatMap S.others))
        (S.others r) := by
  have hL := h.touched_linked hc
  have eL : S.touched c = P.flatMap S.others ++ R.flatMap S.others := by
    unfold Shape.touched; rw [e, List.flatMap_append]
  have h1 := (wf0_unlinkHdr h.toWF0 hc).1
  have hL1 : Linked ({ S with H := S.H.erase c } : Shape) (P.flatMap S.others) := by
    have : Linked S (P.flatMap S.others) := (eL ▸ hL).left
    exact this
  refine ⟨wf0_coverCells hd _ h1 hL1, ?_, ?_⟩
  · show (S.V c).filter _ = _
    apply filter_notin_self
    intro x hx hm
    have hm' : x ∈ S.touched c := by rw [eL]; exact List.mem_append_left _ hm
    exact (h.touched_col hc hm').1 (h.vcellr c (h.H_sub c hc) x hx).1
  · intro r hr
    have hsub : ∀ y ∈ S.others r, y ∈ R.flatMap S.others :=
      fun y hy => List.mem_flatMap.2 ⟨r, hr, hy⟩
    have hnd := hL.1
    rw [eL] at hnd
    have hnd' := List.nodup_append.1 hnd
    refine ⟨?_, fun y hy => ?_⟩
    · have : r ∈ S.V c := by rw [e]; exact List.mem_append_right _ hr
      obtain ⟨_, ρ, hρ, hxρ⟩ := h.vcellr c (h.H_sub c hc) r this
      exact (List.nodup_cons.1 (h.toWF0.others_spec hρ hxρ).1).2
    · have hy' : y ∈ S.touched c := by rw [eL]; exact List.mem_append_right _ (hsub y hy)
      have := h.touched_col hc hy'
      refine ⟨_, h.H_sub _ this.2.1, ?_⟩
      show y ∈ (S.V _).filter _
      rw [List.mem_filter]
      refine ⟨this.2.2, ?_⟩
      simp only [decide_not, Bool.not_eq_eq_eq_not, Bool.not_true, decide_eq_false_iff_not]
      intro hm
      exact hnd'.2.2 hm (hsub y hy)

/-- After `CoverColumn(c)` the mesh is structurally well formed. -/
theorem cover_wf0 {M : Mesh} {hd : Nat} {S : Shape} (h : WF M hd S) {c : Nat} (hc : c ∈ S.H) :
    WF0 (coverPure S c M) hd (S.cover c) := by
  have := (cover_prefix_state h hc (P := S.V c) (R := []) (by simp)).1
  exact this

/-- After `CoverColumn(c)` the mesh is well formed: the rows that remain linked
are the rows that avoid every covered column. -/
theorem cover_wf {M : Mesh} {hd : Nat} {S : Shape} (h : WF M hd S) {c : Nat} (hc : c ∈ S.H) :
    WF (coverPure S c M) hd (S.cover c) := by
  have h0 := cover_wf0 h hc
  have hcol : ∀ y, (rd (coverPure S c M) y).column = (rd M y).column := by
    intro y; simp [coverPure]
  have hH : ∀ j, j ∈ (S.cover c).H ↔ j ≠ c ∧ j ∈ S.H := fun j =>
    h.H_nodup.mem_erase_iff
  have hV : ∀ j x, x ∈ (S.cover c).V j ↔ x ∈ S.V j ∧ x ∉ S.touched c := by
    intro j x
    show x ∈ (S.V j).filter _ ↔ _
    rw [List.mem_filter]
    simp
  have hclean : ∀ ρ ∈ S.rows, ∀ x ∈ ρ, x ∉ S.touched c → (rd M x).column ≠ c →
      ∀ z ∈ ρ, z ∉ S.V c := by
    intro ρ hρ x hx hxt hxc z hz hzc
    apply hxt
    rw [h.touched_mem hc]
    refine ⟨z, hzc, ρ, hρ, hz, hx, ?_⟩
    rintro rfl
    exact hxc (h.vcellr c (h.H_sub c hc) x hzc).1
  have hkeep : ∀ ρ ∈ S.rows, (∀ z ∈ ρ, z ∉ S.V c) → ∀ y ∈ ρ, y ∉ S.touched c := by
    intro ρ hρ hno y hy hyt
    obtain ⟨z, hz, ρ', hρ', hzρ', hyρ', _⟩ := (h.touched_mem hc y).1 hyt
    have e := rows_unique h.rows_disj hρ hρ' hy hyρ'
    subst e
    exact hno z hzρ' hz
  refine { toWF0 := h0, vrow := ?_, live := ?_, full := ?_ }
  · intro j hj x hx
    exact h.vrow j hj x ((hV j x).1 hx).1
  · intro j hj x hx ρ hρ hxρ y hy
    rw [hcol, hH, hV]
    obtain ⟨hjc, hjH⟩ := (hH j).1 hj
    obtain ⟨hxV, hxt⟩ := (hV j x).1 hx
    have hxc : (rd M x).column ≠ c := by
      rw [(h.vcellr j (h.H_sub j hjH) x hxV).1]; exact hjc
    have hno := hclean ρ hρ x hxρ hxt hxc
    have hl := h.live j hjH x hxV ρ hρ hxρ y hy
    refine ⟨⟨?_, hl.1⟩, hl.2, hkeep ρ hρ hno y hy⟩
    intro e
    rw [e] at hl
    exact hno y hy hl.2
  · intro ρ hρ hall y hy
    rw [hcol, hV]
    have hall' : ∀ z ∈ ρ, (rd M z).column ≠ c ∧ (rd M z).column ∈ S.H := by
      intro z hz
      have := hall z hz
      rw [hcol, hH] at this
      exact this
    refine ⟨h.full ρ hρ (fun z hz => (hall' z hz).2) y hy, ?_⟩
    apply hkeep ρ hρ _ y hy
    intro z hz hzc
    exact (hall' z hz).1 (h.vcellr c (h.H_sub c hc) z hzc).1

/-! ## `CoverColumn` and `UncoverColumn` on a well-formed mesh -/

theorem coverCells_flatMap_snoc (f : Nat → List Nat) (P : List Nat) (r : Nat) (M : Mesh) :
    coverCells ((P ++ [r]).flatMap f) M = coverCells (f r) (coverCells (P.flatMap f) M) := by
  rw [List.flatMap_append, coverCells_append]
  simp

theorem WF.V_cell {M : Mesh} {hd : Nat} {S : Shape} (h : WF M hd S) {c : Nat} (hc : c ∈ S.H)
    {r : Nat} (hr : r ∈ S.V c) : r ≠ c ∧ ∃ ρ ∈ S.rows, r ∈ ρ := by
  have := h.toWF0.cell_of_V (h.H_sub c hc) hr
  refine ⟨fun e => this.2.1 (e ▸ h.H_sub c hc), (h.vcellr c (h.H_sub c hc) r hr).2⟩

/-- The row of a cell of the ring of `c`, in a state reached during the cover
of `c`. -/
theorem cover_prefix_row {M : Mesh} {hd : Nat} {S : Shape} (h : WF M hd S) {c : Nat}
    (hc : c ∈ S.H) {P R : List Nat} (e : S.V c = P ++ R) {r : Nat} (hr : r ∈ S.V c) :
    Chain (fun z => (rd (coverCells (P.flatMap S.others) (unlinkHdr c M)) z).right)
        (fun z => (rd (coverCells (P.flatMap S.others) (unlinkHdr c M)) z).left) r
        (S.others r) r ∧ r ∉ S.others r := by
  have hw := (cover_prefix_state h hc e).1
  obtain ⟨_, ρ, hρ, hrρ⟩ := h.V_cell hc hr
  have := hw.others_spec (ρ := ρ) hρ hrρ
  rw [others_remove] at this
  exact ⟨this.2.2, (List.nodup_cons.1 this.1).1⟩

theorem cover_prefix_ring {M : Mesh} {hd : Nat} {S : Shape} (h : WF M hd S) {c : Nat}
    (hc : c ∈ S.H) {P R : List Nat} (e : S.V c = P ++ R) :
    Chain (fun z => (rd (coverCells (P.flatMap S.others) (unlinkHdr c M)) z).down)
      (fun z => (rd (coverCells (P.flatMap S.others) (unlinkHdr c M)) z).up) c (S.V c) c := by
  obtain ⟨hw, hV, _⟩ := cover_prefix_state h hc e
  have := hw.vring c (h.H_sub c hc)
  rw [hV] at this
  exact this

theorem CoverColumn_unfold (lf c : Nat) (M : Mesh) :
    CoverColumn lf c M =
      forRing (fun M r => (rd M r).down) c
        (fun r M => forRing (fun M c => (rd M c).right) r (fun c M => .ok (coverCell c M))
          lf (rd M r).right M)
        lf (rd (unlinkHdr c M) c).down (unlinkHdr c M) := rfl

/-- `CoverColumn(c)` on a well-formed mesh whose header ring contains `c`: it
returns the covered mesh when the fuel suffices and runs out of fuel otherwise. -/
theorem CoverColumn_eq {M : Mesh} {hd : Nat} {S : Shape} (h : WF M hd S) {c : Nat}
    (hc : c ∈ S.H) (lf : Nat) :
    (S.coverFuel c lf → CoverColumn lf c M = .ok (coverPure S c M)) ∧
      (¬ S.coverFuel c lf → CoverColumn lf c M = .error .outOfFuel) := by
  have key := forRing_spec (fun (M : Mesh) r => (rd M r).down) c
    (fun r M => forRing (fun M c => (rd M c).right) r
      (fun c M => .ok (coverCell c M)) lf (rd M r).right M)
    (fun r => (S.others r).length < lf)
    (fun R s => ∃ P, S.V c = P ++ R ∧ s = coverCells (P.flatMap S.others) (unlinkHdr c M)) (by
      rintro r rest s ⟨P, e1, e2⟩
      have hr : r ∈ S.V c := by rw [e1]; simp
      obtain ⟨hch, hx⟩ := cover_prefix_row h hc e1 hr
      rw [← e2] at hch
      have hb := coverRow_loop s r (S.others r) hch hx lf
      refine ⟨(h.V_cell hc hr).1, fun hn => ?_, fun hg => ?_⟩
      · show forRing _ _ _ _ _ _ = _
        rw [hb, if_neg hn]
      · refine ⟨coverCells (S.others r) s, ?_, ?_, ⟨P ++ [r], by simp [e1], ?_⟩⟩
        · show forRing _ _ _ _ _ _ = _
          rw [hb, if_pos hg]
        · have e1' : S.V c = (P ++ [r]) ++ rest := by simp [e1]
          have hc2 := cover_prefix_ring h hc e1'
          rw [coverCells_flatMap_snoc, ← e2] at hc2
          rw [e1, chain_append] at hc2
          exact chain_next hc2.2
        · rw [coverCells_flatMap_snoc, e2])
    (S.V c) lf (unlinkHdr c M) ⟨[], rfl, rfl⟩
  have hstart : (rd (unlinkHdr c M) c).down = (S.V c).headD c := by
    have := cover_prefix_ring h hc (P := []) (R := S.V c) rfl
    exact chain_next this
  rw [← hstart] at key
  constructor
  · intro hf
    obtain ⟨s', e1, P, e2, e3⟩ := key.2 hf
    simp only [List.append_nil] at e2
    rw [CoverColumn_unfold, e1, e3, ← e2]
    rfl
  · intro hf
    rw [CoverColumn_unfold]
    exact key.1 hf

/-- `UncoverColumn(c)` applied to the mesh `CoverColumn(c)` produced restores the
mesh as it was before. -/
theorem UncoverColumn_eq {M : Mesh} {hd : Nat} {S : Shape} (h : WF M hd S) {c : Nat}
    (hc : c ∈ S.H) (lf : Nat) :
    (S.coverFuel c lf → UncoverColumn lf c (coverPure S c M) = .ok M) ∧
      (¬ S.coverFuel c lf → UncoverColumn lf c (coverPure S c M) = .error .outOfFuel) := by
  have hring := chain_reverse (cover_prefix_ring h hc (P := S.V c) (R := []) (by simp))
  have key := forRing_spec (fun (M : Mesh) r => (rd M r).up) c
    (fun r M => forRing (fun M c => (rd M c).left) r
      (fun c M => .ok (uncoverCell c M)) lf (rd M r).left M)
    (fun r => (S.others r).length < lf)
    (fun R s => ∃ Q, S.V c = R.reverse ++ Q ∧
      s = coverCells (R.reverse.flatMap S.others) (unlinkHdr c M)) (by
      rintro r rest s ⟨Q, e1, e2⟩
      have e1' : S.V c = rest.reverse ++ r :: Q := by simpa using e1
      have hr : r ∈ S.V c := by rw [e1']; simp
      obtain ⟨hw, _, hL⟩ := cover_prefix_state h hc e1'
      obtain ⟨hch, hx⟩ := cover_prefix_row h hc e1' hr
      have es : s = coverCells (S.others r)
          (coverCells (rest.reverse.flatMap S.others) (unlinkHdr c M)) := by
        rw [e2, List.reverse_cons, coverCells_flatMap_snoc]
      have hb := uncoverRow_loop hw r (S.others r) (hL r (by simp)) hch hx lf
      rw [← es] at hb
      refine ⟨(h.V_cell hc hr).1, fun hn => ?_, fun hg => ?_⟩
      · show forRing _ _ _ _ _ _ = _
        rw [hb, if_neg hn]
      · refine ⟨_, ?_, ?_, ⟨r :: Q, e1', rfl⟩⟩
        · show forRing _ _ _ _ _ _ = _
          rw [hb, if_pos hg]
        · have hc2 := chain_reverse (cover_prefix_ring h hc e1')
          have e3 : (S.V c).reverse = Q.reverse ++ r :: rest := by rw [e1']; simp
          rw [e3, chain_append] at hc2
          exact chain_next hc2.2)
    (S.V c).reverse lf (coverPure S c M) ⟨[], by simp, by simp [coverPure, Shape.touched]⟩
  have hstart : (rd (coverPure S c M) c).up = (S.V c).reverse.headD c := chain_next hring
  rw [← hstart] at key
  have hfuel : ((S.V c).reverse.length < lf ∧ ∀ x ∈ (S.V c).reverse, (S.others x).length < lf) ↔
      S.coverFuel c lf := by
    simp [Shape.coverFuel]
  rw [hfuel] at key
  constructor
  · intro hf
    obtain ⟨s', e1, Q, _, e3⟩ := key.2 hf
    simp only [List.reverse_nil, List.flatMap_nil, coverCells_nil] at e3
    unfold UncoverColumn
    rw [e1, e3]
    simp only
    exact congrArg Except.ok (wf0_unlinkHdr h.toWF0 hc).2
  · intro hf
    unfold UncoverColumn
    rw [key.1 hf]

/-! ## Covering several columns in a row -/

theorem coverCells_size_of_not_col (cols : List Nat) :
    ∀ (L : List Nat) (M : Mesh), (∀ y ∈ L, (rd M y).column ∈ cols) → ∀ x, x ∉ cols →
      (rd (coverCells L M) x).size = (rd M x).size
  | [], _, _, _, _ => rfl
  | y :: L, M, hL, x, hx => by
    rw [coverCells_cons, coverCells_size_of_not_col cols L (coverCell y M)
      (fun z hz => by simpa using hL z (List.mem_cons_of_mem _ hz)) x hx, coverCell_size, if_neg]
    rintro ⟨rfl, _⟩
    exact hx (hL y (List.mem_cons_self _ _))

@[simp] theorem length_coverPure (S : Shape) (c : Nat) (M : Mesh) :
    (coverPure S c M).length = M.length := by
  simp [coverPure]

@[simp] theorem coverPure_column (S : Shape) (c : Nat) (M : Mesh) (x : Nat) :
    (rd (coverPure S c M) x).column = (rd M x).column := by
  simp [coverPure]

theorem coverPure_size {M : Mesh} {hd : Nat} {S : Shape} (h : WF M hd S) {c : Nat}
    (hc : c ∈ S.H) {x : Nat} (hx : x ∉ S.cols) :
    (rd (coverPure S c M) x).size = (rd M x).size := by
  unfold coverPure
  rw [coverCells_size_of_not_col S.cols _ _ _ x hx]
  · simp
  · intro y hy
    simp only [unlinkHdr_column]
    exact h.H_sub _ (h.touched_col hc hy).2.1

@[simp] theorem colsOf_coverPure (S : Shape) (c : Nat) (M : Mesh) (ρ : List Nat) :
    colsOf (coverPure S c M) ρ = colsOf M ρ := by
  simp [colsOf]

@[simp] theorem cover_rows (S : Shape) (c : Nat) : (S.cover c).rows = S.rows := rfl

@[simp] theorem cover_cols (S : Shape) (c : Nat) : (S.cover c).cols = S.cols := rfl

@[simp] theorem cover_H (S : Shape) (c : Nat) : (S.cover c).H = S.H.erase c := rfl

@[simp] theorem cover_others (S : Shape) (c : Nat) (x : Nat) :
    (S.cover c).others x = S.others x := rfl

@[simp] theorem coverShape_nil (S : Shape) : coverShape S [] = S := rfl

@[simp] theorem coverShape_cons (S : Shape) (c : Nat) (C : List Nat) :
    coverShape S (c :: C) = coverShape (S.cover c) C := rfl

theorem coverShape_append (S : Shape) (C1 C2 : List Nat) :
    coverShape S (C1 ++ C2) = coverShape (coverShape S C1) C2 := by
  simp [coverShape, List.foldl_append]

@[simp] theorem coverShape_rows (S : Shape) (C : List Nat) : (coverShape S C).rows = S.rows := by
  induction C generalizing S with
  | nil => rfl
  | cons c C ih => simp [ih]

@[simp] theorem coverShape_cols (S : Shape) (C : List Nat) : (coverShape S C).cols = S.cols := by
  induction C generalizing S with
  | nil => rfl
  | cons c C ih => simp [ih]

@[simp] theorem coverShape_others (S : Shape) (C : List Nat) (x : Nat) :
    (coverShape S C).others x = S.others x := by
  induction C generalizing S with
  | nil => rfl
  | cons c C ih => simp [ih]

@[simp] theorem coverCols_nil (S : Shape) (M : Mesh) : coverCols S [] M = M := rfl

@[simp] theorem coverCols_cons (S : Shape) (c : Nat) (C : List Nat) (M : Mesh) :
    coverCols S (c :: C) M = coverCols (S.cover c) C (coverPure S c M) := rfl

theorem coverCols_append (S : Shape) (C1 C2 : List Nat) (M : Mesh) :
    coverCols S (C1 ++ C2) M = coverCols (coverShape S C1) C2 (coverCols S C1 M) := by
  induction C1 generalizing S M with
  | nil => rfl
  | cons c C ih => simp [ih]

@[simp] theorem length_coverCols (S : Shape) (C : List Nat) (M : Mesh) :
    (coverCols S C M).length = M.length := by
  induction C generalizing S M with
  | nil => rfl
  | cons c C ih => simp [ih]

@[simp] theorem coverCols_column (S : Shape) (C : List Nat) (M : Mesh) (x : Nat) :
    (rd (coverCols S C M) x).column = (rd M x).column := by
  induction C generalizing S M with
  | nil => rfl
  | cons c C ih => simp [ih]

@[simp] theorem colsOf_coverCols (S : Shape) (C : List Nat) (M : Mesh) (ρ : List Nat) :
    colsOf (coverCols S C M) ρ = colsOf M ρ := by
  simp [colsOf]

/-- Covering distinct columns of the header ring one after the other keeps the
mesh well formed. -/
theorem wf_coverCols (hd : Nat) : ∀ (C : List Nat) {M : Mesh} {S : Shape}, WF M hd S →
    C.Nodup → (∀ c ∈ C, c ∈ S.H) →
    WF (coverCols S C M) hd (coverShape S C) ∧
      (∀ x, x ∉ S.cols → (rd (coverCols S C M) x).size = (rd M x).size) ∧
      (coverShape S C).H.Perm (S.H.diff C) ∧ (C ++ (coverShape S C).H).Perm S.H
  | [], M, S, h, _, _ => by simp [h]
  | c :: C, M, S, h, hnd, hsub => by
    have hc : c ∈ S.H := hsub c (List.mem_cons_self _ _)
    have hnd' := List.nodup_cons.1 hnd
    have h1 := cover_wf h hc
    have hsub' : ∀ c' ∈ C, c' ∈ (S.cover c).H := by
      intro c' hc'
      rw [cover_H, h.H_nodup.mem_erase_iff]
      refine ⟨?_, hsub c' (List.mem_cons_of_mem _ hc')⟩
      rintro rfl; exact hnd'.1 hc'
    obtain ⟨ih1, ih2, ih3, ih4⟩ := wf_coverCols hd C h1 hnd'.2 hsub'
    refine ⟨ih1, ?_, ?_, ?_⟩
    · intro x hx
      rw [coverCols_cons, ih2 x hx, coverPure_size h hc hx]
    · rw [coverShape_cons, List.diff_cons]
      exact ih3
    · rw [coverShape_cons]
      have : (c :: (C ++ (coverShape (S.cover c) C).H)).Perm (c :: S.H.erase c) :=
        List.Perm.cons c ih4
      exact this.trans (List.perm_cons_erase hc).symm

/-! ## Covering and uncovering the other columns of a row -/

theorem WF0.others_cols_nodup {M : Mesh} {hd : Nat} {S : Shape} (h : WF0 M hd S)
    {ρ : List Nat} (hρ : ρ ∈ S.rows) {r : Nat} (hr : r ∈ ρ) :
    ((S.others r).map (fun y => (rd M y).column)).Nodup := by
  obtain ⟨h1, h2, _⟩ := h.others_spec hρ hr
  refine List.Nodup.map_on ?_ (List.nodup_cons.1 h1).2
  intro x hx y hy e
  exact h.col_inj hρ ((h2 x).1 hx).1 ((h2 y).1 hy).1 e

/-- The state reached after the columns of the cells `P`, a leading part of the
other cells of the row of `r`, were covered. -/
theorem coverOthers_prefix_state {M : Mesh} {hd : Nat} {S : Shape} (h : WF M hd S)
    {ρ : List Nat} (hρ : ρ ∈ S.rows) {r : Nat} (hr : r ∈ ρ)
    (hcols : ∀ y ∈ S.others r, (rd M y).column ∈ S.H) {P R : List Nat}
    (e : S.others r = P ++ R) :
    WF (coverCols S (P.map (fun y => (rd M y).column)) M) hd
        (coverShape S (P.map (fun y => (rd M y).column))) ∧
      Chain (fun z => (rd (coverCols S (P.map (fun y => (rd M y).column)) M) z).right)
        (fun z => (rd (coverCols S (P.map (fun y => (rd M y).column)) M) z).left) r
        (S.others r) r ∧
      r ∉ S.others r ∧
      ∀ y ∈ R, (rd M y).column ∈ (coverShape S (P.map (fun y => (rd M y).column))).H := by
  have hnd := h.toWF0.others_cols_nodup hρ hr
  rw [e, List.map_append] at hnd
  have hnd' := List.nodup_append.1 hnd
  have hsub : ∀ c ∈ P.map (fun y => (rd M y).column), c ∈ S.H := by
    intro c hc
    obtain ⟨y, hy, rfl⟩ := List.mem_map.1 hc
    exact hcols y (e ▸ List.mem_append_left _ hy)
  obtain ⟨w1, _, w3, _⟩ := wf_coverCols (hd) _ h hnd'.1 hsub
  have hρ' : ρ ∈ (coverShape S (P.map (fun y => (rd M y).column))).rows := by simpa using hρ
  have hs := w1.toWF0.others_spec hρ' hr
  rw [coverShape_others] at hs
  refine ⟨w1, hs.2.2, (List.nodup_cons.1 hs.1).1, ?_⟩
  intro y hy
  apply w3.symm.subset
  apply List.mem_diff_of_mem (hcols y (e ▸ List.mem_append_right _ hy))
  intro hm
  exact hnd'.2.2 hm (List.mem_map.2 ⟨y, hy, rfl⟩)

theorem ok_of_CoverColumn {M : Mesh} {hd : Nat} {S : Shape} (h : WF M hd S) {c : Nat}
    (hc : c ∈ S.H) {lf : Nat} {M' : Mesh} (e : CoverColumn lf c M = .ok M') :
    M' = coverPure S c M := by
  by_cases hf : S.coverFuel c lf
  · rw [(CoverColumn_eq h hc lf).1 hf] at e
    exact (Except.ok.inj e).symm
  · rw [(CoverColumn_eq h hc lf).2 hf] at e
    cases e

theorem ok_of_UncoverColumn {M : Mesh} {hd : Nat} {S : Shape} (h : WF M hd S) {c : Nat}
    (hc : c ∈ S.H) {lf : Nat} {M' : Mesh}
    (e : UncoverColumn lf c (coverPure S c M) = .ok M') : M' = M := by
  by_cases hf : S.coverFuel c lf
  · rw [(UncoverColumn_eq h hc lf).1 hf] at e
    exact (Except.ok.inj e).symm
  · rw [(UncoverColumn_eq h hc lf).2 hf] at e
    cases e

/-- The loop of `Search` that covers the other columns of the row of `r`. -/
theorem coverOthers_ok {M : Mesh} {hd : Nat} {S : Shape} (h : WF M hd S)
    {ρ : List Nat} (hρ : ρ ∈ S.rows) {r : Nat} (hr : r ∈ ρ)
    (hcols : ∀ y ∈ S.others r, (rd M y).column ∈ S.H) {lf : Nat} {M2 : Mesh}
    (e : forRing (fun M c => (rd M c).right) r (fun c M => CoverColumn lf (rd M c).column M)
      lf (rd M r).right M = .ok M2) :
    M2 = coverCols S ((S.others r).map (fun y => (rd M y).column)) M := by
  have hstart := chain_next (coverOthers_prefix_state h hρ hr hcols (P := []) rfl).2.1
  simp only [List.map_nil, coverCols_nil] at hstart
  rw [hstart] at e
  have key := forRing_sound (fun (M : Mesh) c => (rd M c).right) r
    (fun c M => CoverColumn lf (rd M c).column M)
    (fun R s => ∃ P, S.others r = P ++ R ∧
      s = coverCols S (P.map (fun y => (rd M y).column)) M) (by
      rintro y rest s ⟨P, e1, e2⟩
      obtain ⟨w1, _, w3, w4⟩ := coverOthers_prefix_state h hρ hr hcols e1
      refine ⟨?_, fun s1 hb => ?_⟩
      · rintro rfl; exact w3 (e1 ▸ by simp)
      · have e1' : S.others r = (P ++ [y]) ++ rest := by simp [e1]
        obtain ⟨_, v2, _, _⟩ := coverOthers_prefix_state h hρ hr hcols e1'
        have hcy : (rd s y).column = (rd M y).column := by rw [e2]; simp
        simp only [hcy] at hb
        rw [e2] at hb
        have es := ok_of_CoverColumn w1 (w4 y (by simp)) hb
        have es' : s1 = coverCols S ((P ++ [y]).map (fun y => (rd M y).column)) M := by
          rw [es, List.map_append, coverCols_append]; rfl
        refine ⟨?_, ⟨P ++ [y], e1', es'⟩⟩
        rw [← es'] at v2
        rw [e1, chain_append] at v2
        exact chain_next v2.2)
    (S.others r) lf M M2 ⟨[], rfl, rfl⟩ e
  obtain ⟨P, e1, e2⟩ := key
  simp only [List.append_nil] at e1
  rw [e2, e1]

/-- The loop of `Search` that uncovers the other columns of the row of `r`, run
on the mesh the covering loop produced. -/
theorem uncoverOthers_ok {M : Mesh} {hd : Nat} {S : Shape} (h : WF M hd S)
    {ρ : List Nat} (hρ : ρ ∈ S.rows) {r : Nat} (hr : r ∈ ρ)
    (hcols : ∀ y ∈ S.others r, (rd M y).column ∈ S.H) {lf : Nat} {M4 : Mesh}
    (e : forRing (fun M c => (rd M c).left) r (fun c M => UncoverColumn lf (rd M c).column M)
      lf (rd (coverCols S ((S.others r).map (fun y => (rd M y).column)) M) r).left
      (coverCols S ((S.others r).map (fun y => (rd M y).column)) M) = .ok M4) :
    M4 = M := by
  have hstart := chain_next (chain_reverse
    (coverOthers_prefix_state h hρ hr hcols (P := S.others r) (R := []) (by simp)).2.1)
  rw [hstart] at e
  have key := forRing_sound (fun (M : Mesh) c => (rd M c).left) r
    (fun c M => UncoverColumn lf (rd M c).column M)
    (fun R s => ∃ Q, S.others r = R.reverse ++ Q ∧
      s = coverCols S (R.reverse.map (fun y => (rd M y).column)) M) (by
      rintro y rest s ⟨Q, e1, e2⟩
      have e1' : S.others r = rest.reverse ++ y :: Q := by simpa using e1
      obtain ⟨w1, w2, w3, w4⟩ := coverOthers_prefix_state h hρ hr hcols e1'
      refine ⟨?_, fun s1 hb => ?_⟩
      · rintro rfl; exact w3 (e1' ▸ by simp)
      · have hcy : (rd s y).column = (rd M y).column := by rw [e2]; simp
        have es : s = coverPure (coverShape S (rest.reverse.map (fun y => (rd M y).column)))
            (rd M y).column (coverCols S (rest.reverse.map (fun y => (rd M y).column)) M) := by
          rw [e2, List.reverse_cons, List.map_append, coverCols_append]; rfl
        simp only [hcy] at hb
        rw [es] at hb
        have e3 := ok_of_UncoverColumn w1 (w4 y (by simp)) hb
        refine ⟨?_, ⟨y :: Q, e1', e3⟩⟩
        have hrev := chain_reverse w2
        have e4 : (S.others r).reverse = Q.reverse ++ y :: rest := by rw [e1']; simp
        rw [e4, chain_append] at hrev
        rw [e3]
        exact chain_next hrev.2)
    (S.others r).reverse lf _ M4 ⟨[], by simp, by simp⟩ e
  obtain ⟨Q, _, e2⟩ := key
  simpa using e2

/-! ## The column scan -/

theorem selectColumn_mem {M : Mesh} {hd : Nat} :
    ∀ (fuel : Nat) (l : List Nat) (x : Nat) (mc : Option Nat) (c : Nat),
      Chain (fun z => (rd M z).right) (fun z => (rd M z).left) x l hd → hd ∉ l →
      selectColumn M hd fuel x mc = .ok (some c) → mc = some c ∨ c ∈ x :: l
  | 0, _, _, _, _, _, _, e => by simp [selectColumn] at e
  | fuel + 1, l, x, mc, c, hch, hl, e => by
    unfold selectColumn at e
    by_cases h1 : (rd M x).right = hd
    · rw [if_pos h1] at e
      exact Or.inl (Except.ok.inj e)
    · rw [if_neg h1] at e
      cases l with
      | nil => exact absurd hch.1 h1
      | cons z l' =>
        have hz : (rd M x).right = z := hch.1
        have hch' := hch.2.2
        have hl' : hd ∉ l' := fun hm => hl (List.mem_cons_of_mem _ hm)
        rw [hz] at e
        simp only at e
        split at e
        · split at e
          · have := Except.ok.inj e
            simp only [Option.some.injEq] at this
            right; rw [← this]; simp
          · rcases selectColumn_mem fuel l' z (some x) c hch' hl' e with h | h
            · simp only [Option.some.injEq] at h
              right; rw [← h]; simp
            · right; exact List.mem_cons_of_mem _ h
        · rcases selectColumn_mem fuel l' z mc c hch' hl' e with h | h
          · exact Or.inl h
          · right; exact List.mem_cons_of_mem _ h

/-- A column the scan of `Search` returns is a column of the header ring. -/
theorem selectColumn_ok {M : Mesh} {hd : Nat} {S : Shape} (h : WF0 M hd S) {fuel : Nat}
    {c : Nat} (e : selectColumn M hd fuel (rd M hd).right none = .ok (some c)) : c ∈ S.H := by
  have hch := h.hring
  have hhd : hd ∉ S.H := fun hm => h.hd_notin (h.H_sub _ hm)
  cases hH : S.H with
  | nil =>
    rw [hH] at hch
    have h1 : (rd M hd).right = hd := hch.1
    rw [h1] at e
    cases fuel with
    | zero => simp [selectColumn] at e
    | succ n =>
      unfold selectColumn at e
      rw [if_pos h1] at e
      cases e
  | cons x l =>
    rw [hH] at hch hhd
    have h1 : (rd M hd).right = x := hch.1
    rw [h1] at e
    rcases selectColumn_mem fuel l x none c hch.2.2 (fun hm => hhd (List.mem_cons_of_mem _ hm)) e
      with h1 | h1
    · cases h1
    · exact h1

/-! ## One level of the search -/

theorem colsOf_perm {M : Mesh} {hd : Nat} {S : Shape} (h : WF0 M hd S) {ρ : List Nat}
    (hρ : ρ ∈ S.rows) {r : Nat} (hr : r ∈ ρ) :
    (colsOf M ρ).Perm ((rd M r).column :: (S.others r).map (fun y => (rd M y).column)) := by
  obtain ⟨l1, l2, rfl⟩ := List.append_of_mem hr
  rw [h.others_eq hρ]
  have : (l1 ++ r :: l2).Perm (r :: (l2 ++ l1)) :=
    List.perm_middle.trans (List.Perm.cons r List.perm_append_comm)
  exact this.map _

/-- The columns covered when the row of the cell `r` of column `c` is chosen:
they are distinct columns of the header ring. -/
theorem WF.choice_cols {M : Mesh} {hd : Nat} {S : Shape} (h : WF M hd S) {c : Nat}
    (hc : c ∈ S.H) {r : Nat} (hr : r ∈ S.V c) :
    (c :: (S.others r).map (fun y => (rd M y).column)).Nodup ∧
      (∀ c' ∈ c :: (S.others r).map (fun y => (rd M y).column), c' ∈ S.H) ∧
      ∀ y ∈ S.others r, (rd M y).column ∈ S.H.erase c := by
  obtain ⟨_, ρ, hρ, hrρ⟩ := h.V_cell hc hr
  have ht : ∀ y ∈ S.others r, y ∈ S.touched c := fun y hy =>
    List.mem_flatMap.2 ⟨r, hr, hy⟩
  refine ⟨List.nodup_cons.2 ⟨?_, h.toWF0.others_cols_nodup hρ hrρ⟩, ?_, ?_⟩
  · intro hm
    obtain ⟨y, hy, e⟩ := List.mem_map.1 hm
    exact (h.touched_col hc (ht y hy)).1 e
  · intro c' hc'
    rcases List.mem_cons.1 hc' with rfl | hc'
    · exact hc
    · obtain ⟨y, hy, rfl⟩ := List.mem_map.1 hc'
      exact (h.touched_col hc (ht y hy)).2.1
  · intro y hy
    have := h.touched_col hc (ht y hy)
    exact h.H_nodup.mem_erase_iff.2 ⟨this.1, this.2.1⟩

/-- If no row of the chosen column leads to an exact cover, there is none. -/
theorem no_cover_of_rows {M : Mesh} {hd : Nat} {S : Shape} (h : WF M hd S) {c : Nat}
    (hc : c ∈ S.H)
    (hno : ∀ r ∈ S.V c, ¬ ∃ sel,
      IsCover M (coverShape S (c :: (S.others r).map (fun y => (rd M y).column))) sel) :
    ¬ ∃ sel, IsCover M S sel := by
  rintro ⟨sel, hrows, hperm⟩
  have hcm : c ∈ sel.flatMap (colsOf M) := hperm.symm.subset hc
  obtain ⟨ρ, hρ, hcρ⟩ := List.mem_flatMap.1 hcm
  obtain ⟨r, hr, hrc⟩ := List.mem_map.1 hcρ
  have hρS := hrows ρ hρ
  have hall : ∀ y ∈ ρ, (rd M y).column ∈ S.H := by
    intro y hy
    apply hperm.subset
    exact List.mem_flatMap.2 ⟨ρ, hρ, List.mem_map.2 ⟨y, hy, rfl⟩⟩
  have hrV : r ∈ S.V c := by
    have := h.full ρ hρS hall r hr
    rwa [hrc] at this
  apply hno r hrV
  obtain ⟨n1, n2, _⟩ := h.choice_cols hc hrV
  obtain ⟨_, _, _, w4⟩ := wf_coverCols (hd) _ h n1 n2
  obtain ⟨sel', hp⟩ : ∃ sel', sel.Perm (ρ :: sel') := ⟨_, List.perm_cons_erase hρ⟩
  have hsub : ∀ x ∈ sel', x ∈ sel := fun x hx => hp.symm.subset (List.mem_cons_of_mem _ hx)
  refine ⟨sel', ?_, ?_⟩
  · intro ρ' hρ'
    rw [coverShape_rows]
    exact hrows ρ' (hsub ρ' hρ')
  · have p1 : (sel.flatMap (colsOf M)).Perm (colsOf M ρ ++ sel'.flatMap (colsOf M)) := by
      have := hp.flatMap_right (colsOf M)
      rwa [List.flatMap_cons] at this
    have p2 := colsOf_perm h.toWF0 hρS hr
    rw [hrc] at p2
    have p3 : ((c :: (S.others r).map (fun y => (rd M y).column)) ++
        sel'.flatMap (colsOf M)).Perm
        ((c :: (S.others r).map (fun y => (rd M y).column)) ++
          (coverShape S (c :: (S.others r).map (fun y => (rd M y).column))).H) :=
      ((p2.symm.append_right _).trans (p1.symm.trans hperm)).trans w4.symm
    exact (List.perm_append_left_iff _).1 p3

/-- Choosing the row of the cell `r` of column `c` and then finding an exact
cover of what remains gives an exact cover. -/
theorem searchPost_of_row {d : DLX} {S : Shape} (h : WF d.nodes d.head S) {c : Nat}
    (hc : c ∈ S.H) {r : Nat} (hr : r ∈ S.V c) {d3 : DLX}
    (hpost : SearchPost
      { d with
        nodes := coverCols S (c :: (S.others r).map (fun y => (rd d.nodes y).column)) d.nodes
        selected_rows := d.selected_rows ++ [(rd (coverPure S c d.nodes) r).row] }
      (coverShape S (c :: (S.others r).map (fun y => (rd d.nodes y).column))) true d3) :
    SearchPost d S true d3 := by
  obtain ⟨picks, C, q1, ⟨q2, q3⟩, q4, q5⟩ := hpost
  obtain ⟨hrc, ρ, hρ, hrρ⟩ := h.vcellr c (h.H_sub c hc) r hr
  obtain ⟨n1, n2, _⟩ := h.choice_cols hc hr
  obtain ⟨_, w2, _, w4⟩ := wf_coverCols (d.head) _ h n1 n2
  have hcell : ∀ x, (∃ ρ' ∈ S.rows, x ∈ ρ') → x ∉ S.cols := by
    rintro x ⟨ρ', hρ', hx⟩
    exact (h.row_cell ρ' hρ' x hx).2.1
  refine ⟨(r, ρ) :: picks, (c :: (S.others r).map (fun y => (rd d.nodes y).column)) ++ C,
    ?_, ⟨?_, ?_⟩, ?_, ?_⟩
  · intro p hp
    rcases List.mem_cons.1 hp with rfl | hp
    · exact hrρ
    · exact q1 p hp
  · intro ρ' hρ'
    simp only [List.map_cons, List.mem_cons] at hρ'
    rcases hρ' with rfl | hρ'
    · exact hρ
    · have := q2 ρ' hρ'
      rwa [coverShape_rows] at this
  · simp only [List.map_cons, List.flatMap_cons]
    have e : colsOf (coverCols S (c :: (S.others r).map (fun y => (rd d.nodes y).column))
        d.nodes) = colsOf d.nodes := funext fun ρ' => colsOf_coverCols _ _ _ _
    simp only at q3
    rw [e] at q3
    have p2 := colsOf_perm h.toWF0 hρ hrρ
    rw [hrc] at p2
    exact ((p2.append_right _).trans (q3.append_left _)).trans w4
  · exact (q4.append_left _).trans w4
  · rw [q5]
    simp only [DLX.mk.injEq, true_and, and_true]
    constructor
    · rw [coverCols_append]
    · simp only [List.map_cons, List.append_assoc, List.singleton_append, List.append_cancel_left_eq,
        List.cons.injEq]
      constructor
      · exact coverPure_size h hc (hcell r ⟨ρ, hρ, hrρ⟩)
      · apply List.map_congr_left
        intro p hp
        apply w2
        apply hcell
        refine ⟨p.2, ?_, q1 p hp⟩
        have := q2 p.2 (List.mem_map.2 ⟨p, hp, rfl⟩)
        rwa [coverShape_rows] at this

/-! ## Partial correctness of `Search` -/

theorem cover_V_self {M : Mesh} {hd : Nat} {S : Shape} (h : WF M hd S) {c : Nat}
    (hc : c ∈ S.H) : (S.cover c).V c = S.V c := by
  have := (cover_prefix_state h hc (P := S.V c) (R := []) (by simp)).2.1
  exact this

theorem isCover_coverCols (S S' : Shape) (C : List Nat) (M : Mesh) (sel : List (List Nat)) :
    IsCover (coverCols S C M) S' sel ↔ IsCover M S' sel := by
  have e : colsOf (coverCols S C M) = colsOf M := funext fun ρ => colsOf_coverCols _ _ _ _
  unfold IsCover
  rw [e]

/-- The candidate-row loop of `Search`, entered after `CoverColumn(c)` with the
cells `R` of column `c` still to try. -/
theorem tryRows_spec {lf : Nat} {search : DLX → Except Fault (Bool × DLX)}
    (hrec : ∀ d2 S2 b d', WF d2.nodes d2.head S2 → search d2 = .ok (b, d') →
      SearchPost d2 S2 b d')
    {d : DLX} {S : Shape} (h : WF d.nodes d.head S) {c : Nat} (hc : c ∈ S.H) :
    ∀ (R P : List Nat), S.V c = P ++ R → ∀ (k : Nat) (b : Bool) (d' : DLX),
      tryRows lf search c k (R.headD c) { d with nodes := coverPure S c d.nodes } = .ok (b, d') →
      (b = true → SearchPost d S true d') ∧
      (b = false → d' = { d with nodes := coverPure S c d.nodes } ∧
        ∀ r ∈ R, ¬ ∃ sel, IsCover d.nodes
          (coverShape S (c :: (S.others r).map (fun y => (rd d.nodes y).column))) sel)
  | _, _, _, 0, _, _, e => by simp [tryRows] at e
  | [], _, _, k + 1, b, d', e => by
    rw [List.headD_nil, tryRows, if_pos rfl] at e
    have := Except.ok.inj e
    simp only [Prod.mk.injEq] at this
    obtain ⟨rfl, rfl⟩ := this
    simp
  | r :: rest, P, hV, k + 1, b, d', e => by
    have hr : r ∈ S.V c := by rw [hV]; simp
    have hne : r ≠ c := (h.V_cell hc hr).1
    obtain ⟨_, ρ, hρ, hrρ⟩ := h.V_cell hc hr
    have h1 := cover_wf h hc
    obtain ⟨n1, n2, n3⟩ := h.choice_cols hc hr
    have hcols : ∀ y ∈ (S.cover c).others r,
        (rd (coverPure S c d.nodes) y).column ∈ (S.cover c).H := by
      intro y hy
      rw [coverPure_column, cover_H]
      exact n3 y hy
    have hmap : ((S.cover c).others r).map (fun y => (rd (coverPure S c d.nodes) y).column) =
        (S.others r).map (fun y => (rd d.nodes y).column) := by
      rw [cover_others]
      apply List.map_congr_left
      intro y _
      simp
    obtain ⟨w1, _, _, _⟩ := wf_coverCols (d.head) _ h n1 n2
    rw [List.headD_cons, tryRows, if_neg hne] at e
    simp only at e
    split at e
    · cases e
    · rename_i M2 hM2
      have eM2 := coverOthers_ok h1 (ρ := ρ) (by simpa using hρ) hrρ hcols hM2
      rw [hmap] at eM2
      have eM2' : M2 = coverCols S (c :: (S.others r).map (fun y => (rd d.nodes y).column))
          d.nodes := eM2
      split at e
      · cases e
      · rename_i d3 hs
        have := Except.ok.inj e
        simp only [Prod.mk.injEq] at this
        obtain ⟨rfl, rfl⟩ := this
        rw [eM2'] at hs
        have hpost := hrec _ _ _ _ w1 hs
        refine ⟨fun _ => searchPost_of_row h hc hr hpost, fun hb => by cases hb⟩
      · rename_i d3 hs
        rw [eM2'] at hs
        have hpost := hrec _ _ _ _ w1 hs
        obtain ⟨ed3, hno⟩ := hpost
        split at e
        · cases e
        · rename_i M4 hM4
          rw [ed3] at hM4
          simp only at hM4
          rw [← hmap] at hM4
          have eM4 := uncoverOthers_ok h1 (ρ := ρ) (by simpa using hρ) hrρ hcols hM4
          have hd5 : ({ d3 with nodes := M4, selected_rows := d3.selected_rows.dropLast } : DLX) =
              { d with nodes := coverPure S c d.nodes } := by
            rw [ed3, eM4]
            simp
          rw [hd5] at e
          have hnext : (rd M4 r).down = rest.headD c := by
            rw [eM4]
            have hring := h1.vring c (by simpa using h.H_sub c hc)
            rw [cover_V_self h hc, hV, chain_append] at hring
            exact chain_next hring.2
          rw [hnext] at e
          have ih := tryRows_spec hrec h hc rest (P ++ [r]) (by simp [hV]) k b d' e
          refine ⟨ih.1, fun hb => ⟨(ih.2 hb).1, ?_⟩⟩
          intro r' hr'
          rcases List.mem_cons.1 hr' with rfl | hr'
          · rintro ⟨sel, hsel⟩
            exact hno ⟨sel, (isCover_coverCols _ _ _ _ _).2 hsel⟩
          · exact (ih.2 hb).2 r' hr'

/-- Partial correctness of `Search` on a well-formed mesh. -/
theorem Search_spec (lf : Nat) : ∀ (depth : Nat) (d : DLX) (S : Shape) (b : Bool) (d' : DLX),
    WF d.nodes d.head S → Search lf depth d = .ok (b, d') → SearchPost d S b d'
  | 0, _, _, _, _, _, e => by simp [Search] at e
  | depth + 1, d, S, b, d', h, e => by
    rw [Search] at e
    by_cases h0 : (rd d.nodes d.head).right = d.head
    · rw [if_pos h0] at e
      have := Except.ok.inj e
      simp only [Prod.mk.injEq] at this
      obtain ⟨rfl, rfl⟩ := this
      have hH : S.H = [] := by
        cases hH : S.H with
        | nil => rfl
        | cons x l =>
          have hch := h.hring
          rw [hH] at hch
          have hx : (rd d.nodes d.head).right = x := hch.1
          have : x ∈ S.H := by rw [hH]; simp
          exact absurd (hx.symm.trans h0 ▸ h.H_sub x this) h.hd_notin
      refine ⟨[], [], by simp, ⟨by simp, by simp [hH]⟩, by simp [hH], by simp⟩
    · rw [if_neg h0] at e
      split at e
      · cases e
      · cases e
      · rename_i c hsel
        have hc := selectColumn_ok h.toWF0 hsel
        split at e
        · cases e
        · rename_i M1 hM1
          have eM1 := ok_of_CoverColumn h hc hM1
          subst eM1
          have hstart : (rd (coverPure S c d.nodes) c).down = (S.V c).headD c := by
            have hring := (cover_wf h hc).vring c (by simpa using h.H_sub c hc)
            rw [cover_V_self h hc] at hring
            exact chain_next hring
          rw [hstart] at e
          split at e
          · cases e
          · rename_i d3 ht
            have := Except.ok.inj e
            simp only [Prod.mk.injEq] at this
            obtain ⟨rfl, rfl⟩ := this
            exact (tryRows_spec (fun d2 S2 b d' => Search_spec lf depth d2 S2 b d') h hc
              (S.V c) [] rfl lf true _ ht).1 rfl
          · rename_i d3 ht
            obtain ⟨ed3, hno⟩ := (tryRows_spec (fun d2 S2 b d' => Search_spec lf depth d2 S2 b d')
              h hc (S.V c) [] rfl lf false _ ht).2 rfl
            split at e
            · cases e
            · rename_i M4 hM4
              rw [ed3] at hM4
              have eM4 := ok_of_UncoverColumn h hc hM4
              have := Except.ok.inj e
              simp only [Prod.mk.injEq] at this
              obtain ⟨rfl, rfl⟩ := this
              refine ⟨?_, no_cover_of_rows h hc hno⟩
              rw [ed3, eM4]

/-! ## Linking a new cell into a column -/

theorem addCell_eq (nodes : Nat) (indices : List Nat) (n n_rows : Nat) (M : Mesh) (i : Nat) :
    addCell nodes indices n n_rows M i =
      linkCell (nodes + i) (0 + indices.getD i 0) n_rows
        (setLeft (setRight M (nodes + i) (nodes + (i + 1) % n)) (nodes + (i + 1) % n)
          (nodes + i)) := rfl

@[simp] theorem length_linkCell (x j nr : Nat) (M : Mesh) :
    (linkCell x j nr M).length = M.length := by
  simp [linkCell]

@[simp] theorem linkCell_left (x j nr : Nat) (M : Mesh) (q : Nat) :
    (rd (linkCell x j nr M) q).left = (rd M q).left := by
  simp [linkCell]

@[simp] theorem linkCell_right (x j nr : Nat) (M : Mesh) (q : Nat) :
    (rd (linkCell x j nr M) q).right = (rd M q).right := by
  simp [linkCell]

theorem linkCell_column (x j nr : Nat) (M : Mesh) (q : Nat) (hx : x < M.length) :
    (rd (linkCell x j nr M) q).column = if q = x then j else (rd M q).column := by
  simp [linkCell, hx]

theorem linkCell_up (x j nr : Nat) (M : Mesh) (q : Nat) (hx : x < M.length)
    (hj : j < M.length) :
    (rd (linkCell x j nr M) q).up =
      if q = j then x else if q = x then (rd M j).up else (rd M q).up := by
  simp [linkCell, hx, hj]

theorem linkCell_down (x j nr : Nat) (M : Mesh) (q : Nat) (hx : x < M.length)
    (hxj : x ≠ j) (hb : (rd M j).up < M.length) :
    (rd (linkCell x j nr M) q).down =
      if q = (rd M j).up then x else if q = x then j else (rd M q).down := by
  have hjx : ¬ (j = x ∧ x < M.length) := fun e => hxj e.1.symm
  simp [linkCell, hx, hb, hjx]

theorem linkCell_size (x j nr : Nat) (M : Mesh) (q : Nat) (hx : x < M.length)
    (hxj : x ≠ j) (hj : j < M.length) :
    (rd (linkCell x j nr M) q).size =
      if q = j then incr (rd M j).size else if q = x then nr else (rd M q).size := by
  have hjx : ¬ (j = x) := fun e => hxj e.symm
  simp [linkCell, hx, hj, hjx]

/-- Appending a node at the end of a chain. -/
theorem chain_snoc {nxt prv nxt' prv' : Nat → Nat} {x b : Nat} (hx1 : nxt' (prv b) = x)
    (hx2 : prv' x = prv b) :
    ∀ {l : List Nat} {a : Nat}, Chain nxt prv a l b → (a :: l).Nodup →
      (∀ z ∈ a :: l, z ≠ prv b → nxt' z = nxt z) → (∀ z ∈ l, prv' z = prv z) →
      Chain nxt' prv' a l x
  | [], a, h, _, _, _ => by
    simp only [Chain] at h ⊢
    rw [← h.2]
    exact ⟨hx1, hx2⟩
  | z :: l, a, h, nd, hn, hp => by
    simp only [Chain] at h ⊢
    obtain ⟨h1, h2, h3⟩ := h
    have hm := chain_prev_mem h3
    have hne : a ≠ prv b := by
      intro e
      rw [← e] at hm
      exact (List.nodup_cons.1 nd).1 hm
    refine ⟨by rw [hn a (by simp) hne]; exact h1, by rw [hp z (by simp)]; exact h2, ?_⟩
    exact chain_snoc hx1 hx2 h3 (List.nodup_cons.1 nd).2
      (fun w hw => hn w (List.mem_cons_of_mem _ hw))
      (fun w hw => hp w (List.mem_cons_of_mem _ hw))

/-- A write to the `right` or `left` link of a node that is neither in the header
ring nor in a row. -/
theorem wf0_frame_horizontal {M M' : Mesh} {hd : Nat} {S : Shape} (h : WF0 M hd S)
    (p : Nat) (hlen : M'.length = M.length)
    (hsame : ∀ q, (rd M' q).up = (rd M q).up ∧ (rd M' q).down = (rd M q).down ∧
      (rd M' q).column = (rd M q).column ∧ (rd M' q).size = (rd M q).size ∧
      (q ≠ p → (rd M' q).left = (rd M q).left ∧ (rd M' q).right = (rd M q).right))
    (hp1 : p ≠ hd) (hp2 : p ∉ S.cols) (hp3 : ∀ ρ ∈ S.rows, p ∉ ρ) : WF0 M' hd S := by
  have hcol : (fun x => (rd M' x).column) = fun x => (rd M x).column :=
    funext fun x => (hsame x).2.2.1
  have hdn : (fun x => (rd M' x).down) = fun x => (rd M x).down :=
    funext fun x => (hsame x).2.1
  have hup : (fun x => (rd M' x).up) = fun x => (rd M x).up :=
    funext fun x => (hsame x).1
  have hH : ∀ x ∈ hd :: S.H, x ≠ p := by
    intro x hx e
    rcases List.mem_cons.1 hx with rfl | hx
    · exact hp1 e.symm
    · exact hp2 (e ▸ h.H_sub _ hx)
  refine
    { hd_lt := by rw [hlen]; exact h.hd_lt
      hd_notin := h.hd_notin
      hd_vert := by rw [(hsame hd).1, (hsame hd).2.1]; exact h.hd_vert
      H_sub := h.H_sub
      H_nodup := h.H_nodup
      hring := chain_congr h.hring (fun x hx => ((hsame x).2.2.2.2 (hH x hx)).2)
        (fun x hx => ((hsame x).2.2.2.2 (hH x (by
          simp only [List.mem_append, List.mem_singleton, List.mem_cons] at hx ⊢; tauto))).1)
      col_lt := fun j hj => by rw [hlen]; exact h.col_lt j hj
      col_self := fun j hj => by rw [(hsame j).2.2.1]; exact h.col_self j hj
      col_size := fun j hj => by rw [(hsame j).2.2.2.1]; exact h.col_size j hj
      vring := fun j hj => by rw [hdn, hup]; exact h.vring j hj
      vnodup := h.vnodup
      vcell := fun j hj x hx => by rw [hlen, (hsame x).2.2.1]; exact h.vcell j hj x hx
      row_ring := fun ρ hρ => ring_congr (h.row_ring ρ hρ)
        (fun x hx => ((hsame x).2.2.2.2 (fun e => hp3 ρ hρ (e ▸ hx))).2)
        (fun x hx => ((hsame x).2.2.2.2 (fun e => hp3 ρ hρ (e ▸ hx))).1)
      row_cols := fun ρ hρ => by rw [hcol]; exact h.row_cols ρ hρ
      row_cell := fun ρ hρ x hx => by rw [hlen, (hsame x).2.2.1]; exact h.row_cell ρ hρ x hx
      rows_disj := h.rows_disj }

/-- Linking a fresh cell in at the bottom of a column keeps the mesh
structurally well formed. -/
theorem wf0_linkCell {M : Mesh} {hd : Nat} {S : Shape} (h : WF0 M hd S) {j x : Nat} (nr : Nat)
    (hj : j ∈ S.cols) (hx : x < M.length) (hx1 : x ≠ hd) (hx2 : x ∉ S.cols)
    (hx3 : ∀ j' ∈ S.cols, x ∉ S.V j') (hx4 : ∀ ρ ∈ S.rows, x ∉ ρ)
    (hsz : (S.V j).length + 1 < 18446744073709551616) :
    WF0 (linkCell x j nr M) hd (S.link j x) := by
  have hxj : x ≠ j := fun e => hx2 (e ▸ hj)
  have hjl := h.col_lt j hj
  have hch := h.vring j hj
  have hb : (rd M j).up ∈ j :: S.V j := chain_prev_mem hch
  have hb' := h.ring_col hj hb
  have hbx : (rd M j).up ≠ x := by
    rintro e
    rcases List.mem_cons.1 hb with e' | e'
    · exact hxj (e.symm.trans e')
    · exact hx3 j hj (e ▸ e')
  have hnd : (j :: S.V j).Nodup :=
    List.nodup_cons.2 ⟨fun hm => (h.cell_of_V hj hm).2.1 hj, h.vnodup j hj⟩
  have hup := fun q => linkCell_up x j nr M q hx hjl
  have hdown := fun q => linkCell_down x j nr M q hx hxj hb'.2
  have hsize := fun q => linkCell_size x j nr M q hx hxj hjl
  have hcolumn := fun q => linkCell_column x j nr M q hx
  have hVj : (S.link j x).V j = S.V j ++ [x] := by simp [Shape.link]
  have hVo : ∀ j', j' ≠ j → (S.link j x).V j' = S.V j' := by
    intro j' hne; simp [Shape.link, hne]
  have hcolc : ∀ j' ∈ S.cols, j' ≠ x := fun j' hj' e => hx2 (e ▸ hj')
  refine
    { hd_lt := by simpa using h.hd_lt
      hd_notin := h.hd_notin
      hd_vert := ?_
      H_sub := h.H_sub
      H_nodup := h.H_nodup
      hring := chain_congr h.hring (fun q _ => by simp) (fun q _ => by simp)
      col_lt := fun j' hj' => by simpa using h.col_lt j' hj'
      col_self := fun j' hj' => by rw [hcolumn, if_neg (hcolc j' hj')]; exact h.col_self j' hj'
      col_size := ?_
      vring := ?_
      vnodup := ?_
      vcell := ?_
      row_ring := fun ρ hρ =>
        ring_congr (h.row_ring ρ hρ) (fun q _ => by simp) (fun q _ => by simp)
      row_cols := ?_
      row_cell := ?_
      rows_disj := h.rows_disj }
  · have e1 : hd ≠ j := fun e => h.hd_notin (e ▸ hj)
    have e2 : hd ≠ (rd M j).up := by
      rintro e
      rcases List.mem_cons.1 hb with e' | e'
      · exact e1 (e.trans e')
      · exact (h.cell_of_V hj (e ▸ e')).2.2.1 rfl
    rw [hup, hdown, if_neg e1, if_neg (Ne.symm hx1), if_neg e2, if_neg (Ne.symm hx1)]
    exact h.hd_vert
  · intro j' hj'
    rw [hsize]
    by_cases e : j' = j
    · subst e
      rw [if_pos rfl, hVj, (h.col_size _ hj).1]
      simp only [List.length_append, List.length_singleton]
      refine ⟨?_, hsz⟩
      unfold incr
      omega
    · rw [if_neg e, if_neg (hcolc j' hj'), hVo j' e]
      exact h.col_size j' hj'
  · intro j' hj'
    by_cases e : j' = j
    · subst e
      rw [hVj]
      have hlast : Chain (fun q => (rd (linkCell x j' nr M) q).down)
          (fun q => (rd (linkCell x j' nr M) q).up) x [] j' := by
        simp only [Chain]
        rw [hdown, hup, if_neg (Ne.symm hbx), if_pos rfl, if_pos rfl]
        exact ⟨rfl, rfl⟩
      have hfirst : Chain (fun q => (rd (linkCell x j' nr M) q).down)
          (fun q => (rd (linkCell x j' nr M) q).up) j' (S.V j') x := by
        refine chain_snoc (b := j') ?_ ?_ hch hnd ?_ ?_
        · show (rd (linkCell x j' nr M) (rd M j').up).down = x
          rw [hdown, if_pos rfl]
        · show (rd (linkCell x j' nr M) x).up = (rd M j').up
          rw [hup, if_neg hxj, if_pos rfl]
        · intro z hz hzb
          show (rd (linkCell x j' nr M) z).down = _
          have hzx : z ≠ x := by
            rintro rfl
            rcases List.mem_cons.1 hz with e' | e'
            · exact hxj e'
            · exact hx3 j' hj e'
          rw [hdown, if_neg hzb, if_neg hzx]
        · intro z hz
          show (rd (linkCell x j' nr M) z).up = _
          have hzx : z ≠ x := by rintro rfl; exact hx3 j' hj hz
          have hzj : z ≠ j' := by rintro rfl; exact (h.cell_of_V hj hz).2.1 hj
          rw [hup, if_neg hzj, if_neg hzx]
      exact chain_append.2 ⟨hfirst, hlast⟩
    · rw [hVo j' e]
      have hcolour : ∀ z ∈ j' :: S.V j', z ≠ x ∧ z ≠ j ∧ z ≠ (rd M j).up := by
        intro z hz
        have hc := (h.ring_col hj' hz).1
        refine ⟨?_, ?_, ?_⟩
        · rintro rfl
          rcases List.mem_cons.1 hz with e' | e'
          · exact hcolc j' hj' e'.symm
          · exact hx3 j' hj' e'
        · rintro rfl; exact e (hc.symm.trans (h.col_self _ hj))
        · rintro rfl; exact e (hc.symm.trans hb'.1)
      refine chain_congr (h.vring j' hj') ?_ ?_
      · intro z hz
        obtain ⟨c1, c2, c3⟩ := hcolour z hz
        show (rd (linkCell x j nr M) z).down = _
        rw [hdown, if_neg c3, if_neg c1]
      · intro z hz
        obtain ⟨c1, c2, c3⟩ := hcolour z (by
          simp only [List.mem_append, List.mem_singleton, List.mem_cons] at hz ⊢; tauto)
        show (rd (linkCell x j nr M) z).up = _
        rw [hup, if_neg c2, if_neg c1]
  · intro j' hj'
    by_cases e : j' = j
    · subst e
      rw [hVj]
      refine List.Nodup.append (h.vnodup j' hj) (List.nodup_singleton _) ?_
      intro z hz hz'
      rw [List.mem_singleton] at hz'
      exact hx3 j' hj (hz' ▸ hz)
    · rw [hVo j' e]; exact h.vnodup j' hj'
  · intro j' hj' z hz
    rw [length_linkCell, hcolumn]
    by_cases e : j' = j
    · subst e
      rw [hVj, List.mem_append, List.mem_singleton] at hz
      rcases hz with hz | rfl
      · have hzx : z ≠ x := by rintro rfl; exact hx3 j' hj hz
        rw [if_neg hzx]; exact h.vcell j' hj z hz
      · rw [if_pos rfl]; exact ⟨hx, hx2, hx1, rfl⟩
    · rw [hVo j' e] at hz
      have hzx : z ≠ x := by rintro rfl; exact hx3 j' hj' hz
      rw [if_neg hzx]; exact h.vcell j' hj' z hz
  · intro ρ hρ
    have : ρ.map (fun q => (rd (linkCell x j nr M) q).column) =
        ρ.map (fun q => (rd M q).column) := by
      apply List.map_congr_left
      intro z hz
      rw [hcolumn, if_neg]
      rintro rfl; exact hx4 ρ hρ hz
    rw [this]; exact h.row_cols ρ hρ
  · intro ρ hρ z hz
    have hzx : z ≠ x := by rintro rfl; exact hx4 ρ hρ hz
    rw [length_linkCell, hcolumn, if_neg hzx]
    exact h.row_cell ρ hρ z hz

/-! ## Allocation of a block -/

theorem rd_append_default (M : Mesh) (k x : Nat) :
    rd (M ++ List.replicate k default) x = rd M x := by
  unfold rd
  rw [List.getD_eq_getElem?_getD, List.getD_eq_getElem?_getD]
  by_cases h : x < M.length
  · rw [List.getElem?_append_left h]
  · rw [List.getElem?_append_right (by omega), List.getElem?_eq_none (l := M) (by omega)]
    by_cases h2 : x - M.length < k
    · rw [List.getElem?_replicate_of_lt h2]; rfl
    · rw [List.getElem?_eq_none (by simpa using h2)]

/-- Well-formedness only depends on what is read from the store. -/
theorem wf0_of_rd_eq {M M' : Mesh} {hd : Nat} {S : Shape} (h : WF0 M hd S)
    (hlen : M.length ≤ M'.length) (hrd : ∀ q, rd M' q = rd M q) : WF0 M' hd S := by
  have e : rd M' = rd M := funext hrd
  exact
    { hd_lt := lt_of_lt_of_le h.hd_lt hlen
      hd_notin := h.hd_notin
      hd_vert := by rw [e]; exact h.hd_vert
      H_sub := h.H_sub
      H_nodup := h.H_nodup
      hring := by rw [e]; exact h.hring
      col_lt := fun j hj => lt_of_lt_of_le (h.col_lt j hj) hlen
      col_self := by rw [e]; exact h.col_self
      col_size := by rw [e]; exact h.col_size
      vring := by rw [e]; exact h.vring
      vnodup := h.vnodup
      vcell := fun j hj x hx => by
        rw [e]
        obtain ⟨a, b⟩ := h.vcell j hj x hx
        exact ⟨lt_of_lt_of_le a hlen, b⟩
      row_ring := by rw [e]; exact h.row_ring
      row_cols := by rw [e]; exact h.row_cols
      row_cell := fun ρ hρ x hx => by
        rw [e]
        obtain ⟨a, b⟩ := h.row_cell ρ hρ x hx
        exact ⟨lt_of_lt_of_le a hlen, b⟩
      rows_disj := h.rows_disj }

/-! ## `std::unique` -/

theorem mem_unique : ∀ (l : List Nat) (j : Nat), j ∈ unique l ↔ j ∈ l
  | [], _ => by simp [unique]
  | [a], _ => by simp [unique]
  | a :: b :: l, j => by
    have ih := mem_unique (b :: l) j
    unfold unique
    split
    · rename_i h
      subst h
      rw [ih]
      simp
    · simp only [List.mem_cons] at ih ⊢
      rw [ih]

theorem unique_head : ∀ (l : List Nat) (a : Nat), ∀ x ∈ unique (a :: l), x = a ∨ x ∈ l := by
  intro l a x hx
  have := (mem_unique (a :: l) x).1 hx
  simpa using this

theorem unique_sorted : ∀ (l : List Nat), l.Sorted (· ≤ ·) → (unique l).Sorted (· < ·)
  | [], _ => by simp [unique]
  | [a], _ => by simp [unique]
  | a :: b :: l, h => by
    have hs : (b :: l).Sorted (· ≤ ·) := h.of_cons
    have ih := unique_sorted (b :: l) hs
    unfold unique
    split
    · exact ih
    · rename_i hne
      refine List.sorted_cons.2 ⟨?_, ih⟩
      intro x hx
      have hx' := (mem_unique (b :: l) x).1 hx
      have hab : a ≤ b := List.rel_of_sorted_cons h b (by simp)
      have hbx : b ≤ x := by
        rcases List.mem_cons.1 hx' with rfl | hx'
        · exact le_refl _
        · exact List.rel_of_sorted_cons hs x hx'
      omega

theorem unique_length_le : ∀ (l : List Nat), (unique l).length ≤ l.length
  | [] => by simp [unique]
  | [a] => by simp [unique]
  | a :: b :: l => by
    have ih := unique_length_le (b :: l)
    unfold unique
    split
    · simp only [List.length_cons] at ih ⊢; omega
    · simp only [List.length_cons] at ih ⊢; omega

/-- The sorted, deduplicated vector `AddRow` works with. -/
theorem sortedRow_spec (indices : List Nat) :
    (unique (indices.insertionSort (· ≤ ·))).Sorted (· < ·) ∧
      (unique (indices.insertionSort (· ≤ ·))).Nodup ∧
      (∀ j, j ∈ unique (indices.insertionSort (· ≤ ·)) ↔ j ∈ indices) ∧
      (unique (indices.insertionSort (· ≤ ·))).length ≤ indices.length := by
  have hs := unique_sorted _ (List.sorted_insertionSort (· ≤ ·) indices)
  refine ⟨hs, hs.nodup, ?_, ?_⟩
  · intro j
    rw [mem_unique]
    exact (List.perm_insertionSort (· ≤ ·) indices).mem_iff
  · have := unique_length_le (indices.insertionSort (· ≤ ·))
    rwa [List.length_insertionSort] at this

/-! ## The loop of `AddRow` -/

theorem addCells_nil (S : Shape) (base : Nat) : S.addCells base [] = S := by
  cases S
  simp [Shape.addCells]

theorem addCells_snoc (S : Shape) (base : Nat) (us : List Nat) (j : Nat) (hj : j ∉ us) :
    S.addCells base (us ++ [j]) = (S.addCells base us).link j (base + us.length) := by
  cases S
  simp only [Shape.addCells, Shape.link, Shape.mk.injEq, true_and, and_true]
  funext j'
  by_cases e : j' = j
  · subst e
    simp [hj, List.indexOf_append_of_not_mem hj]
  · by_cases hm : j' ∈ us
    · simp [e, hm, List.indexOf_append_of_mem hm]
    · simp [e, hm]

theorem addCells_V_mem {S : Shape} {base : Nat} {us : List Nat} {j x : Nat}
    (h : x ∈ (S.addCells base us).V j) :
    x ∈ S.V j ∨ (j ∈ us ∧ x = base + us.indexOf j) := by
  simp only [Shape.addCells, List.mem_append] at h
  rcases h with h | h
  · exact Or.inl h
  · by_cases hm : j ∈ us
    · rw [if_pos hm, List.mem_singleton] at h
      exact Or.inr ⟨hm, h⟩
    · rw [if_neg hm] at h
      cases h

theorem addRow_loop {S : Shape} {hd base raw : Nat} {u : List Nat} (nr : Nat) {M0 : Mesh}
    (h0 : WF0 M0 hd S) (hlen : M0.length = base + raw) (hu : u.Nodup)
    (hucol : ∀ j ∈ u, j ∈ S.cols) (hraw : u.length ≤ raw) (hb1 : hd < base)
    (hb2 : ∀ j ∈ S.cols, j < base) (hb3 : ∀ j ∈ S.cols, ∀ x ∈ S.V j, x < base)
    (hb4 : ∀ ρ ∈ S.rows, ∀ x ∈ ρ, x < base)
    (hsz : ∀ j ∈ S.cols, (S.V j).length + 1 < 18446744073709551616) :
    ∀ t, t ≤ u.length →
      AddInv S hd base raw u nr M0 t ((List.range t).foldl (addCell base u u.length nr) M0)
  | 0, _ => by
    refine ⟨?_, hlen, fun q _ => ⟨rfl, rfl, rfl, fun _ => rfl⟩,
      fun i hi => absurd hi (Nat.not_lt_zero _), fun i hi => absurd hi (Nat.not_lt_zero _)⟩
    simp only [List.range_zero, List.foldl_nil, List.take_zero]
    rw [addCells_nil]
    exact h0
  | t + 1, ht => by
    have ih := addRow_loop nr h0 hlen hu hucol hraw hb1 hb2 hb3 hb4 hsz t (by omega)
    rw [List.range_succ, List.foldl_append]
    simp only [List.foldl_cons, List.foldl_nil]
    generalize (List.range t).foldl (addCell base u u.length nr) M0 = M at ih ⊢
    obtain ⟨wf, len, frame, horiz, cell⟩ := ih
    have htl : t < u.length := by omega
    have hut : u.getD t 0 = u[t] := by
      rw [List.getD_eq_getElem?_getD, List.getElem?_eq_getElem htl]; rfl
    have hjmem : u[t] ∈ u := List.getElem_mem _
    have hjcol := hucol _ hjmem
    have htake : u.take (t + 1) = u.take t ++ [u[t]] := by
      rw [List.take_succ, List.getElem?_eq_getElem htl]; rfl
    have hjnot : u[t] ∉ u.take t := by
      intro hm
      have hnd : (u.take (t + 1)).Nodup := hu.sublist (List.take_sublist _ _)
      rw [htake] at hnd
      exact (List.nodup_append.1 hnd).2.2 hm (by simp)
    have htlen : (u.take t).length = t := by simp; omega
    -- the cell is fresh
    have hfresh : ∀ k, t ≤ k → base + k ≠ hd ∧ base + k ∉ S.cols ∧
        (∀ j' ∈ S.cols, base + k ∉ (S.addCells base (u.take t)).V j') ∧
        ∀ ρ ∈ S.rows, base + k ∉ ρ := by
      intro k hk
      refine ⟨by omega, fun hm => by have := hb2 _ hm; omega, ?_, ?_⟩
      · intro j' hj' hm
        rcases addCells_V_mem hm with hm | ⟨hm1, hm2⟩
        · have := hb3 j' hj' _ hm; omega
        · have := List.indexOf_lt_length.2 hm1
          rw [htlen] at this
          omega
      · intro ρ hρ hm
        have := hb4 ρ hρ _ hm; omega
    have hmod : (t + 1) % u.length = t + 1 ∨ ((t + 1) % u.length = 0 ∧ t + 1 = u.length) := by
      by_cases e : t + 1 < u.length
      · exact Or.inl (Nat.mod_eq_of_lt e)
      · right
        have : t + 1 = u.length := by omega
        exact ⟨by rw [this, Nat.mod_self], this⟩
    have hk : t ≤ (t + 1) % u.length ∨ (t + 1) % u.length = 0 := by
      rcases hmod with e | e
      · left; omega
      · right; exact e.1
    -- the two horizontal writes
    have wfA : WF0 (setRight M (base + t) (base + (t + 1) % u.length)) hd
        (S.addCells base (u.take t)) := by
      obtain ⟨f1, f2, _, f4⟩ := hfresh t (le_refl _)
      refine wf0_frame_horizontal wf (base + t) (by simp) ?_ f1 f2 f4
      intro q
      refine ⟨by simp, by simp, by simp, by simp, fun hq => ⟨by simp, ?_⟩⟩
      rw [setRight_right, if_neg (fun e => hq e.1)]
    have hp : base + (t + 1) % u.length ≠ hd ∧ base + (t + 1) % u.length ∉ S.cols ∧
        ∀ ρ ∈ S.rows, base + (t + 1) % u.length ∉ ρ := by
      refine ⟨by omega, fun hm => by have := hb2 _ hm; omega, ?_⟩
      intro ρ hρ hm
      have := hb4 ρ hρ _ hm; omega
    have wfB : WF0 (setLeft (setRight M (base + t) (base + (t + 1) % u.length))
        (base + (t + 1) % u.length) (base + t)) hd (S.addCells base (u.take t)) := by
      refine wf0_frame_horizontal wfA (base + (t + 1) % u.length) (by simp) ?_ hp.1 hp.2.1 hp.2.2
      intro q
      refine ⟨by simp, by simp, by simp, by simp, fun hq => ⟨?_, by simp⟩⟩
      rw [setLeft_left, if_neg (fun e => hq e.1)]
    have hVj : (S.addCells base (u.take t)).V u[t] = S.V u[t] := by
      simp [Shape.addCells, hjnot]
    obtain ⟨f1, f2, f3, f4⟩ := hfresh t (le_refl _)
    have hxlen : base + t < (setLeft (setRight M (base + t) (base + (t + 1) % u.length))
        (base + (t + 1) % u.length) (base + t)).length := by
      simp only [length_setLeft, length_setRight, len]; omega
    have wfC := wf0_linkCell wfB nr (j := u[t]) (x := base + t) hjcol hxlen f1 f2 f3 f4
      (by rw [hVj]; exact hsz _ hjcol)
    have hjlt : u[t] < base := hb2 _ hjcol
    rw [addCell_eq, hut, Nat.zero_add]
    have hlenB : (setLeft (setRight M (base + t) (base + (t + 1) % u.length))
        (base + (t + 1) % u.length) (base + t)).length = base + raw := by
      simp [len]
    refine ⟨?_, by simp [len], ?_, ?_, ?_⟩
    · rw [htake, addCells_snoc _ _ _ _ hjnot, htlen]
      exact wfC
    · intro q hq
      obtain ⟨g1, g2, g3, g4⟩ := frame q hq
      have n1 : ¬ (q = base + t ∧ base + t < M.length) := fun e => by omega
      have n2 : ¬ (q = base + (t + 1) % u.length ∧
          base + (t + 1) % u.length < (setRight M (base + t) (base + (t + 1) % u.length)).length) :=
        fun e => by omega
      have n3 : q ≠ base + t := by omega
      refine ⟨?_, ?_, ?_, ?_⟩
      · rw [linkCell_left, setLeft_left, if_neg n2, setRight_left]; exact g1
      · rw [linkCell_right, setLeft_right, setRight_right, if_neg n1]; exact g2
      · rw [linkCell_column _ _ _ _ _ (by rw [hlenB]; omega), if_neg n3, setLeft_column,
          setRight_column]
        exact g3
      · intro hqu
        have n4 : q ≠ u[t] := fun e => hqu (e ▸ hjmem)
        rw [linkCell_size _ _ _ _ _ (by rw [hlenB]; omega) (by omega) (by rw [hlenB]; omega),
          if_neg n4, if_neg n3, setLeft_size, setRight_size]
        exact g4 hqu
    · intro i hi
      simp only [linkCell_left, linkCell_right, setLeft_right, setRight_right, setLeft_left,
        setRight_left, length_setRight, len]
      by_cases e : i = t
      · subst e
        have hb : base + i < base + raw := by omega
        have hb' : base + (i + 1) % u.length < base + raw := by
          have := Nat.mod_lt (i + 1) (show 0 < u.length by omega)
          omega
        simp [hb, hb']
      · have hi' : i < t := by omega
        obtain ⟨c1, c2⟩ := horiz i hi'
        have hi1 : (i + 1) % u.length = i + 1 := Nat.mod_eq_of_lt (by omega)
        have n1 : ¬ (base + i = base + t ∧ base + t < base + raw) := fun e => by omega
        have n2 : ¬ (base + (i + 1) % u.length = base + (t + 1) % u.length ∧
            base + (t + 1) % u.length < base + raw) := by
          rintro ⟨e', _⟩
          rcases hmod with m | m
          · rw [hi1, m] at e'; omega
          · rw [hi1, m.1] at e'; omega
        rw [if_neg n1, if_neg n2]
        exact ⟨c1, c2⟩
    · intro i hi
      have hxB : base + t < (setLeft (setRight M (base + t) (base + (t + 1) % u.length))
          (base + (t + 1) % u.length) (base + t)).length := by rw [hlenB]; omega
      have hjB : u[t] < (setLeft (setRight M (base + t) (base + (t + 1) % u.length))
          (base + (t + 1) % u.length) (base + t)).length := by rw [hlenB]; omega
      rw [linkCell_column _ _ _ _ _ hxB, linkCell_size _ _ _ _ _ hxB (by omega) hjB]
      simp only [setLeft_column, setRight_column, setLeft_size, setRight_size]
      by_cases e : i = t
      · subst e
        have n1 : base + i ≠ u[i] := by omega
        rw [hut, if_pos rfl, if_neg n1, if_pos rfl]
        exact ⟨rfl, rfl⟩
      · have hi' : i < t := by omega
        have n1 : base + i ≠ base + t := by omega
        have n2 : base + i ≠ u[t] := by omega
        rw [if_neg n1, if_neg n2, if_neg n1]
        exact cell i hi'

/-! ## A block linked into a ring by index arithmetic -/

theorem chain_range' (nxt prv : Nat → Nat) (base m : Nat)
    (h : ∀ i, i ≤ m → nxt (base + i) = base + (i + 1) % (m + 1) ∧
      prv (base + (i + 1) % (m + 1)) = base + i) :
    ∀ (len k : Nat), k + len = m →
      Chain nxt prv (base + k) (List.range' (base + k + 1) len) base
  | 0, k, e => by
    simp only [List.range'_zero, Chain]
    have hk : k = m := by omega
    subst hk
    have := h k (le_refl _)
    rw [Nat.mod_self, Nat.add_zero] at this
    exact this
  | len + 1, k, e => by
    simp only [List.range'_succ, Chain]
    have := h k (by omega)
    rw [Nat.mod_eq_of_lt (by omega)] at this
    refine ⟨this.1, this.2, ?_⟩
    have ih := chain_range' nxt prv base m h len (k + 1) (by omega)
    exact ih

theorem ring_range' (nxt prv : Nat → Nat) (base n : Nat)
    (h : ∀ i, i < n → nxt (base + i) = base + (i + 1) % n ∧ prv (base + (i + 1) % n) = base + i) :
    RingOn nxt prv (List.range' base n) := by
  cases n with
  | zero => simp [RingOn]
  | succ m =>
    simp only [List.range'_succ, RingOn]
    have := chain_range' nxt prv base m
      (fun i hi => h i (by omega)) m 0 (by omega)
    simpa using this

/-! ## The constructor -/

/-- The shape of a freshly constructed mesh. -/
theorem new_loop (n : Nat) : ∀ t, t ≤ n + 1 →
    ((List.range t).foldl (initNode n) (List.replicate (n + 1) default)).length = n + 1 ∧
    ∀ i, i < t →
      (rd ((List.range t).foldl (initNode n) (List.replicate (n + 1) default)) i).right =
        (i + 1) % (n + 1) ∧
      (rd ((List.range t).foldl (initNode n) (List.replicate (n + 1) default))
        ((i + 1) % (n + 1))).left = i ∧
      (rd ((List.range t).foldl (initNode n) (List.replicate (n + 1) default)) i).up = i ∧
      (rd ((List.range t).foldl (initNode n) (List.replicate (n + 1) default)) i).down = i ∧
      (rd ((List.range t).foldl (initNode n) (List.replicate (n + 1) default)) i).column = i ∧
      (rd ((List.range t).foldl (initNode n) (List.replicate (n + 1) default)) i).size = 0
  | 0, _ => by simp
  | t + 1, ht => by
    have ih := new_loop n t (by omega)
    rw [List.range_succ, List.foldl_append]
    simp only [List.foldl_cons, List.foldl_nil]
    generalize (List.range t).foldl (initNode n) (List.replicate (n + 1) default) = M at ih ⊢
    obtain ⟨len, ih⟩ := ih
    have hmod : (t + 1) % (n + 1) = t + 1 ∨ ((t + 1) % (n + 1) = 0 ∧ t = n) := by
      by_cases e : t + 1 < n + 1
      · exact Or.inl (Nat.mod_eq_of_lt e)
      · right
        have : t = n := by omega
        exact ⟨by rw [this, Nat.mod_self], this⟩
    have hml : (t + 1) % (n + 1) < n + 1 := Nat.mod_lt _ (by omega)
    refine ⟨by simp [initNode, len], ?_⟩
    intro i hi
    simp only [initNode, setSize_right, setColumn_right, setUp_right, setDown_right,
      setLeft_right, setRight_right, setSize_left, setColumn_left, setUp_left, setDown_left,
      setLeft_left, setRight_left, setSize_up, setColumn_up, setUp_up, setDown_up, setLeft_up,
      setRight_up, setSize_down, setColumn_down, setUp_down, setDown_down, setLeft_down,
      setRight_down, setSize_column, setColumn_column, setUp_column, setDown_column,
      setLeft_column, setRight_column, setSize_size, setColumn_size, setUp_size, setDown_size,
      setLeft_size, setRight_size, length_setRight, length_setLeft, length_setDown,
      length_setUp, length_setColumn, len]
    by_cases e : i = t
    · subst e
      have hi' : i < n + 1 := by omega
      simp [hi', hml]
    · have hi' : i < t := by omega
      obtain ⟨c1, c2, c3, c4, c5, c6⟩ := ih i hi'
      have hi1 : (i + 1) % (n + 1) = i + 1 := Nat.mod_eq_of_lt (by omega)
      have n1 : ¬ (i = t ∧ t < n + 1) := fun h => e h.1
      have n2 : ¬ ((i + 1) % (n + 1) = (t + 1) % (n + 1) ∧ (t + 1) % (n + 1) < n + 1) := by
        rintro ⟨e', _⟩
        rcases hmod with m | m
        · rw [hi1, m] at e'; omega
        · rw [hi1, m.1] at e'; omega
      rw [if_neg n1, if_neg n2, if_neg n1, if_neg n1, if_neg n1, if_neg n1]
      exact ⟨c1, c2, c3, c4, c5, c6⟩

/-- The constructor establishes well-formedness: all columns are in the header
ring, every column ring is empty and there are no rows. -/
theorem new_wf (n : Nat) :
    WF (DLX.new n).nodes n
      { H := List.range n, cols := List.range n, V := fun _ => [], rows := [] } := by
  obtain ⟨len, hall⟩ := new_loop n (n + 1) (le_refl _)
  have hnodes : (DLX.new n).nodes =
      (List.range (n + 1)).foldl (initNode n) (List.replicate (n + 1) default) := rfl
  rw [← hnodes] at len hall
  have hring : Chain (fun x => (rd (DLX.new n).nodes x).right)
      (fun x => (rd (DLX.new n).nodes x).left) n (List.range n) n := by
    have hr := ring_range' (fun x => (rd (DLX.new n).nodes x).right)
      (fun x => (rd (DLX.new n).nodes x).left) 0 (n + 1) (by
        intro i hi
        have := hall i hi
        simp only [Nat.zero_add]
        exact ⟨this.1, this.2.1⟩)
    have e : List.range' 0 (n + 1) = List.range' 0 n ++ n :: [] := by
      rw [← List.range_eq_range', ← List.range_eq_range', List.range_succ]
    rw [e] at hr
    have := ring_rotate hr
    rw [List.nil_append, ← List.range_eq_range'] at this
    exact this
  refine
    { hd_lt := by rw [len]; omega
      hd_notin := by simp
      hd_vert := ⟨(hall n (by omega)).2.2.1, (hall n (by omega)).2.2.2.1⟩
      H_sub := fun c hc => hc
      H_nodup := List.nodup_range n
      hring := hring
      col_lt := fun j hj => by rw [len]; have := List.mem_range.1 hj; omega
      col_self := fun j hj => (hall j (by have := List.mem_range.1 hj; omega)).2.2.2.2.1
      col_size := fun j hj =>
        ⟨(hall j (by have := List.mem_range.1 hj; omega)).2.2.2.2.2, by simp⟩
      vring := fun j hj => by
        have := hall j (by have := List.mem_range.1 hj; omega)
        exact ⟨this.2.2.2.1, this.2.2.1⟩
      vnodup := fun j _ => List.nodup_nil
      vcell := fun j _ x hx => by cases hx
      row_ring := fun ρ hρ => by cases hρ
      row_cols := fun ρ hρ => by cases hρ
      row_cell := fun ρ hρ => by cases hρ
      rows_disj := List.Pairwise.nil
      vrow := fun j _ x hx => by cases hx
      live := fun j _ x hx => by cases hx
      full := fun ρ hρ => by cases hρ }

/-! ## `AddRow` on a well-formed mesh -/

theorem addCells_take_all (S : Shape) (base : Nat) (u : List Nat) :
    S.addCells base (u.take u.length) = S.addCells base u := by
  rw [List.take_length]

/-- After the loop of `AddRow` the mesh is structurally well formed, with the new
row added. -/
theorem wf0_addRow {S : Shape} {hd base raw : Nat} {u : List Nat} {nr : Nat} {M0 M : Mesh}
    (inv : AddInv S hd base raw u nr M0 u.length M) (hu : u.Nodup)
    (hucol : ∀ j ∈ u, j ∈ S.cols) (hraw : u.length ≤ raw) (hb1 : hd < base)
    (hb2 : ∀ j ∈ S.cols, j < base) (hb4 : ∀ ρ ∈ S.rows, ∀ x ∈ ρ, x < base) :
    WF0 M hd (S.addRow base u) ∧ colsOf M (List.range' base u.length) = u := by
  obtain ⟨wf, len, frame, horiz, cell⟩ := inv
  rw [addCells_take_all] at wf
  have hcols : colsOf M (List.range' base u.length) = u := by
    apply List.ext_getElem
    · simp [colsOf]
    · intro i h1 h2
      simp only [colsOf, List.getElem_map, List.getElem_range']
      have := (cell i h2).1
      rw [Nat.mul_comm, Nat.mul_one] at *
      rw [this, List.getD_eq_getElem?_getD, List.getElem?_eq_getElem h2]
      rfl
  have hnew : ∀ x ∈ List.range' base u.length, base ≤ x ∧ x < base + u.length := by
    intro x hx
    rw [List.mem_range'_1] at hx
    exact hx
  refine ⟨?_, hcols⟩
  refine
    { hd_lt := wf.hd_lt
      hd_notin := wf.hd_notin
      hd_vert := wf.hd_vert
      H_sub := wf.H_sub
      H_nodup := wf.H_nodup
      hring := wf.hring
      col_lt := wf.col_lt
      col_self := wf.col_self
      col_size := wf.col_size
      vring := wf.vring
      vnodup := wf.vnodup
      vcell := wf.vcell
      row_ring := ?_
      row_cols := ?_
      row_cell := ?_
      rows_disj := ?_ }
  · intro ρ hρ
    rcases List.mem_append.1 hρ with hρ | hρ
    · exact wf.row_ring ρ hρ
    · rw [List.mem_singleton] at hρ
      subst hρ
      exact ring_range' _ _ _ _ horiz
  · intro ρ hρ
    rcases List.mem_append.1 hρ with hρ | hρ
    · exact wf.row_cols ρ hρ
    · rw [List.mem_singleton] at hρ
      subst hρ
      have := hcols
      unfold colsOf at this
      rw [this]
      exact hu
  · intro ρ hρ x hx
    rcases List.mem_append.1 hρ with hρ | hρ
    · exact wf.row_cell ρ hρ x hx
    · rw [List.mem_singleton] at hρ
      subst hρ
      obtain ⟨a, b⟩ := hnew x hx
      refine ⟨by rw [len]; omega, fun hm => by have := hb2 x hm; omega, by omega, ?_⟩
      have e : x = base + (x - base) := by omega
      have := (cell (x - base) (by omega)).1
      rw [← e] at this
      rw [this]
      apply hucol
      rw [List.getD_eq_getElem?_getD, List.getElem?_eq_getElem (by omega)]
      exact List.getElem_mem _
  · show (S.rows ++ [List.range' base u.length]).Pairwise List.Disjoint
    rw [List.pairwise_append]
    refine ⟨wf.rows_disj, List.pairwise_singleton _ _, ?_⟩
    intro a ha b hb x hxa hxb
    rw [List.mem_singleton] at hb
    subst hb
    have := hb4 a ha x hxa
    have := (hnew x hxb).1
    omega

theorem AddRow_nodes (d : DLX) (indices : List Nat) :
    (d.AddRow indices).nodes =
      (List.range (unique (indices.insertionSort (· ≤ ·))).length).foldl
        (addCell d.nodes.length (unique (indices.insertionSort (· ≤ ·)))
          (unique (indices.insertionSort (· ≤ ·))).length d.n_rows)
        (d.nodes ++ List.replicate indices.length default) := rfl

theorem addRow_V_mem {S : Shape} {base : Nat} {u : List Nat} (hu : u.Nodup) (i : Nat)
    (hi : i < u.length) : base + i ∈ (S.addRow base u).V u[i] := by
  show base + i ∈ S.V u[i] ++ _
  rw [if_pos (List.getElem_mem _), List.mem_append, List.mem_singleton]
  right
  rw [List.indexOf_getElem hu]

theorem rowCells_append (r : List Nat) : ∀ (rows : List (List Nat)) (base : Nat),
    rowCells base (rows ++ [r]) =
      rowCells base rows ++
        [List.range' (base + (rows.map List.length).sum)
          (unique (r.insertionSort (· ≤ ·))).length]
  | [], base => by simp [rowCells]
  | r' :: rows, base => by
    have ih := rowCells_append r rows (base + r'.length)
    show List.range' base _ :: rowCells (base + r'.length) (rows ++ [r]) = _
    rw [ih]
    simp only [rowCells, List.map_cons, List.sum_cons, List.cons_append, Nat.add_assoc]

/-- `AddRow` keeps the solver in the state described by `Built`. -/
theorem built_addRow {n : Nat} {rows : List (List Nat)} {d : DLX} {S : Shape}
    (hB : Built n rows d S) (r : List Nat) (hr : ∀ j ∈ r, j < n)
    (hlen : rows.length + 1 < 18446744073709551616) :
    Built n (rows ++ [r]) (d.AddRow r)
      (S.addRow d.nodes.length (unique (r.insertionSort (· ≤ ·)))) := by
  obtain ⟨hs, hu, hmem, hul⟩ := sortedRow_spec r
  generalize hudef : unique (r.insertionSort (· ≤ ·)) = u at hs hu hmem hul
  have hucol : ∀ j ∈ u, j ∈ S.cols := by
    intro j hj
    rw [hB.cols_eq, List.mem_range]
    exact hr j ((hmem j).1 hj)
  have h0 : WF0 (d.nodes ++ List.replicate r.length default) n S :=
    wf0_of_rd_eq hB.wf.toWF0 (by simp) (rd_append_default _ _)
  have hb1 : n < d.nodes.length := hB.wf.hd_lt
  have hb2 : ∀ j ∈ S.cols, j < d.nodes.length := hB.wf.col_lt
  have hb3 : ∀ j ∈ S.cols, ∀ x ∈ S.V j, x < d.nodes.length :=
    fun j hj x hx => (hB.wf.vcell j hj x hx).1
  have hb4 : ∀ ρ ∈ S.rows, ∀ x ∈ ρ, x < d.nodes.length :=
    fun ρ hρ x hx => (hB.wf.row_cell ρ hρ x hx).1
  have hsz : ∀ j ∈ S.cols, (S.V j).length + 1 < 18446744073709551616 := by
    intro j _
    have := hB.vlen j
    omega
  have inv := addRow_loop d.n_rows h0 (by simp) hu hucol hul hb1 hb2 hb3 hb4 hsz
    u.length (le_refl _)
  have hnodes := AddRow_nodes d r
  rw [hudef] at hnodes
  rw [← hnodes] at inv
  obtain ⟨wf0, hcolsnew⟩ := wf0_addRow inv hu hucol hul hb1 hb2 hb4
  have hVsub : ∀ j x, x ∈ S.V j → x ∈ (S.addRow d.nodes.length u).V j := by
    intro j x hx
    show x ∈ S.V j ++ _
    exact List.mem_append_left _ hx
  -- old cells keep their column and row identifier
  have hold : ∀ ρ ∈ S.rows, ∀ y ∈ ρ, (rd (d.AddRow r).nodes y).column = (rd d.nodes y).column ∧
      (rd (d.AddRow r).nodes y).size = (rd d.nodes y).size := by
    intro ρ hρ y hy
    obtain ⟨y1, y2, y3, y4⟩ := hB.wf.row_cell ρ hρ y hy
    obtain ⟨_, _, g3, g4⟩ := inv.frame y y1
    rw [rd_append_default] at g3 g4
    refine ⟨g3, g4 ?_⟩
    intro hyu
    exact y2 (hucol y hyu)
  have hnewcell : ∀ i (hi : i < u.length),
      (rd (d.AddRow r).nodes (d.nodes.length + i)).column = u[i] ∧
      (rd (d.AddRow r).nodes (d.nodes.length + i)).size = d.n_rows := by
    intro i hi
    have := inv.cell i hi
    rw [List.getD_eq_getElem?_getD, List.getElem?_eq_getElem hi] at this
    exact this
  have hlinked : ∀ ρ ∈ (S.addRow d.nodes.length u).rows, ∀ y ∈ ρ,
      y ∈ (S.addRow d.nodes.length u).V (rd (d.AddRow r).nodes y).column := by
    intro ρ hρ y hy
    rcases List.mem_append.1 hρ with hρ | hρ
    · rw [(hold ρ hρ y hy).1]
      exact hVsub _ _ (hB.linked ρ hρ y hy)
    · rw [List.mem_singleton] at hρ
      subst hρ
      rw [List.mem_range'_1] at hy
      have e : y = d.nodes.length + (y - d.nodes.length) := by omega
      rw [e, (hnewcell _ (by omega)).1]
      exact addRow_V_mem hu _ (by omega)
  have hcolsS : (S.addRow d.nodes.length u).cols = S.cols := rfl
  have hHS : (S.addRow d.nodes.length u).H = S.H := rfl
  have hgetD : ∀ i, i < rows.length →
      (S.rows ++ [List.range' d.nodes.length u.length]).getD i [] = S.rows.getD i [] := by
    intro i hi
    rw [List.getD_eq_getElem?_getD, List.getD_eq_getElem?_getD,
      List.getElem?_append_left (by rw [hB.rows_len]; exact hi)]
  have hgetD' : ∀ i, i < rows.length → (rows ++ [r]).getD i [] = rows.getD i [] := by
    intro i hi
    rw [List.getD_eq_getElem?_getD, List.getD_eq_getElem?_getD, List.getElem?_append_left hi]
  have hlast : (S.rows ++ [List.range' d.nodes.length u.length]).getD rows.length [] =
      List.range' d.nodes.length u.length := by
    rw [List.getD_eq_getElem?_getD, List.getElem?_append_right (by rw [hB.rows_len]),
      hB.rows_len]
    simp
  have hlast' : (rows ++ [r]).getD rows.length [] = r := by
    rw [List.getD_eq_getElem?_getD, List.getElem?_append_right (le_refl _)]
    simp
  have hmemS : ∀ i, i < rows.length → S.rows.getD i [] ∈ S.rows := by
    intro i hi
    rw [List.getD_eq_getElem?_getD, List.getElem?_eq_getElem (by rw [hB.rows_len]; exact hi)]
    exact List.getElem_mem _
  refine
    { wf :=
        { toWF0 := wf0
          vrow := ?_
          live := ?_
          full := fun ρ hρ _ y hy => hlinked ρ hρ y hy }
      head_eq := hB.head_eq
      n_cols_eq := hB.n_cols_eq
      n_rows_eq := ?_
      covered_eq := hB.covered_eq
      selected_eq := hB.selected_eq
      cols_eq := hB.cols_eq
      H_eq := hB.H_eq
      rows_len := ?_
      row_cols := ?_
      row_id := ?_
      linked := hlinked
      vlen := ?_
      len_eq := ?_
      rows_eq := ?_ }
  · intro j hj x hx
    rcases addCells_V_mem hx with hx | ⟨hm, hx⟩
    · obtain ⟨ρ, hρ, hxρ⟩ := hB.wf.vrow j hj x hx
      exact ⟨ρ, List.mem_append_left _ hρ, hxρ⟩
    · refine ⟨_, List.mem_append_right _ (List.mem_singleton.2 rfl), ?_⟩
      rw [List.mem_range'_1, hx]
      have := List.indexOf_lt_length.2 hm
      omega
  · intro j hj x hx ρ hρ hxρ y hy
    refine ⟨?_, hlinked ρ hρ y hy⟩
    rw [hHS, hB.H_eq, ← hB.cols_eq, ← hcolsS]
    exact (wf0.row_cell ρ hρ y hy).2.2.2
  · show incr d.n_rows = (rows ++ [r]).length
    rw [hB.n_rows_eq, List.length_append, List.length_singleton]
    unfold incr
    omega
  · show (S.rows ++ [_]).length = _
    simp [hB.rows_len]
  · intro i hi
    rw [List.length_append, List.length_singleton] at hi
    show colsOf _ ((S.rows ++ [List.range' d.nodes.length u.length]).getD i []) = _
    by_cases e : i < rows.length
    · rw [hgetD i e, hgetD' i e, ← hB.row_cols i e]
      unfold colsOf
      apply List.map_congr_left
      intro y hy
      exact (hold _ (hmemS i e) y hy).1
    · have e' : i = rows.length := by omega
      subst e'
      rw [hlast, hlast', hcolsnew, hudef]
  · intro i hi x hx
    rw [List.length_append, List.length_singleton] at hi
    change x ∈ (S.rows ++ [List.range' d.nodes.length u.length]).getD i [] at hx
    by_cases e : i < rows.length
    · rw [hgetD i e] at hx
      have := (hold _ (hmemS i e) x hx).2
      show (rd (d.AddRow r).nodes x).size = i
      rw [this]
      exact hB.row_id i e x hx
    · have e' : i = rows.length := by omega
      subst e'
      rw [hlast, List.mem_range'_1] at hx
      have e2 : x = d.nodes.length + (x - d.nodes.length) := by omega
      show (rd (d.AddRow r).nodes x).size = _
      rw [e2, (hnewcell _ (by omega)).2, hB.n_rows_eq]
  · intro j
    show (S.V j ++ _).length ≤ _
    have := hB.vlen j
    rw [List.length_append, List.length_append, List.length_singleton]
    split <;> simp <;> omega
  · rw [inv.len, hB.len_eq]
    simp only [List.map_append, List.map_cons, List.map_nil, List.sum_append, List.sum_cons,
      List.sum_nil]
    omega
  · show S.rows ++ [List.range' d.nodes.length u.length] = _
    rw [rowCells_append, hB.rows_eq, hB.len_eq, hudef, Nat.add_assoc]

/-- The state of a solver built by the constructor and `AddRow` calls with
in-range indices. -/
theorem build_built (n : Nat) : ∀ (rows : List (List Nat)), (∀ r ∈ rows, ∀ j ∈ r, j < n) →
    rows.length < 18446744073709551616 → ∃ S, Built n rows (build n rows) S := by
  intro rows
  induction rows using List.reverseRecOn with
  | nil =>
    intro _ _
    refine ⟨{ H := List.range n, cols := List.range n, V := fun _ => [], rows := [] }, ?_⟩
    exact
      { wf := new_wf n
        head_eq := rfl
        n_cols_eq := rfl
        n_rows_eq := rfl
        covered_eq := rfl
        selected_eq := rfl
        cols_eq := rfl
        H_eq := rfl
        rows_len := rfl
        row_cols := fun i hi => absurd hi (Nat.not_lt_zero _)
        row_id := fun i hi => absurd hi (Nat.not_lt_zero _)
        linked := fun ρ hρ => by cases hρ
        vlen := fun j => le_refl _
        len_eq := by
          have := (new_loop n (n + 1) (le_refl _)).1
          simpa using this
        rows_eq := rfl }
  | append_singleton rows r ih =>
    intro hr hlen
    rw [List.length_append, List.length_singleton] at hlen
    obtain ⟨S, hB⟩ := ih (fun r' hr' => hr r' (List.mem_append_left _ hr')) (by omega)
    have : build n (rows ++ [r]) = (build n rows).AddRow r := by
      simp [build, List.foldl_append]
    rw [this]
    exact ⟨_, built_addRow hB r (hr r (by simp)) hlen⟩

/-! ## `PreCoverColumn` and `Solve` -/

theorem preCoverAll_eq : ∀ (pre : List Nat) (d : DLX),
    preCoverAll d pre = { d with covered := pre.foldl (fun c k => c.set k true) d.covered }
  | [], d => rfl
  | k :: pre, d => by
    show preCoverAll (d.PreCoverColumn k) pre = _
    rw [preCoverAll_eq pre]
    rfl

theorem covered_getD : ∀ (pre : List Nat) (cov : List Bool) (i : Nat),
    (pre.foldl (fun c k => c.set k true) cov).getD i false = true ↔
      (cov.getD i false = true ∨ (i ∈ pre ∧ i < cov.length))
  | [], cov, i => by simp
  | k :: pre, cov, i => by
    rw [List.foldl_cons, covered_getD pre]
    simp only [List.getD_eq_getElem?_getD, List.getElem?_set, List.length_set, List.mem_cons]
    by_cases e : k = i
    · subst e
      by_cases hl : k < cov.length
      · simp [hl]
      · simp [hl]
        rw [List.getElem?_eq_none (by omega)]
        rfl
    · have e' : ¬ i = k := fun h => e h.symm
      simp [e, e']

/-- The pre-covering loop of `Solve` covers the marked columns in index order. -/
theorem preCover_loop {hd : Nat} {fuel : Nat} {cov : List Bool} :
    ∀ (l : List Nat) {M : Mesh} {S : Shape} {M' : Mesh}, WF M hd S → l.Nodup →
      (∀ i ∈ l, i ∈ S.H) → l.foldlM (preCover fuel cov) M = .ok M' →
      M' = coverCols S (l.filter (fun i => cov.getD i false)) M
  | [], M, S, M', _, _, _, e => by
    simp only [List.foldlM_nil] at e
    exact (Except.ok.inj e).symm
  | i :: l, M, S, M', h, nd, hsub, e => by
    rw [List.foldlM_cons] at e
    have hnd := List.nodup_cons.1 nd
    have hi : i ∈ S.H := hsub i (List.mem_cons_self _ _)
    by_cases hc : cov.getD i false = true
    · have e1 : preCover fuel cov M i = CoverColumn fuel i M := by
        unfold preCover
        rw [if_pos hc, Nat.zero_add]
      rw [e1] at e
      cases hcc : CoverColumn fuel i M with
      | error err => rw [hcc] at e; cases e
      | ok M1 =>
        rw [hcc] at e
        have eM1 := ok_of_CoverColumn h hi hcc
        subst eM1
        have h1 := cover_wf h hi
        have hsub' : ∀ i' ∈ l, i' ∈ (S.cover i).H := by
          intro i' hi'
          rw [cover_H, h.H_nodup.mem_erase_iff]
          refine ⟨?_, hsub i' (List.mem_cons_of_mem _ hi')⟩
          rintro rfl; exact hnd.1 hi'
        have := preCover_loop l h1 hnd.2 hsub' e
        rw [this, List.filter_cons, if_pos hc]
        rfl
    · have e1 : preCover fuel cov M i = .ok M := by
        unfold preCover
        rw [if_neg hc]
      rw [e1] at e
      have := preCover_loop l h hnd.2 (fun i' hi' => hsub i' (List.mem_cons_of_mem _ hi')) e
      rw [this, List.filter_cons, if_neg hc]

/-- The assertion loop of `Solve` does not change the mesh. -/
theorem assert_loop {M : Mesh} {hd : Nat} {S : Shape} (h : WF0 M hd S) {fuel : Nat}
    {M1 : Mesh}
    (e : forRing (fun M c => (rd M c).right) hd
      (fun c M => if (rd M c).size > 0 then .ok M else .error .assertFailed) fuel
      (rd M hd).right M = .ok M1) : M1 = M ∧ ∀ c ∈ S.H, 0 < (rd M c).size := by
  have hch := h.hring
  have hstart : (rd M hd).right = S.H.headD hd := chain_next hch
  rw [hstart] at e
  have key := forRing_sound (fun (M : Mesh) c => (rd M c).right) hd
    (fun c M => if (rd M c).size > 0 then .ok M else .error .assertFailed)
    (fun R s => s = M ∧ ∃ P, S.H = P ++ R ∧ ∀ c ∈ P, 0 < (rd M c).size) (by
      rintro x rest s ⟨rfl, P, e1, e2⟩
      refine ⟨?_, fun s1 hb => ?_⟩
      · rintro rfl
        exact h.hd_notin (h.H_sub _ (e1 ▸ by simp))
      · simp only at hb
        split at hb
        · rename_i hpos
          have := Except.ok.inj hb
          subst this
          refine ⟨?_, rfl, P ++ [x], by simp [e1], ?_⟩
          · rw [e1, chain_append] at hch
            exact chain_next hch.2
          · intro c hc
            rcases List.mem_append.1 hc with hc | hc
            · exact e2 c hc
            · rw [List.mem_singleton] at hc
              subst hc
              exact hpos
        · cases hb)
    S.H fuel M M1 ⟨rfl, [], rfl, fun c hc => by cases hc⟩ e
  obtain ⟨e1, P, e2, e3⟩ := key
  rw [List.append_nil] at e2
  exact ⟨e1, fun c hc => e3 c (e2 ▸ hc)⟩

theorem mem_preList {n : Nat} {pre : List Nat} (hpre : ∀ j ∈ pre, j < n) (j : Nat) :
    j ∈ preList n pre ↔ j ∈ pre := by
  simp only [preList, List.mem_filter, List.mem_range, decide_eq_true_eq]
  exact ⟨fun h => h.2, fun h => ⟨hpre j h, h⟩⟩

/-- What a run of `Solve` that returns establishes, for a solver built by the
constructor, `AddRow` and `PreCoverColumn` calls with in-range indices. -/
theorem Solve_spec {n : Nat} {rows : List (List Nat)} {d0 : DLX} {S : Shape}
    (hB : Built n rows d0 S) (pre : List Nat) (hpre : ∀ j ∈ pre, j < n) {fuel : Nat}
    {b : Bool} {d' : DLX} (e : (preCoverAll d0 pre).Solve fuel = .ok (b, d')) :
    WF (coverCols S (preList n pre) d0.nodes) n (coverShape S (preList n pre)) ∧
      (List.range n).foldlM (preCover fuel (preCoverAll d0 pre).covered) d0.nodes =
        .ok (coverCols S (preList n pre) d0.nodes) ∧
      (∀ c ∈ (coverShape S (preList n pre)).H,
        0 < (rd (coverCols S (preList n pre) d0.nodes) c).size) ∧
      SearchPost { preCoverAll d0 pre with nodes := coverCols S (preList n pre) d0.nodes }
        (coverShape S (preList n pre)) b d' := by
  rw [preCoverAll_eq] at e ⊢
  have hn := hB.n_cols_eq
  have hh := hB.head_eq
  have hcov := hB.covered_eq
  have hwf := hB.wf
  have hH := hB.H_eq
  obtain ⟨nc, nr, cov, nodes, sel, hd0⟩ := d0
  simp only at hn hh hcov hwf e ⊢
  subst hn hh hcov
  unfold DLX.Solve at e
  simp only at e
  split at e
  · cases e
  · rename_i M hM
    have hnd : (List.range hd0).Nodup := List.nodup_range hd0
    have hsub : ∀ i ∈ List.range hd0, i ∈ S.H := fun i hi => by rw [hH]; exact hi
    have eM := preCover_loop (List.range hd0) hwf hnd hsub hM
    have hfilter : (List.range hd0).filter (fun i =>
        (pre.foldl (fun c k => c.set k true) (List.replicate hd0 false)).getD i false) =
        preList hd0 pre := by
      unfold preList
      apply List.filter_congr
      intro i hi
      rw [List.mem_range] at hi
      rw [Bool.eq_iff_iff, covered_getD]
      simp [hi]
    rw [hfilter] at eM
    subst eM
    have hM' := hM
    have hnd' : (preList hd0 pre).Nodup := hnd.filter _
    have hsub' : ∀ c ∈ preList hd0 pre, c ∈ S.H := by
      intro c hc
      rw [hH]
      exact (List.mem_filter.1 hc).1
    obtain ⟨w1, _, _, _⟩ := wf_coverCols (hd0) _ hwf hnd' hsub'
    split at e
    · cases e
    · rename_i M1 hM1
      obtain ⟨eM1, hpos⟩ := assert_loop w1.toWF0 hM1
      subst eM1
      exact ⟨w1, hM', hpos, Search_spec fuel fuel _ _ b d' w1 e⟩

/-! ## Enough fuel -/

theorem nodup_length_le {l : List Nat} {n : Nat} (nd : l.Nodup) (h : ∀ x ∈ l, x < n) :
    l.length ≤ n := by
  have hsub : l ⊆ List.range n := fun x hx => List.mem_range.2 (h x hx)
  have := (List.subperm_of_subset nd hsub).length_le
  simpa using this

/-- Fuel beyond the size of the store suffices for `CoverColumn` and
`UncoverColumn`. -/
theorem coverFuel_of_lt {M : Mesh} {hd : Nat} {S : Shape} (h : WF M hd S) {c : Nat}
    (hc : c ∈ S.cols) {fuel : Nat} (hf : M.length < fuel) : S.coverFuel c fuel := by
  constructor
  · have := nodup_length_le (h.vnodup c hc) (fun x hx => (h.vcell c hc x hx).1)
    omega
  · intro x hx
    obtain ⟨ρ, hρ, hxρ⟩ := h.vrow c hc x hx
    obtain ⟨nd, hm, _⟩ := h.toWF0.others_spec hρ hxρ
    have := nodup_length_le nd (n := M.length) (by
      intro y hy
      rcases List.mem_cons.1 hy with rfl | hy
      · exact (h.row_cell ρ hρ y hxρ).1
      · exact (h.row_cell ρ hρ y ((hm y).1 hy).1).1)
    simp only [List.length_cons] at this
    omega

theorem CoverColumn_total {M : Mesh} {hd : Nat} {S : Shape} (h : WF M hd S) {c : Nat}
    (hc : c ∈ S.H) {fuel : Nat} (hf : M.length < fuel) :
    CoverColumn fuel c M = .ok (coverPure S c M) :=
  (CoverColumn_eq h hc fuel).1 (coverFuel_of_lt h (h.H_sub c hc) hf)

theorem UncoverColumn_total {M : Mesh} {hd : Nat} {S : Shape} (h : WF M hd S) {c : Nat}
    (hc : c ∈ S.H) {fuel : Nat} (hf : M.length < fuel) :
    UncoverColumn fuel c (coverPure S c M) = .ok M :=
  (UncoverColumn_eq h hc fuel).1 (coverFuel_of_lt h (h.H_sub c hc) hf)

theorem others_length_lt {M : Mesh} {hd : Nat} {S : Shape} (h : WF0 M hd S) {ρ : List Nat}
    (hρ : ρ ∈ S.rows) {r : Nat} (hr : r ∈ ρ) : (S.others r).length < M.length := by
  obtain ⟨nd, hm, _⟩ := h.others_spec hρ hr
  have := nodup_length_le nd (n := M.length) (by
    intro y hy
    rcases List.mem_cons.1 hy with rfl | hy
    · exact (h.row_cell ρ hρ y hr).1
    · exact (h.row_cell ρ hρ y ((hm y).1 hy).1).1)
  simp only [List.length_cons] at this
  omega

/-- With enough fuel, the loop of `Search` that covers the other columns of the
row of `r` succeeds. -/
theorem coverOthers_total {M : Mesh} {hd : Nat} {S : Shape} (h : WF M hd S)
    {ρ : List Nat} (hρ : ρ ∈ S.rows) {r : Nat} (hr : r ∈ ρ)
    (hcols : ∀ y ∈ S.others r, (rd M y).column ∈ S.H) {lf : Nat} (hf : M.length < lf) :
    forRing (fun M c => (rd M c).right) r (fun c M => CoverColumn lf (rd M c).column M)
      lf (rd M r).right M =
      .ok (coverCols S ((S.others r).map (fun y => (rd M y).column)) M) := by
  have hstart := chain_next (coverOthers_prefix_state h hρ hr hcols (P := []) rfl).2.1
  simp only [List.map_nil, coverCols_nil] at hstart
  rw [hstart]
  have key := forRing_spec (fun (M : Mesh) c => (rd M c).right) r
    (fun c M => CoverColumn lf (rd M c).column M) (fun _ => True)
    (fun R s => ∃ P, S.others r = P ++ R ∧
      s = coverCols S (P.map (fun y => (rd M y).column)) M) (by
      rintro y rest s ⟨P, e1, e2⟩
      obtain ⟨w1, _, w3, w4⟩ := coverOthers_prefix_state h hρ hr hcols e1
      refine ⟨?_, fun hn => absurd trivial hn, fun _ => ?_⟩
      · rintro rfl; exact w3 (e1 ▸ by simp)
      · have e1' : S.others r = (P ++ [y]) ++ rest := by simp [e1]
        obtain ⟨_, v2, _, _⟩ := coverOthers_prefix_state h hρ hr hcols e1'
        have hcy : (rd s y).column = (rd M y).column := by rw [e2]; simp
        have hb : CoverColumn lf (rd s y).column s = .ok (coverPure
            (coverShape S (P.map (fun y => (rd M y).column))) (rd M y).column s) := by
          rw [hcy, e2]
          exact CoverColumn_total w1 (w4 y (by simp)) (by simpa using hf)
        have es' : coverPure (coverShape S (P.map (fun y => (rd M y).column)))
            (rd M y).column s = coverCols S ((P ++ [y]).map (fun y => (rd M y).column)) M := by
          rw [e2, List.map_append, coverCols_append]; rfl
        refine ⟨_, hb, ?_, ⟨P ++ [y], e1', es'⟩⟩
        rw [es']
        rw [e1, chain_append] at v2
        exact chain_next v2.2)
    (S.others r) lf M ⟨[], rfl, rfl⟩
  have hlen := others_length_lt h.toWF0 hρ hr
  obtain ⟨s', e1, P, e2, e3⟩ := key.2 ⟨by omega, fun _ _ => trivial⟩
  simp only [List.append_nil] at e2
  rw [e1, e3, e2]

/-- With enough fuel, the loop of `Search` that uncovers the other columns of the
row of `r` restores the mesh the covering loop started from. -/
theorem uncoverOthers_total {M : Mesh} {hd : Nat} {S : Shape} (h : WF M hd S)
    {ρ : List Nat} (hρ : ρ ∈ S.rows) {r : Nat} (hr : r ∈ ρ)
    (hcols : ∀ y ∈ S.others r, (rd M y).column ∈ S.H) {lf : Nat} (hf : M.length < lf) :
    forRing (fun M c => (rd M c).left) r (fun c M => UncoverColumn lf (rd M c).column M)
      lf (rd (coverCols S ((S.others r).map (fun y => (rd M y).column)) M) r).left
      (coverCols S ((S.others r).map (fun y => (rd M y).column)) M) = .ok M := by
  have hstart := chain_next (chain_reverse
    (coverOthers_prefix_state h hρ hr hcols (P := S.others r) (R := []) (by simp)).2.1)
  rw [hstart]
  have key := forRing_spec (fun (M : Mesh) c => (rd M c).left) r
    (fun c M => UncoverColumn lf (rd M c).column M) (fun _ => True)
    (fun R s => ∃ Q, S.others r = R.reverse ++ Q ∧
      s = coverCols S (R.reverse.map (fun y => (rd M y).column)) M) (by
      rintro y rest s ⟨Q, e1, e2⟩
      have e1' : S.others r = rest.reverse ++ y :: Q := by simpa using e1
      obtain ⟨w1, w2, w3, w4⟩ := coverOthers_prefix_state h hρ hr hcols e1'
      refine ⟨?_, fun hn => absurd trivial hn, fun _ => ?_⟩
      · rintro rfl; exact w3 (e1' ▸ by simp)
      · have hcy : (rd s y).column = (rd M y).column := by rw [e2]; simp
        have es : s = coverPure (coverShape S (rest.reverse.map (fun y => (rd M y).column)))
            (rd M y).column (coverCols S (rest.reverse.map (fun y => (rd M y).column)) M) := by
          rw [e2, List.reverse_cons, List.map_append, coverCols_append]; rfl
        have hb : UncoverColumn lf (rd s y).column s =
            .ok (coverCols S (rest.reverse.map (fun y => (rd M y).column)) M) := by
          rw [hcy, es]
          exact UncoverColumn_total w1 (w4 y (by simp)) (by simpa using hf)
        refine ⟨_, hb, ?_, ⟨y :: Q, e1', rfl⟩⟩
        have hrev := chain_reverse w2
        have e4 : (S.others r).reverse = Q.reverse ++ y :: rest := by rw [e1']; simp
        rw [e4, chain_append] at hrev
        exact chain_next hrev.2)
    (S.others r).reverse lf (coverCols S ((S.others r).map (fun y => (rd M y).column)) M)
    ⟨[], by simp, by simp⟩
  have hlen := others_length_lt h.toWF0 hρ hr
  obtain ⟨s', e1, Q, _, e3⟩ := key.2 ⟨by simp only [List.length_reverse]; omega,
    fun _ _ => trivial⟩
  rw [e1, e3]
  simp

/-! ## Live nodes and link consistency -/

theorem ring_link {nxt prv : Nat → Nat} {a : Nat} {l : List Nat} (h : Chain nxt prv a l a) :
    prv (nxt a) = a ∧ nxt (prv a) = a ∧ nxt a ∈ a :: l := by
  refine ⟨?_, ?_, ?_⟩
  · cases l with
    | nil => simp only [Chain] at h; rw [h.1]; exact h.2
    | cons z t => simp only [Chain] at h; rw [h.1]; exact h.2.1
  · have h' := chain_reverse h
    cases hl : l.reverse with
    | nil => rw [hl] at h'; simp only [Chain] at h'; rw [h'.1]; exact h'.2
    | cons z t => rw [hl] at h'; simp only [Chain] at h'; rw [h'.1]; exact h'.2.1
  · have := chain_next_mem h
    simp only [List.mem_append, List.mem_singleton] at this
    simp only [List.mem_cons]
    tauto

/-- Every node of a ring is linked consistently to its neighbours, which are in
the ring. -/
theorem ring_mem {nxt prv : Nat → Nat} {ρ : List Nat} (h : RingOn nxt prv ρ) {x : Nat}
    (hx : x ∈ ρ) : prv (nxt x) = x ∧ nxt (prv x) = x ∧ nxt x ∈ ρ := by
  obtain ⟨l1, l2, rfl⟩ := List.append_of_mem hx
  have := ring_link (ring_rotate h)
  refine ⟨this.1, this.2.1, ?_⟩
  have hm := this.2.2
  simp only [List.mem_cons, List.mem_append] at hm ⊢
  tauto

theorem WF0.hring_on {M : Mesh} {hd : Nat} {S : Shape} (h : WF0 M hd S) :
    RingOn (fun x => (rd M x).right) (fun x => (rd M x).left) (hd :: S.H) := h.hring

theorem WF0.vring_on {M : Mesh} {hd : Nat} {S : Shape} (h : WF0 M hd S) {j : Nat}
    (hj : j ∈ S.cols) :
    RingOn (fun x => (rd M x).down) (fun x => (rd M x).up) (j :: S.V j) := h.vring j hj

theorem liveCol_mem {M : Mesh} {hd : Nat} {S : Shape} (h : WF0 M hd S) {c : Nat}
    (hc : LiveCol M hd c) : c ∈ hd :: S.H := by
  induction hc with
  | head => simp
  | right _ ih => exact (ring_mem h.hring_on ih).2.2

theorem live_mem {M : Mesh} {hd : Nat} {S : Shape} (h : WF0 M hd S) {x : Nat}
    (hx : Live M hd x) : x = hd ∨ ∃ j ∈ S.H, x ∈ j :: S.V j := by
  induction hx with
  | col hc =>
    rcases List.mem_cons.1 (liveCol_mem h hc) with e | e
    · exact Or.inl e
    · exact Or.inr ⟨_, e, List.mem_cons_self _ _⟩
  | down _ ih =>
    rcases ih with rfl | ⟨j, hj, hm⟩
    · exact Or.inl h.hd_vert.2
    · exact Or.inr ⟨j, hj, (ring_mem (h.vring_on (h.H_sub j hj)) hm).2.2⟩

/-- In a well-formed mesh every live node has consistent links. -/
theorem live_linkOK {M : Mesh} {hd : Nat} {S : Shape} (h : WF M hd S) {x : Nat}
    (hx : Live M hd x) : LinkOK M x := by
  rcases live_mem h.toWF0 hx with rfl | ⟨j, hj, hm⟩
  · have h1 := ring_mem h.toWF0.hring_on (List.mem_cons_self x S.H)
    refine ⟨h1.1, h1.2.1, ?_, ?_⟩
    · rw [h.hd_vert.1]; exact h.hd_vert.2
    · rw [h.hd_vert.2]; exact h.hd_vert.1
  · have hjc := h.H_sub j hj
    have h2 := ring_mem (h.toWF0.vring_on hjc) hm
    rcases List.mem_cons.1 hm with rfl | hxV
    · have h1 := ring_mem h.toWF0.hring_on (List.mem_cons_of_mem hd hj)
      exact ⟨h1.1, h1.2.1, h2.2.1, h2.1⟩
    · obtain ⟨ρ, hρ, hxρ⟩ := h.vrow j hjc x hxV
      have h1 := ring_mem (h.row_ring ρ hρ) hxρ
      exact ⟨h1.1, h1.2.1, h2.2.1, h2.1⟩

theorem chain_liveCol {M : Mesh} {hd : Nat} :
    ∀ {l : List Nat} {a b : Nat},
      Chain (fun x => (rd M x).right) (fun x => (rd M x).left) a l b → LiveCol M hd a →
      ∀ x ∈ l, LiveCol M hd x
  | [], _, _, _, _, x, hx => by cases hx
  | z :: l, a, b, h, ha, x, hx => by
    simp only [Chain] at h
    have hz : LiveCol M hd z := h.1 ▸ LiveCol.right ha
    rcases List.mem_cons.1 hx with rfl | hx
    · exact hz
    · exact chain_liveCol h.2.2 hz x hx

theorem chain_live {M : Mesh} {hd : Nat} :
    ∀ {l : List Nat} {a b : Nat},
      Chain (fun x => (rd M x).down) (fun x => (rd M x).up) a l b → Live M hd a →
      ∀ x ∈ l, Live M hd x
  | [], _, _, _, _, x, hx => by cases hx
  | z :: l, a, b, h, ha, x, hx => by
    simp only [Chain] at h
    have hz : Live M hd z := h.1 ▸ Live.down ha
    rcases List.mem_cons.1 hx with rfl | hx
    · exact hz
    · exact chain_live h.2.2 hz x hx

/-- In a well-formed mesh the head, the headers of the header ring and the cells
linked into their columns are live. -/
theorem live_of_mem {M : Mesh} {hd : Nat} {S : Shape} (h : WF0 M hd S) {x : Nat}
    (hx : x = hd ∨ ∃ j ∈ S.H, x ∈ j :: S.V j) : Live M hd x := by
  rcases hx with rfl | ⟨j, hj, hm⟩
  · exact Live.col LiveCol.head
  · have hjl : Live M hd j := Live.col (chain_liveCol h.hring LiveCol.head j hj)
    rcases List.mem_cons.1 hm with rfl | hm
    · exact hjl
    · exact chain_live (h.vring j (h.H_sub j hj)) hjl x hm

/-! ## Size accounting -/

theorem downCount_chain {M : Mesh} {column : Nat} :
    ∀ {l : List Nat} {a : Nat} (fuel : Nat),
      Chain (fun x => (rd M x).down) (fun x => (rd M x).up) a l column → column ∉ l →
      l.length < fuel → downCount M column fuel (rd M a).down = some l.length
  | [], a, fuel, h, _, hf => by
    simp only [Chain] at h
    cases fuel with
    | zero => simp at hf
    | succ k => simp [downCount, h.1]
  | z :: l, a, fuel, h, hn, hf => by
    simp only [Chain] at h
    cases fuel with
    | zero => simp at hf
    | succ k =>
      have hz : z ≠ column := fun e => hn (e ▸ List.mem_cons_self _ _)
      have ih := downCount_chain k h.2.2 (fun hm => hn (List.mem_cons_of_mem _ hm))
        (by simp only [List.length_cons] at hf; omega)
      rw [downCount, h.1, if_neg hz, ih]
      simp

/-- In a well-formed mesh the size of every column header is the number of cells
met on the way down from the header back to it. -/
theorem size_accounting {M : Mesh} {hd : Nat} {S : Shape} (h : WF0 M hd S) {j : Nat}
    (hj : j ∈ S.cols) {fuel : Nat} (hf : M.length < fuel) :
    downCount M j fuel (rd M j).down = some (rd M j).size := by
  have hlen := nodup_length_le (h.vnodup j hj) (fun x hx => (h.vcell j hj x hx).1)
  rw [(h.col_size j hj).1]
  exact downCount_chain fuel (h.vring j hj) (fun hm => (h.cell_of_V hj hm).2.1 hj) (by omega)

/-! ## Reachable meshes -/

theorem stackInv_wf {n : Nat} : ∀ {stk : List Nat} {M : Mesh} {S : Shape},
    StackInv n stk M S → WF M n S ∧ S.cols = List.range n
  | [], _, _, h => h
  | c :: stk, M, S, h => by
    obtain ⟨M0, S0, h0, hc, rfl, rfl⟩ := h
    obtain ⟨w, e⟩ := stackInv_wf h0
    exact ⟨cover_wf w hc, e⟩

/-- Every reachable mesh is well formed. -/
theorem reach_inv {n : Nat} {stk : List Nat} {M : Mesh} (h : Reach n stk M) :
    ∃ S, StackInv n stk M S := by
  induction h with
  | built rows hrows hlen =>
    obtain ⟨S, hB⟩ := build_built n rows hrows hlen
    exact ⟨S, hB.wf, hB.cols_eq⟩
  | cover c fuel M' _ hlive hne hcov ih =>
    obtain ⟨S, hS⟩ := ih
    obtain ⟨w, _⟩ := stackInv_wf hS
    have hc : c ∈ S.H := by
      rcases List.mem_cons.1 (liveCol_mem w.toWF0 hlive) with e | e
      · exact absurd e hne
      · exact e
    have := ok_of_CoverColumn w hc hcov
    exact ⟨S.cover c, _, S, hS, hc, this, rfl⟩
  | uncover c fuel M' _ hunc ih =>
    obtain ⟨S, M0, S0, h0, hc, rfl, rfl⟩ := ih
    obtain ⟨w, _⟩ := stackInv_wf h0
    have := ok_of_UncoverColumn w hc hunc
    subst this
    exact ⟨S0, h0⟩

/-! ## From the mesh back to the matrix -/

theorem filter_flatMap_length {α : Type} (f : α → List Nat) (a : Nat) :
    ∀ (l : List α), (l.flatMap f).Nodup → a ∈ l.flatMap f →
      (l.filter (fun x => decide (a ∈ f x))).length = 1
  | [], _, h => by simp at h
  | x :: l, nd, h => by
    rw [List.flatMap_cons] at nd h
    have hnd := List.nodup_append.1 nd
    rw [List.filter_cons]
    by_cases hx : a ∈ f x
    · have hno : ∀ y ∈ l, ¬ (decide (a ∈ f y) = true) := by
        intro y hy hay
        simp only [decide_eq_true_eq] at hay
        exact hnd.2.2 hx (List.mem_flatMap.2 ⟨y, hy, hay⟩)
      have : l.filter (fun x => decide (a ∈ f x)) = [] := List.filter_eq_nil_iff.2 hno
      simp [hx, this]
    · have h' : a ∈ l.flatMap f := by
        rcases List.mem_append.1 h with h | h
        · exact absurd h hx
        · exact h
      simp [hx, filter_flatMap_length f a l hnd.2.1 h']

/-- A cell of a row of a built solver carries the position of the row as its
row identifier, and the columns of the row are the distinct indices given to
`AddRow`. -/
theorem Built.row_of_mem {n : Nat} {rows : List (List Nat)} {d : DLX} {S : Shape}
    (hB : Built n rows d S) {ρ : List Nat} (hρ : ρ ∈ S.rows) {x : Nat} (hx : x ∈ ρ) :
    (rd d.nodes x).row < rows.length ∧
      ∀ j, j ∈ colsOf d.nodes ρ ↔ j ∈ rows.getD (rd d.nodes x).row [] := by
  obtain ⟨i, hi, e⟩ := List.mem_iff_getElem.1 hρ
  have hi' : i < rows.length := by rw [← hB.rows_len]; exact hi
  have hget : S.rows.getD i [] = ρ := by rw [List.getD_eq_getElem _ _ hi]; exact e
  have hid := hB.row_id i hi' x (hget ▸ hx)
  rw [hid]
  refine ⟨hi', fun j => ?_⟩
  rw [← hget, hB.row_cols i hi']
  exact (sortedRow_spec _).2.2.1 j

theorem Built.row_getD {n : Nat} {rows : List (List Nat)} {d : DLX} {S : Shape}
    (hB : Built n rows d S) {i : Nat} (hi : i < rows.length) :
    S.rows.getD i [] ∈ S.rows ∧
      ∀ j, j ∈ colsOf d.nodes (S.rows.getD i []) ↔ j ∈ rows.getD i [] := by
  have hi' : i < S.rows.length := by rw [hB.rows_len]; exact hi
  refine ⟨by rw [List.getD_eq_getElem _ _ hi']; exact List.getElem_mem _, fun j => ?_⟩
  rw [hB.row_cols i hi]
  exact (sortedRow_spec _).2.2.1 j

/-- The header ring after the pre-covering loop holds exactly the columns that
are not marked. -/
theorem pre_H {n : Nat} {rows : List (List Nat)} {d : DLX} {S : Shape}
    (hB : Built n rows d S) (pre : List Nat) (hpre : ∀ j ∈ pre, j < n) :
    (coverShape S (preList n pre)).H.Nodup ∧
      ∀ j, j ∈ (coverShape S (preList n pre)).H ↔ j < n ∧ j ∉ pre := by
  have hnd' : (preList n pre).Nodup := (List.nodup_range n).filter _
  have hsub' : ∀ c ∈ preList n pre, c ∈ S.H := by
    intro c hc
    rw [hB.H_eq]
    exact (List.mem_filter.1 hc).1
  obtain ⟨w1, _, _, w4⟩ := wf_coverCols (n) _ hB.wf hnd' hsub'
  refine ⟨w1.H_nodup, fun j => ?_⟩
  have hall : (preList n pre ++ (coverShape S (preList n pre)).H).Nodup :=
    w4.nodup_iff.2 hB.wf.H_nodup
  have hdisj := (List.nodup_append.1 hall).2.2
  have hmem := w4.mem_iff (a := j)
  rw [hB.H_eq, List.mem_range, List.mem_append, mem_preList hpre] at hmem
  constructor
  · intro hj
    refine ⟨hmem.1 (Or.inr hj), fun hp => ?_⟩
    exact hdisj ((mem_preList hpre j).2 hp) hj
  · rintro ⟨h1, h2⟩
    rcases hmem.2 h1 with h | h
    · exact absurd h h2
    · exact h

/-- What `Solve` returning `true` means in terms of the rows of the mesh. -/
theorem Solve_true_picks {n : Nat} {rows : List (List Nat)} {d0 : DLX} {S : Shape}
    (hB : Built n rows d0 S) (pre : List Nat) (hpre : ∀ j ∈ pre, j < n) {fuel : Nat}
    {d' : DLX} (e : (preCoverAll d0 pre).Solve fuel = .ok (true, d')) :
    ∃ picks : List (Nat × List Nat),
      (∀ p ∈ picks, p.2 ∈ S.rows ∧ p.1 ∈ p.2) ∧
      (picks.flatMap (fun p => colsOf d0.nodes p.2)).Nodup ∧
      (∀ j, j ∈ picks.flatMap (fun p => colsOf d0.nodes p.2) ↔ j < n ∧ j ∉ pre) ∧
      d'.GetSolution = picks.map (fun p => (rd d0.nodes p.1).row) := by
  obtain ⟨w1, _, _, picks, C, q1, ⟨q2, q3⟩, _, q5⟩ := Solve_spec hB pre hpre e
  have hnd' : (preList n pre).Nodup := (List.nodup_range n).filter _
  have hsub' : ∀ c ∈ preList n pre, c ∈ S.H := by
    intro c hc
    rw [hB.H_eq]
    exact (List.mem_filter.1 hc).1
  obtain ⟨_, w2, _, _⟩ := wf_coverCols (n) _ hB.wf hnd' hsub'
  obtain ⟨hHnd, hHmem⟩ := pre_H hB pre hpre
  have hrows : ∀ p ∈ picks, p.2 ∈ S.rows := by
    intro p hp
    have := q2 p.2 (List.mem_map.2 ⟨p, hp, rfl⟩)
    rwa [coverShape_rows] at this
  have e1 : colsOf (coverCols S (preList n pre) d0.nodes) = colsOf d0.nodes :=
    funext fun ρ => colsOf_coverCols _ _ _ _
  have q3' : (picks.flatMap (fun p => colsOf d0.nodes p.2)).Perm
      (coverShape S (preList n pre)).H := by
    have := q3
    simp only at this
    rw [e1, List.flatMap_map] at this
    exact this
  refine ⟨picks, fun p hp => ⟨hrows p hp, q1 p hp⟩, q3'.nodup_iff.2 hHnd, ?_, ?_⟩
  · intro j
    rw [q3'.mem_iff, hHmem]
  · rw [q5]
    simp only [DLX.GetSolution, preCoverAll_eq, hB.selected_eq, List.nil_append]
    apply List.map_congr_left
    intro p hp
    apply w2
    exact (hB.wf.row_cell p.2 (hrows p hp) p.1 (q1 p hp)).2.1

/-! ## Soundness and exhaustion of `Solve` -/

/-- C1. Soundness of `Solve`: for a solver built by the constructor and `AddRow`
calls with in-range indices and any in-range `PreCoverColumn` calls, if `Solve`
returns `true` then the row identifiers of `GetSolution` are pairwise distinct
identifiers of added rows, every column that is not pre-covered is contained in
exactly one of the selected rows, and no pre-covered column is contained in any
of them. -/
theorem solve_sound (n : Nat) (rows : List (List Nat)) (pre : List Nat)
    (hrows : ∀ r ∈ rows, ∀ j ∈ r, j < n) (hpre : ∀ j ∈ pre, j < n)
    (hlen : rows.length < 18446744073709551616) (fuel : Nat) (d' : DLX)
    (h : (preCoverAll (build n rows) pre).Solve fuel = .ok (true, d')) :
    d'.GetSolution.Nodup ∧
      (∀ i ∈ d'.GetSolution, i < rows.length) ∧
      (∀ j, j < n → j ∉ pre →
        (d'.GetSolution.filter (fun i => decide (j ∈ rows.getD i []))).length = 1) ∧
      (∀ j ∈ pre, ∀ i ∈ d'.GetSolution, j ∉ rows.getD i []) := by
  obtain ⟨S, hB⟩ := build_built n rows hrows hlen
  obtain ⟨picks, hp, hnd, hmem, hsol⟩ := Solve_true_picks hB pre hpre h
  have hK : ∀ p ∈ picks, (rd (build n rows).nodes p.1).row < rows.length ∧
      ∀ j, j ∈ colsOf (build n rows).nodes p.2 ↔
        j ∈ rows.getD (rd (build n rows).nodes p.1).row [] :=
    fun p hpp => hB.row_of_mem (hp p hpp).1 (hp p hpp).2
  rw [hsol]
  refine ⟨?_, ?_, ?_, ?_⟩
  · rw [List.Nodup, List.pairwise_map]
    have hpw := (List.nodup_flatMap.1 hnd).2
    refine List.Pairwise.imp_of_mem ?_ hpw
    intro p q hpp hq hdisj e
    have hx : (rd (build n rows).nodes p.1).column ∈ colsOf (build n rows).nodes p.2 :=
      List.mem_map.2 ⟨p.1, (hp p hpp).2, rfl⟩
    have hx' : (rd (build n rows).nodes p.1).column ∈ colsOf (build n rows).nodes q.2 := by
      rw [(hK q hq).2, ← e, ← (hK p hpp).2]
      exact hx
    exact hdisj hx hx'
  · intro i hi
    obtain ⟨p, hpp, rfl⟩ := List.mem_map.1 hi
    exact (hK p hpp).1
  · intro j hj hjp
    have hjm := (hmem j).2 ⟨hj, hjp⟩
    have := filter_flatMap_length (fun p : Nat × List Nat => colsOf (build n rows).nodes p.2) j
      picks hnd hjm
    rw [List.filter_map, List.length_map]
    rw [← this]
    congr 1
    apply List.filter_congr
    intro p hpp
    simp only [Function.comp]
    rw [Bool.eq_iff_iff]
    simp only [decide_eq_true_eq]
    exact ((hK p hpp).2 j).symm
  · intro j hj i hi hji
    obtain ⟨p, hpp, rfl⟩ := List.mem_map.1 hi
    have : j ∈ picks.flatMap (fun p => colsOf (build n rows).nodes p.2) :=
      List.mem_flatMap.2 ⟨p, hpp, ((hK p hpp).2 j).2 hji⟩
    exact ((hmem j).1 this).2 hj

/-- C3. Exhaustion means no cover: for a solver built by the constructor and
`AddRow` calls with in-range indices and any in-range `PreCoverColumn` calls, if
`Solve` returns `false` then no selection of added rows avoids all pre-covered
columns and contains every column that is not pre-covered exactly once. -/
theorem solve_false_no_cover (n : Nat) (rows : List (List Nat)) (pre : List Nat)
    (hrows : ∀ r ∈ rows, ∀ j ∈ r, j < n) (hpre : ∀ j ∈ pre, j < n)
    (hlen : rows.length < 18446744073709551616) (fuel : Nat) (d' : DLX)
    (h : (preCoverAll (build n rows) pre).Solve fuel = .ok (false, d')) :
    ¬ ∃ sel : List Nat, (∀ i ∈ sel, i < rows.length) ∧
      (∀ i ∈ sel, ∀ j ∈ pre, j ∉ rows.getD i []) ∧
      (∀ j, j < n → j ∉ pre →
        (sel.filter (fun i => decide (j ∈ rows.getD i []))).length = 1) := by
  obtain ⟨S, hB⟩ := build_built n rows hrows hlen
  obtain ⟨w1, _, _, _, hno⟩ := Solve_spec hB pre hpre h
  obtain ⟨hHnd, hHmem⟩ := pre_H hB pre hpre
  rintro ⟨sel, hsel, havoid, hone⟩
  apply hno
  simp only
  have e1 : colsOf (coverCols S (preList n pre) (build n rows).nodes) =
      colsOf (build n rows).nodes := funext fun ρ => colsOf_coverCols _ _ _ _
  have hmemrow : ∀ i ∈ sel, rows.getD i [] ∈ rows := by
    intro i hi
    rw [List.getD_eq_getElem _ _ (hsel i hi)]
    exact List.getElem_mem _
  refine ⟨sel.map (fun i => S.rows.getD i []), ?_, ?_⟩
  · intro ρ hρ
    obtain ⟨i, hi, rfl⟩ := List.mem_map.1 hρ
    rw [coverShape_rows]
    exact (hB.row_getD (hsel i hi)).1
  · rw [e1, List.flatMap_map]
    have hmem : ∀ j, j ∈ sel.flatMap (fun i => colsOf (build n rows).nodes (S.rows.getD i [])) ↔
        ∃ i ∈ sel, j ∈ rows.getD i [] := by
      intro j
      rw [List.mem_flatMap]
      constructor
      · rintro ⟨i, hi, hj⟩
        exact ⟨i, hi, ((hB.row_getD (hsel i hi)).2 j).1 hj⟩
      · rintro ⟨i, hi, hj⟩
        exact ⟨i, hi, ((hB.row_getD (hsel i hi)).2 j).2 hj⟩
    refine (List.perm_ext_iff_of_nodup ?_ hHnd).2 ?_
    · rw [List.nodup_flatMap]
      constructor
      · intro i hi
        exact hB.wf.row_cols _ (hB.row_getD (hsel i hi)).1
      · rw [List.pairwise_iff_forall_sublist]
        intro a b hab j hja hjb
        have ha : a ∈ sel := hab.subset (by simp)
        have hb : b ∈ sel := hab.subset (by simp)
        have hja' := ((hB.row_getD (hsel a ha)).2 j).1 hja
        have hjb' := ((hB.row_getD (hsel b hb)).2 j).1 hjb
        have hjn : j < n := hrows _ (hmemrow a ha) j hja'
        have hjp : j ∉ pre := fun hp => havoid a ha j hp hja'
        have h1 := hone j hjn hjp
        have h2 := (hab.filter (fun i => decide (j ∈ rows.getD i []))).length_le
        have h3 : [a, b].filter (fun i => decide (j ∈ rows.getD i [])) = [a, b] := by
          rw [List.filter_eq_self]
          intro x hx
          rw [decide_eq_true_eq]
          rcases List.mem_cons.1 hx with rfl | hx
          · exact hja'
          · rw [List.mem_singleton] at hx
            subst hx
            exact hjb'
        rw [h1, h3] at h2
        simp at h2
    · intro j
      rw [hmem, hHmem]
      constructor
      · rintro ⟨i, hi, hj⟩
        exact ⟨hrows _ (hmemrow i hi) j hj, fun hp => havoid i hi j hp hj⟩
      · rintro ⟨hjn, hjp⟩
        have h1 := hone j hjn hjp
        have : ∃ i, i ∈ sel.filter (fun i => decide (j ∈ rows.getD i [])) := by
          cases hl : sel.filter (fun i => decide (j ∈ rows.getD i [])) with
          | nil => rw [hl] at h1; simp at h1
          | cons i t => exact ⟨i, by simp⟩
        obtain ⟨i, hi⟩ := this
        rw [List.mem_filter] at hi
        exact ⟨i, hi.1, by simpa using hi.2⟩

/-! ## Restoration -/

/-- C6. Restoration on failure: on every well-formed mesh, a call of `Search`
that returns `false` leaves the solver (every link and every column size)
exactly as it was when `Search` was entered; and for a solver built by the
constructor, `AddRow` and `PreCoverColumn` calls with in-range indices, a call of
`Solve` that returns `false` leaves the mesh produced by its pre-covering loop,
with nothing else changed. -/
theorem restoration_on_failure :
    (∀ (d : DLX) (S : Shape) (fuel depth : Nat) (d' : DLX), WF d.nodes d.head S →
      Search fuel depth d = .ok (false, d') → d' = d) ∧
    (∀ (n : Nat) (rows : List (List Nat)) (pre : List Nat) (fuel : Nat) (d' : DLX),
      (∀ r ∈ rows, ∀ j ∈ r, j < n) → (∀ j ∈ pre, j < n) →
      rows.length < 18446744073709551616 →
      (preCoverAll (build n rows) pre).Solve fuel = .ok (false, d') →
      ∃ M, (List.range (preCoverAll (build n rows) pre).n_cols).foldlM
          (preCover fuel (preCoverAll (build n rows) pre).covered)
          (preCoverAll (build n rows) pre).nodes = .ok M ∧
        d' = { preCoverAll (build n rows) pre with nodes := M }) := by
  constructor
  · intro d S fuel depth d' hw h
    exact (Search_spec fuel depth d S false d' hw h).1
  · intro n rows pre fuel d' hrows hpre hlen h
    obtain ⟨S, hB⟩ := build_built n rows hrows hlen
    obtain ⟨_, hM, _, hd', _⟩ := Solve_spec hB pre hpre h
    refine ⟨coverCols S (preList n pre) (build n rows).nodes, ?_, hd'⟩
    have e1 : (preCoverAll (build n rows) pre).n_cols = n := by
      rw [preCoverAll_eq]; exact hB.n_cols_eq
    have e2 : (preCoverAll (build n rows) pre).nodes = (build n rows).nodes := by
      rw [preCoverAll_eq]
    rw [e1, e2]
    exact hM

/-- C7. `CoverColumn` and `UncoverColumn` are inverses: on every well-formed mesh,
with fuel beyond the size of the store, covering a column of the header ring and
then uncovering it returns the mesh unchanged; and so does covering the columns
of the other cells of a row walked rightwards from a cell `r` (all of them in the
header ring) and then uncovering them walked leftwards from `r`, as `Search`
does. -/
theorem cover_uncover_inverse (M : Mesh) (hd : Nat) (S : Shape) (hw : WF M hd S) (fuel : Nat)
    (hf : M.length < fuel) :
    (∀ c ∈ S.H, ∃ M', CoverColumn fuel c M = .ok M' ∧ UncoverColumn fuel c M' = .ok M) ∧
    (∀ ρ ∈ S.rows, ∀ r ∈ ρ, (∀ y ∈ ρ, y ≠ r → (rd M y).column ∈ S.H) →
      ∃ M2, forRing (fun M c => (rd M c).right) r (fun c M => CoverColumn fuel (rd M c).column M)
          fuel (rd M r).right M = .ok M2 ∧
        forRing (fun M c => (rd M c).left) r (fun c M => UncoverColumn fuel (rd M c).column M)
          fuel (rd M2 r).left M2 = .ok M) := by
  constructor
  · intro c hc
    exact ⟨_, CoverColumn_total hw hc hf, UncoverColumn_total hw hc hf⟩
  · intro ρ hρ r hr hcols
    have hcols' : ∀ y ∈ S.others r, (rd M y).column ∈ S.H := by
      intro y hy
      have := ((hw.toWF0.others_spec hρ hr).2.1 y).1 hy
      exact hcols y this.1 this.2
    exact ⟨_, coverOthers_total hw hρ hr hcols' hf, uncoverOthers_total hw hρ hr hcols' hf⟩

/-! ## Invariants of the reachable meshes -/

/-- C8. Link consistency invariant: in the mesh built by the constructor and any
sequence of `AddRow` calls with in-range indices, the head, every column header
and every cell of a row is live and has consistent links
(`x.right.left = x`, `x.left.right = x`, `x.up.down = x`, `x.down.up = x`); in
every mesh reached from there by complete `CoverColumn` and `UncoverColumn` calls
every live node has consistent links; and after a `Solve` that returns, every
live node has consistent links. -/
theorem link_consistency (n : Nat) (rows : List (List Nat))
    (hrows : ∀ r ∈ rows, ∀ j ∈ r, j < n) (hlen : rows.length < 18446744073709551616) :
    (∀ x, (x ≤ n ∨ x ∈ (rowCells (n + 1) rows).flatten) →
      Live (build n rows).nodes n x ∧ LinkOK (build n rows).nodes x) ∧
    (∀ stk M, Reach n stk M → ∀ x, Live M n x → LinkOK M x) ∧
    (∀ pre, (∀ j ∈ pre, j < n) → ∀ fuel b d',
      (preCoverAll (build n rows) pre).Solve fuel = .ok (b, d') →
      ∀ x, Live d'.nodes n x → LinkOK d'.nodes x) := by
  obtain ⟨S, hB⟩ := build_built n rows hrows hlen
  refine ⟨?_, ?_, ?_⟩
  · intro x hx
    have hl : Live (build n rows).nodes n x := by
      apply live_of_mem hB.wf.toWF0
      rcases hx with hx | hx
      · rcases Nat.lt_or_ge x n with h | h
        · right
          exact ⟨x, by rw [hB.H_eq]; exact List.mem_range.2 h, List.mem_cons_self _ _⟩
        · left; omega
      · right
        rw [← hB.rows_eq] at hx
        obtain ⟨ρ, hρ, hxρ⟩ := List.mem_flatten.1 hx
        have hV := hB.linked ρ hρ x hxρ
        have hc := (hB.wf.row_cell ρ hρ x hxρ).2.2.2
        have hcH : (rd (build n rows).nodes x).column ∈ S.H := by
          rw [hB.H_eq, ← hB.cols_eq]; exact hc
        exact ⟨_, hcH, List.mem_cons_of_mem _ hV⟩
    exact ⟨hl, live_linkOK hB.wf hl⟩
  · intro stk M hM x hx
    obtain ⟨S', hS'⟩ := reach_inv hM
    exact live_linkOK (stackInv_wf hS').1 hx
  · intro pre hpre fuel b d' h x hx
    obtain ⟨w1, _, _, hpost⟩ := Solve_spec hB pre hpre h
    cases b with
    | false =>
      have e : d' = _ := hpost.1
      subst e
      exact live_linkOK w1 hx
    | true =>
      obtain ⟨picks, C, _, _, hC, e⟩ := hpost
      subst e
      have hnd : C.Nodup := hC.nodup_iff.2 w1.H_nodup
      exact live_linkOK (wf_coverCols n C w1 hnd (fun c hc => hC.mem_iff.1 hc)).1 hx

/-- C9. Size accounting invariant: in every mesh reached from a solver built by
the constructor and `AddRow` calls with in-range indices by complete
`CoverColumn` and `UncoverColumn` calls as `Solve` and `Search` make them, the
size of every column header (in the header ring or covered) is the number of
cells met when walking down from the header until the header is met again. -/
theorem size_accounting_reach (n : Nat) (stk : List Nat) (M : Mesh) (h : Reach n stk M)
    (j : Nat) (hj : j < n) (fuel : Nat) (hf : M.length < fuel) :
    downCount M j fuel (rd M j).down = some (rd M j).size := by
  obtain ⟨S, hS⟩ := reach_inv h
  obtain ⟨w, e⟩ := stackInv_wf hS
  exact size_accounting w.toWF0 (by rw [e]; exact List.mem_range.2 hj) hf

/-! ## `AddRow` and the unused nodes of a block -/

theorem set_append_default (M : Mesh) (k p : Nat) (v : Node) (hp : p < M.length) :
    (M ++ List.replicate k default).set p v = M.set p v ++ List.replicate k default := by
  rw [List.set_append, if_pos hp]

theorem setLeft_append (M : Mesh) (k p v : Nat) (hp : p < M.length) :
    setLeft (M ++ List.replicate k default) p v = setLeft M p v ++ List.replicate k default := by
  unfold setLeft; rw [rd_append_default, set_append_default _ _ _ _ hp]

theorem setRight_append (M : Mesh) (k p v : Nat) (hp : p < M.length) :
    setRight (M ++ List.replicate k default) p v =
      setRight M p v ++ List.replicate k default := by
  unfold setRight; rw [rd_append_default, set_append_default _ _ _ _ hp]

theorem setUp_append (M : Mesh) (k p v : Nat) (hp : p < M.length) :
    setUp (M ++ List.replicate k default) p v = setUp M p v ++ List.replicate k default := by
  unfold setUp; rw [rd_append_default, set_append_default _ _ _ _ hp]

theorem setDown_append (M : Mesh) (k p v : Nat) (hp : p < M.length) :
    setDown (M ++ List.replicate k default) p v = setDown M p v ++ List.replicate k default := by
  unfold setDown; rw [rd_append_default, set_append_default _ _ _ _ hp]

theorem setColumn_append (M : Mesh) (k p v : Nat) (hp : p < M.length) :
    setColumn (M ++ List.replicate k default) p v =
      setColumn M p v ++ List.replicate k default := by
  unfold setColumn; rw [rd_append_default, set_append_default _ _ _ _ hp]

theorem setSize_append (M : Mesh) (k p v : Nat) (hp : p < M.length) :
    setSize (M ++ List.replicate k default) p v = setSize M p v ++ List.replicate k default := by
  unfold setSize; rw [rd_append_default, set_append_default _ _ _ _ hp]

/-- Linking a cell does not depend on unused nodes behind the addresses it
writes. -/
theorem linkCell_append (x j nr : Nat) (M : Mesh) (k : Nat) (hx : x < M.length)
    (hj : j < M.length) (hjx : j ≠ x) (hup : (rd M j).up < M.length) :
    linkCell x j nr (M ++ List.replicate k default) =
      linkCell x j nr M ++ List.replicate k default := by
  unfold linkCell
  simp only [rd_append_default]
  rw [setUp_append _ _ _ _ hx, setDown_append _ _ _ _ (by simpa using hx),
    setSize_append _ _ _ _ (by simpa using hx), setColumn_append _ _ _ _ (by simpa using hx)]
  simp only [rd_append_default]
  have e : (rd (setColumn (setSize (setDown (setUp M x (rd M j).up) x j) x nr) x j) j).up =
      (rd M j).up := by
    simp [hjx]
  rw [setDown_append _ _ _ _ (by rw [e]; simpa using hup),
    setUp_append _ _ _ _ (by simpa using hj)]
  simp only [rd_append_default]
  rw [setSize_append _ _ _ _ (by simpa using hj)]

theorem addCell_append (base : Nat) (u : List Nat) (n nr : Nat) (M : Mesh) (k t : Nat)
    (hx : base + t < M.length) (hb : base + (t + 1) % n < M.length)
    (hj : u.getD t 0 < M.length) (hjx : u.getD t 0 ≠ base + t)
    (hup : (rd M (u.getD t 0)).up < M.length) :
    addCell base u n nr (M ++ List.replicate k default) t =
      addCell base u n nr M t ++ List.replicate k default := by
  rw [addCell_eq, addCell_eq, setRight_append _ _ _ _ hx,
    setLeft_append _ _ _ _ (by simpa using hb)]
  rw [Nat.zero_add]
  exact linkCell_append _ _ _ _ _ (by simpa using hx) (by simpa using hj) hjx
    (by simpa using hup)

theorem unique_of_sorted : ∀ (l : List Nat), l.Sorted (· < ·) → unique l = l
  | [], _ => rfl
  | [_], _ => rfl
  | a :: b :: l, h => by
    have hab : a < b := List.rel_of_sorted_cons h b (List.mem_cons_self _ _)
    have ih := unique_of_sorted (b :: l) h.of_cons
    unfold unique
    rw [if_neg (by omega), ih]

theorem sort_unique_of_sorted (l : List Nat) (h : l.Sorted (· < ·)) :
    unique (l.insertionSort (· ≤ ·)) = l := by
  have h2 : l.Sorted (· ≤ ·) := h.imp (fun hab => Nat.le_of_lt hab)
  rw [List.Sorted.insertionSort_eq h2]
  exact unique_of_sorted l h

theorem addRow_fold_append {S : Shape} {hd base : Nat} {u : List Nat} (nr : Nat) {M0 : Mesh}
    (h0 : WF0 M0 hd S) (hlen : M0.length = base + u.length) (hu : u.Nodup)
    (hucol : ∀ j ∈ u, j ∈ S.cols) (hb1 : hd < base)
    (hb2 : ∀ j ∈ S.cols, j < base) (hb3 : ∀ j ∈ S.cols, ∀ x ∈ S.V j, x < base)
    (hb4 : ∀ ρ ∈ S.rows, ∀ x ∈ ρ, x < base)
    (hsz : ∀ j ∈ S.cols, (S.V j).length + 1 < 18446744073709551616) (k : Nat) :
    ∀ t, t ≤ u.length →
      (List.range t).foldl (addCell base u u.length nr) (M0 ++ List.replicate k default) =
        (List.range t).foldl (addCell base u u.length nr) M0 ++ List.replicate k default
  | 0, _ => rfl
  | t + 1, ht => by
    have ih := addRow_fold_append nr h0 hlen hu hucol hb1 hb2 hb3 hb4 hsz k t (by omega)
    have inv := addRow_loop nr h0 hlen hu hucol (le_refl _) hb1 hb2 hb3 hb4 hsz t (by omega)
    rw [List.range_succ, List.foldl_append, List.foldl_append, ih]
    simp only [List.foldl_cons, List.foldl_nil]
    generalize (List.range t).foldl (addCell base u u.length nr) M0 = M at inv ⊢
    have htl : t < u.length := by omega
    have hut : u.getD t 0 = u[t] := by
      rw [List.getD_eq_getElem?_getD, List.getElem?_eq_getElem htl]; rfl
    have hjcol : u[t] ∈ S.cols := hucol _ (List.getElem_mem _)
    have hjb := hb2 _ hjcol
    have hmod : (t + 1) % u.length < u.length := Nat.mod_lt _ (by omega)
    have hjc : u[t] ∈ (S.addCells base (u.take t)).cols := hjcol
    have hup := chain_prev_mem (inv.wf.vring _ hjc)
    have hupl := (inv.wf.ring_col hjc hup).2
    apply addCell_append
    · rw [inv.len]; omega
    · rw [inv.len]; omega
    · rw [hut, inv.len]; omega
    · rw [hut]; omega
    · rw [hut]; exact hupl

theorem DLX.eq_of_fields : ∀ (a b : DLX), a.n_cols = b.n_cols → a.n_rows = b.n_rows →
    a.covered = b.covered → a.nodes = b.nodes → a.selected_rows = b.selected_rows →
    a.head = b.head → a = b
  | ⟨_, _, _, _, _, _⟩, ⟨_, _, _, _, _, _⟩, rfl, rfl, rfl, rfl, rfl, rfl => rfl

/-- C10. `AddRow` deduplicates and sorts: on a solver built by the constructor
and `AddRow` calls with in-range indices, `AddRow` of in-range indices (in any
order, with repetitions) works with the strictly increasing list `u` of the
distinct indices; the first `u.length` nodes of the new block form the ring of
the new row, walked rightwards, their columns are `u` in this order and they
carry the new row identifier; the size of a column grows by one if it is among
the indices and is unchanged otherwise; and the resulting solver is the one
`AddRow u` produces, followed in the store by the nodes of the block that are
not used. -/
theorem addRow_dedup_sort (n : Nat) (rows : List (List Nat)) (indices : List Nat)
    (hrows : ∀ r ∈ rows, ∀ j ∈ r, j < n) (hidx : ∀ j ∈ indices, j < n)
    (hlen : rows.length + 1 < 18446744073709551616) :
    (unique (indices.insertionSort (· ≤ ·))).Sorted (· < ·) ∧
    (∀ j, j ∈ unique (indices.insertionSort (· ≤ ·)) ↔ j ∈ indices) ∧
    RingOn (fun x => (rd ((build n rows).AddRow indices).nodes x).right)
      (fun x => (rd ((build n rows).AddRow indices).nodes x).left)
      (List.range' (build n rows).nodes.length
        (unique (indices.insertionSort (· ≤ ·))).length) ∧
    colsOf ((build n rows).AddRow indices).nodes
      (List.range' (build n rows).nodes.length
        (unique (indices.insertionSort (· ≤ ·))).length) =
      unique (indices.insertionSort (· ≤ ·)) ∧
    (∀ x ∈ List.range' (build n rows).nodes.length
        (unique (indices.insertionSort (· ≤ ·))).length,
      (rd ((build n rows).AddRow indices).nodes x).row = rows.length) ∧
    (∀ j, j < n → (rd ((build n rows).AddRow indices).nodes j).size =
      (rd (build n rows).nodes j).size + (if j ∈ indices then 1 else 0)) ∧
    (build n rows).AddRow indices =
      { (build n rows).AddRow (unique (indices.insertionSort (· ≤ ·))) with
        nodes := ((build n rows).AddRow (unique (indices.insertionSort (· ≤ ·)))).nodes ++
          List.replicate
            (indices.length - (unique (indices.insertionSort (· ≤ ·))).length) default } := by
  obtain ⟨S, hB⟩ := build_built n rows hrows (by omega)
  have hB' := built_addRow hB indices hidx hlen
  obtain ⟨hs, hu, hmem, hul⟩ := sortedRow_spec indices
  generalize hd : build n rows = d at hB hB' ⊢
  have hnodes := AddRow_nodes d indices
  have hnodes' := AddRow_nodes d (unique (indices.insertionSort (· ≤ ·)))
  rw [sort_unique_of_sorted _ hs] at hnodes'
  generalize hudef : unique (indices.insertionSort (· ≤ ·)) = u at *
  have hrowmem : List.range' d.nodes.length u.length ∈ (S.addRow d.nodes.length u).rows :=
    List.mem_append_right _ (List.mem_singleton_self _)
  have hlast : (S.addRow d.nodes.length u).rows.getD rows.length [] =
      List.range' d.nodes.length u.length := by
    show (S.rows ++ [List.range' d.nodes.length u.length]).getD rows.length [] = _
    rw [List.getD_eq_getElem?_getD, List.getElem?_append_right (by rw [hB.rows_len]),
      hB.rows_len]
    simp
  have hlast' : (rows ++ [indices]).getD rows.length [] = indices := by
    rw [List.getD_eq_getElem?_getD, List.getElem?_append_right (le_refl _)]
    simp
  have hlt : rows.length < (rows ++ [indices]).length := by simp
  refine ⟨hs, hmem, hB'.wf.row_ring _ hrowmem, ?_, ?_, ?_, ?_⟩
  · have := hB'.row_cols rows.length hlt
    rw [hlast, hlast', hudef] at this
    exact this
  · have := hB'.row_id rows.length hlt
    rw [hlast] at this
    exact this
  · intro j hj
    have hjc : j ∈ S.cols := by rw [hB.cols_eq]; exact List.mem_range.2 hj
    have h1 := (hB.wf.col_size j hjc).1
    have h2 : (rd (d.AddRow indices).nodes j).size =
        (S.V j ++ (if j ∈ u then [d.nodes.length + u.indexOf j] else [])).length :=
      (hB'.wf.col_size j hjc).1
    rw [h2, h1, List.length_append]
    by_cases hju : j ∈ u
    · rw [if_pos hju, if_pos ((hmem j).1 hju)]; rfl
    · rw [if_neg hju, if_neg (fun h => hju ((hmem j).2 h))]; rfl
  · have hb1 : n < d.nodes.length := hB.wf.hd_lt
    have hucol : ∀ j ∈ u, j ∈ S.cols := by
      intro j hj
      rw [hB.cols_eq, List.mem_range]
      exact hidx j ((hmem j).1 hj)
    have h0 : WF0 (d.nodes ++ List.replicate u.length default) n S :=
      wf0_of_rd_eq hB.wf.toWF0 (by simp) (rd_append_default _ _)
    have hsz : ∀ j ∈ S.cols, (S.V j).length + 1 < 18446744073709551616 := by
      intro j _
      have := hB.vlen j
      omega
    have hfold := addRow_fold_append d.n_rows h0 (by simp) hu hucol hb1 hB.wf.col_lt
      (fun j hj x hx => (hB.wf.vcell j hj x hx).1)
      (fun ρ hρ x hx => (hB.wf.row_cell ρ hρ x hx).1) hsz (indices.length - u.length)
      u.length (le_refl _)
    have hsplit : d.nodes ++ List.replicate indices.length (default : Node) =
        (d.nodes ++ List.replicate u.length default) ++
          List.replicate (indices.length - u.length) default := by
      have e : indices.length = u.length + (indices.length - u.length) := by omega
      have e2 : List.replicate indices.length (default : Node) =
          List.replicate u.length default ++
            List.replicate (indices.length - u.length) default := by
        rw [List.append_replicate_replicate, ← e]
      rw [List.append_assoc, ← e2]
    have hn : (d.AddRow indices).nodes =
        (d.AddRow u).nodes ++ List.replicate (indices.length - u.length) default := by
      rw [hnodes, hnodes', hsplit, hfold]
    exact DLX.eq_of_fields _ _ rfl rfl rfl hn rfl rfl

/-! ## The column scan of `Search` and the last column of the header ring -/

/-- When the header ring holds exactly one column, the scan of `Search` ends
before it examines it, `min_col` is still null, and `CoverColumn(min_col)`
dereferences it. -/
theorem Search_one_column (fuel depth : Nat) (d : DLX)
    (h1 : (rd d.nodes d.head).right ≠ d.head)
    (h2 : (rd d.nodes (rd d.nodes d.head).right).right = d.head) :
    Search (fuel + 1) (depth + 1) d = .error .nullDeref := by
  rw [Search, if_neg h1, selectColumn, if_pos h2]

/-! ## Concrete runs -/

set_option maxRecDepth 100000 in
/-- C2. `Solve` misses covers: the row `{0}` is an exact cover of the one-column
matrix with that row, and the row `{1}` is one of the two-column matrix with the
rows `{0}` and `{1}` once column 0 is pre-covered, yet in both cases `Solve`,
whatever the fuel, runs into the dereference of the null `min_col` (the scan loop
of `Search` never examines the last column of the header ring). -/
theorem solve_null_deref :
    (([0].filter (fun i => decide (0 ∈ [[0]].getD i []))).length = 1 ∧
      ∀ fuel, (preCoverAll (build 1 [[0]]) []).Solve (fuel + 2) = .error .nullDeref) ∧
    (([1].filter (fun i => decide (1 ∈ [[0], [1]].getD i []))).length = 1 ∧
      0 ∉ [[0], [1]].getD 1 [] ∧
      ∀ fuel, (preCoverAll (build 2 [[0], [1]]) [0]).Solve (fuel + 2) = .error .nullDeref) :=
  ⟨⟨by decide, fun _ => rfl⟩, by decide, by decide, fun _ => rfl⟩

set_option maxRecDepth 100000 in
/-- C4. Knuth's example: with 7 columns and the rows `{0,3,6}`, `{0,3}`,
`{3,4,6}`, `{2,4,5}`, `{1,2,5,6}`, `{1,6}` added in this order and no column
pre-covered, `Solve` (given fuel 30 or more) returns `true`, `GetSolution` is
`[1, 3, 5]`, and the columns of these three rows are a rearrangement of
`0, ..., 6`. -/
theorem knuth_example :
    (∀ fuel, (build 7 knuthRows).Solve (fuel + 30) =
      .ok (true, finalState ((build 7 knuthRows).Solve 30))) ∧
    (finalState ((build 7 knuthRows).Solve 30)).GetSolution = [1, 3, 5] ∧
    ([1, 3, 5].flatMap (fun i => knuthRows.getD i [])).Perm (List.range 7) :=
  ⟨fun _ => rfl, by decide, by decide⟩

/-- C5, the claim as stated fails: on a solver with one column, no row and no
pre-covered column, `Solve` stops at its assertion instead of returning
`false`. -/
theorem empty_column_assert_fails :
    (build 1 []).Solve 5 = .error .assertFailed := rfl

/-- C5, amended. On a solver with exactly one column, no row and no pre-covered
column, `Solve` (with any fuel that lets its loops run) does not return: the
assertion `c->size > 0` on the column fails. -/
theorem solve_empty_column (fuel : Nat) :
    (build 1 []).Solve (fuel + 1) = .error .assertFailed := rfl

/-! ## Instances -/

set_option maxRecDepth 100000 in
/-- The soundness theorem at Knuth's example. -/
theorem solve_sound_witness :
    (∀ r ∈ knuthRows, ∀ j ∈ r, j < 7) ∧
    (preCoverAll (build 7 knuthRows) []).Solve 30 =
      .ok (true, finalState ((build 7 knuthRows).Solve 30)) ∧
    (finalState ((build 7 knuthRows).Solve 30)).GetSolution.Nodup ∧
    (∀ i ∈ (finalState ((build 7 knuthRows).Solve 30)).GetSolution, i < knuthRows.length) ∧
    (∀ j, j < 7 → j ∉ ([] : List Nat) →
      ((finalState ((build 7 knuthRows).Solve 30)).GetSolution.filter
        (fun i => decide (j ∈ knuthRows.getD i []))).length = 1) ∧
    (∀ j ∈ ([] : List Nat), ∀ i ∈ (finalState ((build 7 knuthRows).Solve 30)).GetSolution,
      j ∉ knuthRows.getD i []) :=
  ⟨by decide, rfl,
    solve_sound 7 knuthRows [] (by decide) (by decide) (by decide) 30
      (finalState ((build 7 knuthRows).Solve 30)) rfl⟩

set_option maxRecDepth 100000 in
/-- The exhaustion theorem at a matrix of four columns in which column 1 is in
both rows that contain column 0 or column 2. -/
theorem solve_false_no_cover_witness :
    (∀ r ∈ [[0, 1], [1, 2], [3]], ∀ j ∈ r, j < 4) ∧
    (preCoverAll (build 4 [[0, 1], [1, 2], [3]]) []).Solve 10 =
      .ok (false, finalState ((build 4 [[0, 1], [1, 2], [3]]).Solve 10)) ∧
    ¬ ∃ sel : List Nat, (∀ i ∈ sel, i < [[0, 1], [1, 2], [3]].length) ∧
      (∀ i ∈ sel, ∀ j ∈ ([] : List Nat), j ∉ [[0, 1], [1, 2], [3]].getD i []) ∧
      (∀ j, j < 4 → j ∉ ([] : List Nat) →
        (sel.filter (fun i => decide (j ∈ [[0, 1], [1, 2], [3]].getD i []))).length = 1) :=
  ⟨by decide, rfl,
    solve_false_no_cover 4 [[0, 1], [1, 2], [3]] [] (by decide) (by decide) (by decide) 10
      (finalState ((build 4 [[0, 1], [1, 2], [3]]).Solve 10)) rfl⟩

set_option maxRecDepth 100000 in
/-- The restoration theorem at a failing search and a failing `Solve`. -/
theorem restoration_on_failure_witness :
    (Search 10 10 (build 4 [[0, 1], [1, 2], [3]]) =
        .ok (false, finalState (Search 10 10 (build 4 [[0, 1], [1, 2], [3]]))) ∧
      finalState (Search 10 10 (build 4 [[0, 1], [1, 2], [3]])) =
        build 4 [[0, 1], [1, 2], [3]]) ∧
    ((preCoverAll (build 5 [[0, 1], [1, 2], [2, 3], [4]]) [0]).Solve 10 =
        .ok (false, finalState ((preCoverAll (build 5 [[0, 1], [1, 2], [2, 3], [4]]) [0]).Solve 10)) ∧
      ∃ M, (List.range (preCoverAll (build 5 [[0, 1], [1, 2], [2, 3], [4]]) [0]).n_cols).foldlM
          (preCover 10 (preCoverAll (build 5 [[0, 1], [1, 2], [2, 3], [4]]) [0]).covered)
          (preCoverAll (build 5 [[0, 1], [1, 2], [2, 3], [4]]) [0]).nodes = .ok M ∧
        finalState ((preCoverAll (build 5 [[0, 1], [1, 2], [2, 3], [4]]) [0]).Solve 10) =
          { preCoverAll (build 5 [[0, 1], [1, 2], [2, 3], [4]]) [0] with nodes := M }) := by
  obtain ⟨S, hB⟩ := build_built 4 [[0, 1], [1, 2], [3]] (by decide) (by decide)
  exact ⟨⟨rfl, restoration_on_failure.1 (build 4 [[0, 1], [1, 2], [3]]) S 10 10 _ hB.wf rfl⟩,
    rfl, restoration_on_failure.2 5 [[0, 1], [1, 2], [2, 3], [4]] [0] 10 _ (by decide) (by decide)
      (by decide) rfl⟩

/-- The inverse theorem at the mesh of two columns and the row `{0, 1}`. -/
theorem cover_uncover_inverse_witness :
    ∃ S, WF (build 2 [[0, 1]]).nodes 2 S ∧ S.H = [0, 1] ∧ S.rows = [[3, 4]] ∧
      (build 2 [[0, 1]]).nodes.length < 10 ∧
      (∀ c ∈ S.H, ∃ M', CoverColumn 10 c (build 2 [[0, 1]]).nodes = .ok M' ∧
        UncoverColumn 10 c M' = .ok (build 2 [[0, 1]]).nodes) ∧
      (∀ ρ ∈ S.rows, ∀ r ∈ ρ,
        (∀ y ∈ ρ, y ≠ r → (rd (build 2 [[0, 1]]).nodes y).column ∈ S.H) →
        ∃ M2, forRing (fun M c => (rd M c).right) r
            (fun c M => CoverColumn 10 (rd M c).column M) 10
            (rd (build 2 [[0, 1]]).nodes r).right (build 2 [[0, 1]]).nodes = .ok M2 ∧
          forRing (fun M c => (rd M c).left) r
            (fun c M => UncoverColumn 10 (rd M c).column M) 10 (rd M2 r).left M2 =
            .ok (build 2 [[0, 1]]).nodes) := by
  obtain ⟨S, hB⟩ := build_built 2 [[0, 1]] (by decide) (by decide)
  exact ⟨S, hB.wf, hB.H_eq, hB.rows_eq, by decide,
    cover_uncover_inverse (build 2 [[0, 1]]).nodes 2 S hB.wf 10 (by decide)⟩

/-- The link consistency theorem at the mesh of two columns and the rows
`{0, 1}` and `{1}`. -/
theorem link_consistency_witness :
    (∀ r ∈ [[0, 1], [1]], ∀ j ∈ r, j < 2) ∧
    ∀ x, (x ≤ 2 ∨ x ∈ (rowCells (2 + 1) [[0, 1], [1]]).flatten) →
      Live (build 2 [[0, 1], [1]]).nodes 2 x ∧ LinkOK (build 2 [[0, 1], [1]]).nodes x :=
  ⟨by decide, (link_consistency 2 [[0, 1], [1]] (by decide) (by decide)).1⟩

/-- The size accounting theorem after `CoverColumn` of column 0 in the mesh of two
columns and the rows `{0, 1}` and `{1}`: column 1 is left with one cell. -/
theorem size_accounting_reach_witness :
    ((CoverColumn 10 0 (build 2 [[0, 1], [1]]).nodes).toOption.getD []).length < 10 ∧
    downCount ((CoverColumn 10 0 (build 2 [[0, 1], [1]]).nodes).toOption.getD []) 1 10
        (rd ((CoverColumn 10 0 (build 2 [[0, 1], [1]]).nodes).toOption.getD []) 1).down =
      some (rd ((CoverColumn 10 0 (build 2 [[0, 1], [1]]).nodes).toOption.getD []) 1).size ∧
    (rd ((CoverColumn 10 0 (build 2 [[0, 1], [1]]).nodes).toOption.getD []) 1).size = 1 :=
  ⟨by decide,
    size_accounting_reach 2 [0] _
      (Reach.cover 0 10 ((CoverColumn 10 0 (build 2 [[0, 1], [1]]).nodes).toOption.getD [])
        (Reach.built [[0, 1], [1]] (by decide) (by decide))
        (LiveCol.right LiveCol.head) (by decide) rfl)
      1 (by decide) 10 (by decide),
    by decide⟩

/-- The theorem on `AddRow` at the indices `2, 0, 2` added to a three-column
solver that holds the row `{0}`. -/
theorem addRow_dedup_sort_witness :
    (∀ j ∈ [2, 0, 2], j < 3) ∧
    colsOf ((build 3 [[0]]).AddRow [2, 0, 2]).nodes (List.range' 5 2) = [0, 2] ∧
    (∀ j, j < 3 → (rd ((build 3 [[0]]).AddRow [2, 0, 2]).nodes j).size =
      (rd (build 3 [[0]]).nodes j).size + (if j ∈ [2, 0, 2] then 1 else 0)) ∧
    (build 3 [[0]]).AddRow [2, 0, 2] =
      { (build 3 [[0]]).AddRow [0, 2] with
        nodes := ((build 3 [[0]]).AddRow [0, 2]).nodes ++ List.replicate 1 default } :=
  ⟨by decide,
    (addRow_dedup_sort 3 [[0]] [2, 0, 2] (by decide) (by decide) (by decide)).2.2.2.1,
    (addRow_dedup_sort 3 [[0]] [2, 0, 2] (by decide) (by decide) (by decide)).2.2.2.2.2.1,
    (addRow_dedup_sort 3 [[0]] [2, 0, 2] (by decide) (by decide) (by decide)).2.2.2.2.2.2⟩

/-! ## Row identifiers -/

theorem rowCells_length : ∀ (rows : List (List Nat)) (base : Nat),
    (rowCells base rows).length = rows.length
  | [], _ => rfl
  | r :: rows, base => by
    show (rowCells (base + r.length) rows).length + 1 = rows.length + 1
    rw [rowCells_length rows]

/-- The cells of the row made by call number `k`: the first nodes, one per
distinct index, of the block allocated behind the blocks of the calls before. -/
theorem rowCells_getD : ∀ (rows : List (List Nat)) (base k : Nat), k < rows.length →
    (rowCells base rows).getD k [] =
      List.range' (base + ((rows.take k).map List.length).sum)
        (unique ((rows.getD k []).insertionSort (· ≤ ·))).length
  | [], _, _, h => absurd h (Nat.not_lt_zero _)
  | r :: rows, base, 0, _ => by
    simp [rowCells]
  | r :: rows, base, k + 1, h => by
    have ih := rowCells_getD rows (base + r.length) k (by simpa using h)
    show (rowCells (base + r.length) rows).getD k [] = _
    rw [ih]
    simp [Nat.add_assoc]

theorem build_append (n : Nat) (rows rows' : List (List Nat)) :
    build n (rows ++ rows') = rows'.foldl DLX.AddRow (build n rows) := by
  unfold build
  rw [List.foldl_append]

/-- In a built solver the store holds the block of the constructor and the
blocks of the `AddRow` calls, each as long as the list given. -/
theorem build_nodes_length (n : Nat) (rows : List (List Nat))
    (hrows : ∀ r ∈ rows, ∀ j ∈ r, j < n) (hlen : rows.length < 18446744073709551616) :
    (build n rows).nodes.length = n + 1 + (rows.map List.length).sum := by
  obtain ⟨S, hB⟩ := build_built n rows hrows hlen
  exact hB.len_eq

/-- The cell `i` of the block allocated by call number `k` carries the row
identifier `k`. -/
theorem build_row_id (n : Nat) (rows : List (List Nat))
    (hrows : ∀ r ∈ rows, ∀ j ∈ r, j < n) (hlen : rows.length < 18446744073709551616)
    (k : Nat) (hk : k < rows.length) (i : Nat)
    (hi : i < (unique ((rows.getD k []).insertionSort (· ≤ ·))).length) :
    (rd (build n rows).nodes ((build n (rows.take k)).nodes.length + i)).row = k := by
  obtain ⟨S, hB⟩ := build_built n rows hrows hlen
  have hlk := build_nodes_length n (rows.take k)
    (fun r hr => hrows r (List.mem_of_mem_take hr))
    (by rw [List.length_take]; omega)
  apply hB.row_id k hk
  rw [hB.rows_eq, rowCells_getD rows (n + 1) k hk, hlk, List.mem_range'_1]
  omega

/-- The cells of the rows of a built solver, in terms of the calls that made
them. -/
theorem Built.cell_of_row {n : Nat} {rows : List (List Nat)} {d : DLX} {S : Shape}
    (hB : Built n rows d S) (hrows : ∀ r ∈ rows, ∀ j ∈ r, j < n)
    (hlen : rows.length < 18446744073709551616)
    {ρ : List Nat} (hρ : ρ ∈ S.rows) {x : Nat} (hx : x ∈ ρ) :
    ∃ k i, k < rows.length ∧ i < (unique ((rows.getD k []).insertionSort (· ≤ ·))).length ∧
      x = (build n (rows.take k)).nodes.length + i ∧ (rd d.nodes x).row = k := by
  obtain ⟨k, hk, e⟩ := List.mem_iff_getElem.1 hρ
  have hk' : k < rows.length := by rw [← hB.rows_len]; exact hk
  have hget : S.rows.getD k [] = ρ := by rw [List.getD_eq_getElem _ _ hk]; exact e
  have hid := hB.row_id k hk' x (hget ▸ hx)
  have hlk := build_nodes_length n (rows.take k)
    (fun r hr => hrows r (List.mem_of_mem_take hr))
    (by rw [List.length_take]; omega)
  rw [← hget, hB.rows_eq, rowCells_getD rows (n + 1) k hk', List.mem_range'_1] at hx
  refine ⟨k, x - (build n (rows.take k)).nodes.length, hk', ?_, ?_, hid⟩
  · rw [hlk]; omega
  · rw [hlk]; omega

/-- C11. Row identifiers are sequential: in a solver built by the constructor
and `AddRow` calls with in-range indices, every cell of the block allocated by
call number `k` (counting from 0; one cell per distinct index, whatever the
earlier lists were) carries the row identifier `k`; and when `Solve` returns
`true`, the identifiers of `GetSolution` are the row identifiers of cells made by
`AddRow` calls, each the number of its call and smaller than the number of
calls. -/
theorem row_ids_sequential (n : Nat) (rows : List (List Nat))
    (hrows : ∀ r ∈ rows, ∀ j ∈ r, j < n) (hlen : rows.length < 18446744073709551616) :
    (∀ k, k < rows.length →
      ∀ i, i < (unique ((rows.getD k []).insertionSort (· ≤ ·))).length →
        (rd (build n rows).nodes ((build n (rows.take k)).nodes.length + i)).row = k) ∧
    (∀ pre, (∀ j ∈ pre, j < n) → ∀ fuel d',
      (preCoverAll (build n rows) pre).Solve fuel = .ok (true, d') →
      ∃ cells : List Nat,
        d'.GetSolution = cells.map (fun x => (rd (build n rows).nodes x).row) ∧
        ∀ x ∈ cells, ∃ k i, k < rows.length ∧
          i < (unique ((rows.getD k []).insertionSort (· ≤ ·))).length ∧
          x = (build n (rows.take k)).nodes.length + i ∧
          (rd (build n rows).nodes x).row = k) := by
  refine ⟨fun k hk i hi => build_row_id n rows hrows hlen k hk i hi, ?_⟩
  intro pre hpre fuel d' h
  obtain ⟨S, hB⟩ := build_built n rows hrows hlen
  obtain ⟨picks, hp, _, _, hsol⟩ := Solve_true_picks hB pre hpre h
  refine ⟨picks.map Prod.fst, ?_, ?_⟩
  · rw [hsol, List.map_map]; rfl
  · intro x hx
    obtain ⟨p, hpp, rfl⟩ := List.mem_map.1 hx
    exact hB.cell_of_row hrows hlen (hp p hpp).1 (hp p hpp).2

/-! ## Empty rows -/

theorem AddRow_nil (d : DLX) : d.AddRow [] = { d with n_rows := incr d.n_rows } := by
  apply DLX.eq_of_fields <;> try rfl
  rw [AddRow_nodes]
  simp [unique]

/-- C12. An empty row is a no-op on the mesh: `AddRow` with the empty list
changes nothing but the row counter, which (in a solver built by the constructor
and `AddRow` calls) grows by one; the cells of a row added next carry an
identifier one larger than they would without the empty row; and the identifier
of an empty row is never in a solution `Solve` returns. -/
theorem empty_row_noop (n : Nat) (rows : List (List Nat))
    (hrows : ∀ r ∈ rows, ∀ j ∈ r, j < n) (hlen : rows.length + 2 < 18446744073709551616) :
    (∀ d : DLX, d.AddRow [] = { d with n_rows := incr d.n_rows }) ∧
    (build n rows).AddRow [] = { build n rows with n_rows := rows.length + 1 } ∧
    (∀ r, (∀ j ∈ r, j < n) → ∀ i, i < (unique (r.insertionSort (· ≤ ·))).length →
      (rd ((build n rows).AddRow r).nodes ((build n rows).nodes.length + i)).row =
        rows.length ∧
      (rd (((build n rows).AddRow []).AddRow r).nodes ((build n rows).nodes.length + i)).row =
        rows.length + 1) ∧
    (∀ pre, (∀ j ∈ pre, j < n) → ∀ fuel d',
      (preCoverAll (build n rows) pre).Solve fuel = .ok (true, d') →
      ∀ k ∈ d'.GetSolution, rows.getD k [] ≠ []) := by
  refine ⟨AddRow_nil, ?_, ?_, ?_⟩
  · obtain ⟨S, hB⟩ := build_built n rows hrows (by omega)
    rw [AddRow_nil, hB.n_rows_eq]
    have : incr rows.length = rows.length + 1 := by
      unfold incr
      exact Nat.mod_eq_of_lt (by omega)
    rw [this]
  · intro r hr i hi
    constructor
    · have h1 := build_row_id n (rows ++ [r])
        (by
          intro r' hr' j hj
          rcases List.mem_append.1 hr' with h | h
          · exact hrows r' h j hj
          · rw [List.mem_singleton] at h; subst h; exact hr j hj)
        (by simp; omega) rows.length (by simp) i (by simpa using hi)
      rw [List.take_left' rfl, build_append] at h1
      exact h1
    · have h1 := build_row_id n (rows ++ [[], r])
        (by
          intro r' hr' j hj
          rcases List.mem_append.1 hr' with h | h
          · exact hrows r' h j hj
          · simp only [List.mem_cons, List.mem_singleton, List.not_mem_nil, or_false] at h
            rcases h with h | h
            · subst h; cases hj
            · subst h; exact hr j hj)
        (by simp; omega) (rows.length + 1) (by simp) i
        (by
          have : (rows ++ [[], r]).getD (rows.length + 1) [] = r := by
            rw [List.getD_eq_getElem?_getD, List.getElem?_append_right (by omega)]
            simp
          rw [this]; exact hi)
      have e1 : (rows ++ [[], r]).take (rows.length + 1) = rows ++ [[]] := by
        rw [List.take_append_eq_append_take]
        simp
      have e2 : (build n (rows ++ [[]])).nodes.length = (build n rows).nodes.length := by
        rw [build_append]
        show ((build n rows).AddRow []).nodes.length = _
        rw [AddRow_nil]
      rw [e1, e2, build_append] at h1
      exact h1
  · intro pre hpre fuel d' h k hk
    obtain ⟨S, hB⟩ := build_built n rows hrows (by omega)
    obtain ⟨picks, hp, _, _, hsol⟩ := Solve_true_picks hB pre hpre h
    rw [hsol] at hk
    obtain ⟨p, hpp, rfl⟩ := List.mem_map.1 hk
    obtain ⟨k, i, hk1, hi, _, hid⟩ := hB.cell_of_row hrows (by omega) (hp p hpp).1 (hp p hpp).2
    rw [hid]
    intro he
    rw [he] at hi
    simp [unique] at hi

/-! ## Pre-cover marks -/

/-- C13. `PreCoverColumn` is an idempotent flag that does not touch the mesh:
for in-range indices, marking a column twice gives the state of marking it
once, marks of two columns commute, a mark sets the flag of its column and no
other flag, the node store (every link and size) and every other field are
unchanged, and a mark commutes with a later `AddRow`. -/
theorem preCover_flag (d : DLX) (i j : Nat) (hi : i < d.covered.length)
    (hj : j < d.covered.length) :
    (d.PreCoverColumn i).PreCoverColumn i = d.PreCoverColumn i ∧
    (d.PreCoverColumn i).PreCoverColumn j = (d.PreCoverColumn j).PreCoverColumn i ∧
    (d.PreCoverColumn i).covered.getD i false = true ∧
    (i ≠ j → (d.PreCoverColumn i).covered.getD j false = d.covered.getD j false) ∧
    d.PreCoverColumn i = { d with covered := (d.PreCoverColumn i).covered } ∧
    (d.PreCoverColumn i).nodes = d.nodes ∧
    (∀ r, (d.PreCoverColumn i).AddRow r = (d.AddRow r).PreCoverColumn i) := by
  refine ⟨?_, ?_, ?_, ?_, rfl, rfl, fun r => rfl⟩
  · show ({ d with covered := (d.covered.set i true).set i true } : DLX) = _
    rw [List.set_set]
    rfl
  · show ({ d with covered := (d.covered.set i true).set j true } : DLX) =
      { d with covered := (d.covered.set j true).set i true }
    by_cases h : i = j
    · subst h; rfl
    · rw [List.set_comm _ _ _ h]
  · show (d.covered.set i true).getD i false = true
    rw [List.getD_eq_getElem?_getD, List.getElem?_set_self hi]
    rfl
  · intro h
    show (d.covered.set i true).getD j false = _
    rw [List.getD_eq_getElem?_getD, List.getD_eq_getElem?_getD, List.getElem?_set_ne h]

/-! ## The column scan, exactly -/

theorem selectColumn_succ (M : Mesh) (hd fuel c : Nat) (mc : Option Nat) :
    selectColumn M hd (fuel + 1) c mc =
      if (rd M c).right = hd then .ok mc else
        if (match mc with
            | none => true
            | some m => decide ((rd M c).size < (rd M m).size)) = true then
          if (rd M c).size = 1 then .ok (some c)
          else selectColumn M hd fuel (rd M c).right (some c)
        else selectColumn M hd fuel (rd M c).right mc := rfl

theorem selectColumnNoBreak_succ (M : Mesh) (hd fuel c : Nat) (mc : Option Nat) :
    selectColumnNoBreak M hd (fuel + 1) c mc =
      if (rd M c).right = hd then .ok mc else
        if (match mc with
            | none => true
            | some m => decide ((rd M c).size < (rd M m).size)) = true then
          selectColumnNoBreak M hd fuel (rd M c).right (some c)
        else selectColumnNoBreak M hd fuel (rd M c).right mc := rfl

theorem smaller_iff (M : Mesh) (c : Nat) (mc : Option Nat) :
    (match mc with
      | none => true
      | some m => decide ((rd M c).size < (rd M m).size)) = true ↔
      ∀ m, mc = some m → (rd M c).size < (rd M m).size := by
  cases mc with
  | none => simp
  | some m => simp

/-- The scan of `Search`, entered at `x` with the current `min_col`, examines the
columns from `x` up to the one before the last column of the ring.  It returns
the current `min_col` when none of them is smaller; otherwise it returns a column
that is smaller than the entry `min_col` and than every column examined before
it, and that either has size 1 or is not larger than any column examined after
it. -/
theorem selectColumn_char {M : Mesh} {hd : Nat} :
    ∀ (l : List Nat) (fuel x : Nat) (mc : Option Nat),
      Chain (fun z => (rd M z).right) (fun z => (rd M z).left) x l hd → hd ∉ l →
      l.length < fuel →
      ∃ r, selectColumn M hd fuel x mc = .ok r ∧
        ((r = mc ∧ ∀ e ∈ (x :: l).dropLast, ∃ m, mc = some m ∧ (rd M m).size ≤ (rd M e).size) ∨
         (∃ E1 c E2, (x :: l).dropLast = E1 ++ c :: E2 ∧ r = some c ∧
            (∀ m, mc = some m → (rd M c).size < (rd M m).size) ∧
            (∀ e ∈ E1, (rd M c).size < (rd M e).size) ∧
            ((rd M c).size = 1 ∨ ∀ e ∈ E2, (rd M c).size ≤ (rd M e).size)))
  | _, 0, _, _, _, _, hf => absurd hf (Nat.not_lt_zero _)
  | [], fuel + 1, x, mc, hch, _, _ => by
    have h1 : (rd M x).right = hd := hch.1
    rw [selectColumn_succ, if_pos h1]
    exact ⟨mc, rfl, Or.inl ⟨rfl, by simp⟩⟩
  | z :: l, fuel + 1, x, mc, hch, hl, hf => by
    have hz : (rd M x).right = z := hch.1
    have hne : (rd M x).right ≠ hd := by
      rw [hz]; intro e; exact hl (e ▸ List.mem_cons_self _ _)
    have hl' : hd ∉ l := fun hm => hl (List.mem_cons_of_mem _ hm)
    have hE : (x :: z :: l).dropLast = x :: (z :: l).dropLast := rfl
    rw [selectColumn_succ, if_neg hne, hE, hz]
    by_cases hs : (match mc with
        | none => true
        | some m => decide ((rd M x).size < (rd M m).size)) = true
    · rw [if_pos hs]
      have hs' := (smaller_iff M x mc).1 hs
      by_cases h1 : (rd M x).size = 1
      · rw [if_pos h1]
        exact ⟨some x, rfl, Or.inr ⟨[], x, (z :: l).dropLast, rfl, rfl, hs', by simp,
          Or.inl h1⟩⟩
      · rw [if_neg h1]
        obtain ⟨r, hr, hP⟩ := selectColumn_char l fuel z (some x) hch.2.2 hl'
          (by simp only [List.length_cons] at hf; omega)
        refine ⟨r, hr, Or.inr ?_⟩
        rcases hP with ⟨e1, hall⟩ | ⟨E1, c, E2, hsplit, e1, hlt, hE1, hE2⟩
        · refine ⟨[], x, (z :: l).dropLast, rfl, e1, hs', by simp, Or.inr ?_⟩
          intro e he
          obtain ⟨m, hm, hle⟩ := hall e he
          cases hm
          exact hle
        · have hcx := hlt x rfl
          refine ⟨x :: E1, c, E2, by rw [hsplit]; rfl, e1, ?_, ?_, hE2⟩
          · intro m hm
            exact Nat.lt_trans hcx (hs' m hm)
          · intro e he
            rcases List.mem_cons.1 he with rfl | he
            · exact hcx
            · exact hE1 e he
    · rw [if_neg hs]
      have hs' : ∃ m, mc = some m ∧ (rd M m).size ≤ (rd M x).size := by
        cases mc with
        | none => simp at hs
        | some m => exact ⟨m, rfl, by simpa using hs⟩
      obtain ⟨r, hr, hP⟩ := selectColumn_char l fuel z mc hch.2.2 hl'
        (by simp only [List.length_cons] at hf; omega)
      refine ⟨r, hr, ?_⟩
      rcases hP with ⟨e1, hall⟩ | ⟨E1, c, E2, hsplit, e1, hlt, hE1, hE2⟩
      · left
        refine ⟨e1, ?_⟩
        intro e he
        rcases List.mem_cons.1 he with rfl | he
        · exact hs'
        · exact hall e he
      · right
        obtain ⟨m, hm, hle⟩ := hs'
        refine ⟨x :: E1, c, E2, by rw [hsplit]; rfl, e1, hlt, ?_, hE2⟩
        intro e he
        rcases List.mem_cons.1 he with rfl | he
        · exact Nat.lt_of_lt_of_le (hlt m hm) hle
        · exact hE1 e he

/-- The scan of `Search` from the head of a well-formed mesh: with enough fuel it
returns; the result is null exactly when the header ring holds fewer than two
columns; a column it returns is a column of the ring before the last one that
is smaller than every column to its left and either has size 1 or is not larger
than any column between it and the last one. -/
theorem selectColumn_ring {M : Mesh} {hd : Nat} {S : Shape} (h : WF0 M hd S) {fuel : Nat}
    (hf : M.length < fuel) :
    ∃ r, selectColumn M hd fuel (rd M hd).right none = .ok r ∧
      (r = none ↔ S.H.length ≤ 1) ∧
      ∀ c, r = some c → ∃ E1 E2 z, S.H = E1 ++ c :: (E2 ++ [z]) ∧
        (∀ e ∈ E1, (rd M c).size < (rd M e).size) ∧
        ((rd M c).size = 1 ∨ ∀ e ∈ E2, (rd M c).size ≤ (rd M e).size) := by
  have hch := h.hring
  have hhd : hd ∉ S.H := fun hm => h.hd_notin (h.H_sub _ hm)
  have hlen : S.H.length ≤ M.length :=
    nodup_length_le h.H_nodup (fun x hx => h.col_lt x (h.H_sub x hx))
  cases hH : S.H with
  | nil =>
    rw [hH] at hch
    have h1 : (rd M hd).right = hd := hch.1
    obtain ⟨k, rfl⟩ : ∃ k, fuel = k + 1 := ⟨fuel - 1, by omega⟩
    rw [h1, selectColumn_succ, if_pos h1]
    exact ⟨none, rfl, by simp, fun c hc => by cases hc⟩
  | cons x l =>
    rw [hH] at hch hhd hlen
    have h1 : (rd M hd).right = x := hch.1
    rw [h1]
    obtain ⟨r, hr, hP⟩ := selectColumn_char l fuel x none hch.2.2
      (fun hm => hhd (List.mem_cons_of_mem _ hm))
      (by simp only [List.length_cons] at hlen; omega)
    refine ⟨r, hr, ?_, ?_⟩
    · rcases hP with ⟨e1, hall⟩ | ⟨E1, c, E2, hsplit, e1, _, _, _⟩
      · subst e1
        constructor
        · intro _
          cases l with
          | nil => simp
          | cons z l' =>
            obtain ⟨m, hm, _⟩ := hall x (by simp [List.dropLast])
            cases hm
        · intro _; rfl
      · subst e1
        constructor
        · intro e; cases e
        · intro hle
          cases l with
          | nil => simp [List.dropLast] at hsplit
          | cons z l' => simp at hle
    · intro c hc
      rcases hP with ⟨e1, _⟩ | ⟨E1, c', E2, hsplit, e1, _, hE1, hE2⟩
      · rw [hc] at e1; cases e1
      · rw [hc] at e1
        cases e1
        have hne : x :: l ≠ [] := by simp
        refine ⟨E1, E2, (x :: l).getLast hne, ?_, hE1, hE2⟩
        have := List.dropLast_append_getLast hne
        rw [hsplit, List.append_assoc] at this
        exact this.symm

/-- The scan without the early exit, entered with a `min_col` of size 1, keeps
it when no column it examines has size 0. -/
theorem selectColumnNoBreak_keep {M : Mesh} {hd : Nat} :
    ∀ (l : List Nat) (fuel x m : Nat),
      Chain (fun z => (rd M z).right) (fun z => (rd M z).left) x l hd → hd ∉ l →
      l.length < fuel → (rd M m).size = 1 → (∀ e ∈ x :: l, 0 < (rd M e).size) →
      selectColumnNoBreak M hd fuel x (some m) = .ok (some m)
  | _, 0, _, _, _, _, hf, _, _ => absurd hf (Nat.not_lt_zero _)
  | [], fuel + 1, x, m, hch, _, _, _, _ => by
    have h1 : (rd M x).right = hd := hch.1
    rw [selectColumnNoBreak_succ, if_pos h1]
  | z :: l, fuel + 1, x, m, hch, hl, hf, hm, hpos => by
    have hz : (rd M x).right = z := hch.1
    have hne : (rd M x).right ≠ hd := by
      rw [hz]; intro e; exact hl (e ▸ List.mem_cons_self _ _)
    have hl' : hd ∉ l := fun hm => hl (List.mem_cons_of_mem _ hm)
    have hx := hpos x (List.mem_cons_self _ _)
    rw [selectColumnNoBreak_succ, if_neg hne, hz]
    have hs : ¬ ((match (some m : Option Nat) with
        | none => true
        | some m => decide ((rd M x).size < (rd M m).size)) = true) := by
      simp only [decide_eq_true_eq]
      omega
    rw [if_neg hs]
    exact selectColumnNoBreak_keep l fuel z m hch.2.2 hl'
      (by simp only [List.length_cons] at hf; omega) hm
      (fun e he => hpos e (List.mem_cons_of_mem _ he))

/-- With enough fuel and no column of size 0 in the ring, the scan with the early
exit and the scan without it return the same. -/
theorem selectColumn_eq_noBreak {M : Mesh} {hd : Nat} :
    ∀ (l : List Nat) (fuel x : Nat) (mc : Option Nat),
      Chain (fun z => (rd M z).right) (fun z => (rd M z).left) x l hd → hd ∉ l →
      l.length < fuel → (∀ e ∈ x :: l, 0 < (rd M e).size) →
      ∃ r, selectColumn M hd fuel x mc = .ok r ∧ selectColumnNoBreak M hd fuel x mc = .ok r
  | _, 0, _, _, _, _, hf, _ => absurd hf (Nat.not_lt_zero _)
  | [], fuel + 1, x, mc, hch, _, _, _ => by
    have h1 : (rd M x).right = hd := hch.1
    rw [selectColumn_succ, selectColumnNoBreak_succ, if_pos h1, if_pos h1]
    exact ⟨mc, rfl, rfl⟩
  | z :: l, fuel + 1, x, mc, hch, hl, hf, hpos => by
    have hz : (rd M x).right = z := hch.1
    have hne : (rd M x).right ≠ hd := by
      rw [hz]; intro e; exact hl (e ▸ List.mem_cons_self _ _)
    have hl' : hd ∉ l := fun hm => hl (List.mem_cons_of_mem _ hm)
    have hf' : l.length < fuel := by simp only [List.length_cons] at hf; omega
    have hpos' : ∀ e ∈ z :: l, 0 < (rd M e).size :=
      fun e he => hpos e (List.mem_cons_of_mem _ he)
    rw [selectColumn_succ, selectColumnNoBreak_succ, if_neg hne, if_neg hne, hz]
    by_cases hs : (match mc with
        | none => true
        | some m => decide ((rd M x).size < (rd M m).size)) = true
    · rw [if_pos hs, if_pos hs]
      by_cases h1 : (rd M x).size = 1
      · rw [if_pos h1]
        exact ⟨some x, rfl, selectColumnNoBreak_keep l fuel z x hch.2.2 hl' hf' h1 hpos'⟩
      · rw [if_neg h1]
        exact selectColumn_eq_noBreak l fuel z (some x) hch.2.2 hl' hf' hpos'
    · rw [if_neg hs, if_neg hs]
      exact selectColumn_eq_noBreak l fuel z mc hch.2.2 hl' hf' hpos'

/-! ## What the scan chooses -/

/-- C15, amended. On a well-formed mesh in whose header ring no column has size
0, with fuel beyond the size of the store, the scan of `Search` with the early
exit on a column of size 1 and the same scan without the early exit both return,
and return the same. -/
theorem early_exit_same_choice (M : Mesh) (hd : Nat) (S : Shape) (hw : WF0 M hd S)
    (fuel : Nat) (hf : M.length < fuel) (hpos : ∀ e ∈ S.H, 0 < (rd M e).size) :
    ∃ r, selectColumn M hd fuel (rd M hd).right none = .ok r ∧
      selectColumnNoBreak M hd fuel (rd M hd).right none = .ok r := by
  have hch := hw.hring
  have hhd : hd ∉ S.H := fun hm => hw.hd_notin (hw.H_sub _ hm)
  have hlen : S.H.length ≤ M.length :=
    nodup_length_le hw.H_nodup (fun x hx => hw.col_lt x (hw.H_sub x hx))
  cases hH : S.H with
  | nil =>
    rw [hH] at hch
    have h1 : (rd M hd).right = hd := hch.1
    obtain ⟨k, rfl⟩ : ∃ k, fuel = k + 1 := ⟨fuel - 1, by omega⟩
    rw [h1, selectColumn_succ, selectColumnNoBreak_succ, if_pos h1, if_pos h1]
    exact ⟨none, rfl, rfl⟩
  | cons x l =>
    rw [hH] at hch hhd hlen hpos
    have h1 : (rd M hd).right = x := hch.1
    rw [h1]
    exact selectColumn_eq_noBreak l fuel x none hch.2.2
      (fun hm => hhd (List.mem_cons_of_mem _ hm))
      (by simp only [List.length_cons] at hlen; omega) hpos

/-- C19. The scan of `Search` leaves `min_col` null exactly when the header ring
holds a single column (the ring is not empty when the scan is entered): on a
well-formed mesh whose header ring is not empty, with fuel beyond the size of the
store, the scan returns, its result is null if and only if the ring holds one
column, and in that case `Search` ends in the dereference of the null
`min_col`. -/
theorem scan_null_min_col (d : DLX) (S : Shape) (hw : WF0 d.nodes d.head S) (fuel : Nat)
    (hf : d.nodes.length < fuel) (hne : S.H ≠ []) :
    (∃ r, selectColumn d.nodes d.head fuel (rd d.nodes d.head).right none = .ok r ∧
      (r = none ↔ S.H.length = 1)) ∧
    (S.H.length = 1 → ∀ depth, Search fuel (depth + 1) d = .error .nullDeref) := by
  obtain ⟨r, hr, hnone, _⟩ := selectColumn_ring hw hf
  have hpos : 0 < S.H.length := List.length_pos.2 hne
  have hiff : r = none ↔ S.H.length = 1 := by
    rw [hnone]; omega
  refine ⟨⟨r, hr, hiff⟩, fun h1 depth => ?_⟩
  have hr0 := hiff.2 h1
  subst hr0
  have hch := hw.hring
  have h0 : (rd d.nodes d.head).right ≠ d.head := by
    cases hH : S.H with
    | nil => exact absurd hH hne
    | cons x l =>
      rw [hH] at hch
      have hx : (rd d.nodes d.head).right = x := hch.1
      rw [hx]
      intro e
      have : x ∈ S.H := by rw [hH]; simp
      exact hw.hd_notin (e ▸ hw.H_sub x this)
  rw [Search, if_neg h0, hr]

/-! ## The order of the cells of a column -/

theorem filter_range_succ (p : Nat → Bool) (m : Nat) :
    (List.range (m + 1)).filter p = (List.range m).filter p ++ (if p m then [m] else []) := by
  rw [List.range_succ, List.filter_append]
  by_cases h : p m <;> simp [h]

/-- In a built solver the cells of column `j`, walked down from the header,
carry the identifiers of the rows whose list contains `j`, in increasing
order. -/
theorem build_built_order (n : Nat) : ∀ (rows : List (List Nat)),
    (∀ r ∈ rows, ∀ j ∈ r, j < n) → rows.length < 18446744073709551616 →
    ∃ S, Built n rows (build n rows) S ∧
      ∀ j, j < n → (S.V j).map (fun x => (rd (build n rows).nodes x).row) =
        (List.range rows.length).filter (fun i => decide (j ∈ rows.getD i [])) := by
  intro rows
  induction rows using List.reverseRecOn with
  | nil =>
    intro hrows hlen
    obtain ⟨S, hB⟩ := build_built n [] hrows hlen
    refine ⟨S, hB, fun j _ => ?_⟩
    have := hB.vlen j
    have hnil : S.V j = [] := List.length_eq_zero.1 (Nat.le_zero.1 this)
    rw [hnil]
    rfl
  | append_singleton rows r ih =>
    intro hrows hlen
    have hrows' : ∀ r' ∈ rows, ∀ j ∈ r', j < n :=
      fun r' hr' => hrows r' (List.mem_append_left _ hr')
    have hr : ∀ j ∈ r, j < n := hrows r (by simp)
    have hlen' : rows.length + 1 < 18446744073709551616 := by simpa using hlen
    obtain ⟨S, hB, hV⟩ := ih hrows' (by omega)
    have hB' := built_addRow hB r hr hlen'
    have hbuild : build n (rows ++ [r]) = (build n rows).AddRow r := by
      rw [build_append]; rfl
    rw [hbuild]
    refine ⟨_, hB', fun j hj => ?_⟩
    obtain ⟨_, hu, hmem, _⟩ := sortedRow_spec r
    have hjc : j ∈ S.cols := by rw [hB.cols_eq]; exact List.mem_range.2 hj
    have hgetD : ∀ i, i < rows.length → (rows ++ [r]).getD i [] = rows.getD i [] := by
      intro i hi
      rw [List.getD_eq_getElem?_getD, List.getD_eq_getElem?_getD,
        List.getElem?_append_left hi]
    have hlast : (rows ++ [r]).getD rows.length [] = r := by
      rw [List.getD_eq_getElem?_getD, List.getElem?_append_right (le_refl _)]
      simp
    have hold : ∀ x ∈ S.V j,
        (rd ((build n rows).AddRow r).nodes x).row = (rd (build n rows).nodes x).row := by
      intro x hx
      obtain ⟨ρ, hρ, hxρ⟩ := hB.wf.vrow j hjc x hx
      obtain ⟨i, hi, e⟩ := List.mem_iff_getElem.1 hρ
      have hi' : i < rows.length := by rw [← hB.rows_len]; exact hi
      have hget : S.rows.getD i [] = ρ := by rw [List.getD_eq_getElem _ _ hi]; exact e
      have h1 := hB.row_id i hi' x (hget ▸ hxρ)
      have hget' : (S.addRow (build n rows).nodes.length
          (unique (r.insertionSort (· ≤ ·)))).rows.getD i [] = ρ := by
        show (S.rows ++ _).getD i [] = ρ
        rw [List.getD_eq_getElem?_getD, List.getElem?_append_left hi,
          ← List.getD_eq_getElem?_getD]
        exact hget
      have h2 := hB'.row_id i (by simp; omega) x (hget' ▸ hxρ)
      rw [h1, h2]
    have hnewrow : (S.addRow (build n rows).nodes.length
        (unique (r.insertionSort (· ≤ ·)))).rows.getD rows.length [] =
        List.range' (build n rows).nodes.length (unique (r.insertionSort (· ≤ ·))).length := by
      show (S.rows ++ _).getD rows.length [] = _
      rw [List.getD_eq_getElem?_getD, List.getElem?_append_right (by rw [hB.rows_len]),
        hB.rows_len]
      simp
    show (S.V j ++ (if j ∈ unique (r.insertionSort (· ≤ ·)) then
        [(build n rows).nodes.length + (unique (r.insertionSort (· ≤ ·))).indexOf j]
        else [])).map _ = _
    rw [List.length_append, List.length_singleton, filter_range_succ, List.map_append,
      List.map_congr_left hold, hV j hj]
    have hfil : (List.range rows.length).filter
        (fun i => decide (j ∈ (rows ++ [r]).getD i [])) =
        (List.range rows.length).filter (fun i => decide (j ∈ rows.getD i [])) := by
      apply List.filter_congr
      intro i hi
      rw [hgetD i (List.mem_range.1 hi)]
    rw [hfil, hlast]
    congr 1
    by_cases hju : j ∈ unique (r.insertionSort (· ≤ ·))
    · have hjr := (hmem j).1 hju
      rw [if_pos hju]
      simp only [hjr, decide_True, if_true, List.map_cons, List.map_nil, List.cons.injEq,
        and_true]
      apply hB'.row_id rows.length (by simp)
      rw [hnewrow, List.mem_range'_1]
      have := List.indexOf_lt_length.2 hju
      omega
    · have hjr : j ∉ r := fun h => hju ((hmem j).2 h)
      rw [if_neg hju]
      simp [hjr]

/-- C18. Bottom insertion keeps the cells of a column in insertion order: in a
solver built by the constructor and `AddRow` calls with in-range indices, the
walk down from the header of column `j` back to it visits cells of column `j`
whose row identifiers are exactly the numbers of the calls whose list contains
`j`, each once, in strictly increasing order. -/
theorem column_order (n : Nat) (rows : List (List Nat))
    (hrows : ∀ r ∈ rows, ∀ j ∈ r, j < n) (hlen : rows.length < 18446744073709551616)
    (j : Nat) (hj : j < n) :
    ∃ l, Chain (fun x => (rd (build n rows).nodes x).down)
        (fun x => (rd (build n rows).nodes x).up) j l j ∧ j ∉ l ∧
      (∀ x ∈ l, (rd (build n rows).nodes x).column = j) ∧
      l.map (fun x => (rd (build n rows).nodes x).row) =
        (List.range rows.length).filter (fun i => decide (j ∈ rows.getD i [])) ∧
      (l.map (fun x => (rd (build n rows).nodes x).row)).Sorted (· < ·) := by
  obtain ⟨S, hB, hV⟩ := build_built_order n rows hrows hlen
  have hjc : j ∈ S.cols := by rw [hB.cols_eq]; exact List.mem_range.2 hj
  refine ⟨S.V j, hB.wf.vring j hjc, ?_, ?_, hV j hj, ?_⟩
  · intro hm
    exact (hB.wf.vcell j hjc j hm).2.1 hjc
  · intro x hx
    exact (hB.wf.vcell j hjc x hx).2.2.2
  · rw [hV j hj]
    exact (List.sorted_lt_range rows.length).filter _

/-! ## Only `Solve` asserts -/

theorem forRing_noAssert {σ : Type} (next : σ → Nat → Nat) (stop : Nat)
    (body : Nat → σ → Except Fault σ) (hb : ∀ p s, body p s ≠ .error .assertFailed) :
    ∀ (fuel p : Nat) (s : σ), forRing next stop body fuel p s ≠ .error .assertFailed
  | 0, _, _ => by simp [forRing]
  | fuel + 1, p, s => by
    rw [forRing]
    split
    · simp
    · split
      · rename_i e he
        intro h
        rw [Except.error.injEq] at h
        subst h
        exact hb p s he
      · exact forRing_noAssert next stop body hb fuel _ _

theorem CoverColumn_noAssert (fuel c : Nat) (M : Mesh) :
    CoverColumn fuel c M ≠ .error .assertFailed := by
  rw [CoverColumn_unfold]
  apply forRing_noAssert
  intro p s
  apply forRing_noAssert
  intro p' s'
  simp

theorem UncoverColumn_noAssert (fuel c : Nat) (M : Mesh) :
    UncoverColumn fuel c M ≠ .error .assertFailed := by
  unfold UncoverColumn
  split
  · rename_i e he
    intro h
    rw [Except.error.injEq] at h
    subst h
    revert he
    apply forRing_noAssert
    intro p s
    apply forRing_noAssert
    intro p' s'
    simp
  · simp

theorem selectColumn_noAssert (M : Mesh) (hd : Nat) :
    ∀ (fuel c : Nat) (mc : Option Nat), selectColumn M hd fuel c mc ≠ .error .assertFailed
  | 0, _, _ => by simp [selectColumn]
  | fuel + 1, c, mc => by
    rw [selectColumn_succ]
    split
    · simp
    · split
      · split
        · simp
        · exact selectColumn_noAssert M hd fuel _ _
      · exact selectColumn_noAssert M hd fuel _ _

theorem tryRows_noAssert (fuel : Nat) (search : DLX → Except Fault (Bool × DLX))
    (hs : ∀ d, search d ≠ .error .assertFailed) (c : Nat) :
    ∀ (k r : Nat) (d : DLX), tryRows fuel search c k r d ≠ .error .assertFailed
  | 0, _, _ => by simp [tryRows]
  | k + 1, r, d => by
    rw [tryRows]
    split
    · simp
    · simp only
      split
      · rename_i e he
        intro h
        rw [Except.error.injEq] at h
        subst h
        revert he
        apply forRing_noAssert
        intro p s
        exact CoverColumn_noAssert _ _ _
      · split
        · rename_i e he
          intro h
          rw [Except.error.injEq] at h
          subst h
          exact hs _ he
        · simp
        · split
          · rename_i e he
            intro h
            rw [Except.error.injEq] at h
            subst h
            revert he
            apply forRing_noAssert
            intro p s
            exact UncoverColumn_noAssert _ _ _
          · exact tryRows_noAssert fuel search hs c k _ _

/-- No run of `Search` ends in a failed assertion. -/
theorem Search_noAssert (fuel : Nat) :
    ∀ (depth : Nat) (d : DLX), Search fuel depth d ≠ .error .assertFailed
  | 0, _ => by simp [Search]
  | depth + 1, d => by
    rw [Search]
    split
    · simp
    · split
      · rename_i e he
        intro h
        rw [Except.error.injEq] at h
        subst h
        exact selectColumn_noAssert _ _ _ _ _ he
      · simp
      · split
        · rename_i e he
          intro h
          rw [Except.error.injEq] at h
          subst h
          exact CoverColumn_noAssert _ _ _ he
        · split
          · rename_i e he
            intro h
            rw [Except.error.injEq] at h
            subst h
            exact tryRows_noAssert fuel _ (Search_noAssert fuel depth) _ _ _ _ he
          · simp
          · split
            · rename_i e he
              intro h
              rw [Except.error.injEq] at h
              subst h
              exact UncoverColumn_noAssert _ _ _ he
            · simp

/-! ## The loops of `Solve`, with enough fuel -/

theorem preCover_total (hd fuel : Nat) (cov : List Bool) :
    ∀ (l : List Nat) {M : Mesh} {S : Shape}, WF M hd S → l.Nodup →
      (∀ i ∈ l, i ∈ S.H) → M.length < fuel →
      l.foldlM (preCover fuel cov) M =
        .ok (coverCols S (l.filter (fun i => cov.getD i false)) M)
  | [], M, S, _, _, _, _ => rfl
  | i :: l, M, S, h, nd, hsub, hf => by
    rw [List.foldlM_cons]
    have hnd := List.nodup_cons.1 nd
    have hi : i ∈ S.H := hsub i (List.mem_cons_self _ _)
    by_cases hc : cov.getD i false = true
    · have e1 : preCover fuel cov M i = .ok (coverPure S i M) := by
        unfold preCover
        rw [if_pos hc, Nat.zero_add]
        exact CoverColumn_total h hi hf
      rw [e1]
      have h1 := cover_wf h hi
      have hsub' : ∀ i' ∈ l, i' ∈ (S.cover i).H := by
        intro i' hi'
        rw [cover_H, h.H_nodup.mem_erase_iff]
        refine ⟨?_, hsub i' (List.mem_cons_of_mem _ hi')⟩
        rintro rfl; exact hnd.1 hi'
      have := preCover_total hd fuel cov l h1 hnd.2 hsub' (by simpa using hf)
      rw [List.filter_cons, if_pos hc]
      exact this
    · have e1 : preCover fuel cov M i = .ok M := by
        unfold preCover
        rw [if_neg hc]
      rw [e1]
      have := preCover_total hd fuel cov l h hnd.2
        (fun i' hi' => hsub i' (List.mem_cons_of_mem _ hi')) hf
      rw [List.filter_cons, if_neg hc]
      exact this

theorem assert_chain {M : Mesh} {hd : Nat} :
    ∀ (l : List Nat) (a fuel : Nat),
      Chain (fun z => (rd M z).right) (fun z => (rd M z).left) a l hd → hd ∉ l →
      l.length < fuel →
      ((∀ c ∈ l, 0 < (rd M c).size) →
        forRing (fun M c => (rd M c).right) hd
          (fun c M => if (rd M c).size > 0 then .ok M else .error .assertFailed) fuel
          (l.headD hd) M = .ok M) ∧
      ((¬ ∀ c ∈ l, 0 < (rd M c).size) →
        forRing (fun M c => (rd M c).right) hd
          (fun c M => if (rd M c).size > 0 then .ok M else .error .assertFailed) fuel
          (l.headD hd) M = .error .assertFailed)
  | _, _, 0, _, _, hf => absurd hf (Nat.not_lt_zero _)
  | [], a, fuel + 1, _, _, _ => by
    simp [forRing]
  | x :: l, a, fuel + 1, hch, hl, hf => by
    have hne : x ≠ hd := fun e => hl (e ▸ List.mem_cons_self _ _)
    have hl' : hd ∉ l := fun hm => hl (List.mem_cons_of_mem _ hm)
    have hnext : (rd M x).right = l.headD hd := chain_next hch.2.2
    have ih := assert_chain l x fuel hch.2.2 hl'
      (by simp only [List.length_cons] at hf; omega)
    rw [List.headD_cons, forRing, if_neg hne]
    by_cases hx : (rd M x).size > 0
    · simp only [hx, if_true, hnext]
      constructor
      · intro hall
        exact ih.1 (fun c hc => hall c (List.mem_cons_of_mem _ hc))
      · intro hall
        apply ih.2
        intro h
        apply hall
        intro c hc
        rcases List.mem_cons.1 hc with rfl | hc
        · exact hx
        · exact h c hc
    · simp only [hx, if_false]
      constructor
      · intro hall
        exact absurd (hall x (List.mem_cons_self _ _)) hx
      · intro _; trivial

/-- The assertion loop of `Solve` on a well-formed mesh, with enough fuel:
it succeeds, leaving the mesh unchanged, when every column of the header ring
has a size above 0, and fails otherwise. -/
theorem assert_total {M : Mesh} {hd : Nat} {S : Shape} (h : WF0 M hd S) {fuel : Nat}
    (hf : M.length < fuel) :
    ((∀ c ∈ S.H, 0 < (rd M c).size) →
      forRing (fun M c => (rd M c).right) hd
        (fun c M => if (rd M c).size > 0 then .ok M else .error .assertFailed) fuel
        (rd M hd).right M = .ok M) ∧
    ((¬ ∀ c ∈ S.H, 0 < (rd M c).size) →
      forRing (fun M c => (rd M c).right) hd
        (fun c M => if (rd M c).size > 0 then .ok M else .error .assertFailed) fuel
        (rd M hd).right M = .error .assertFailed) := by
  have hch := h.hring
  have hhd : hd ∉ S.H := fun hm => h.hd_notin (h.H_sub _ hm)
  have hlen : S.H.length ≤ M.length :=
    nodup_length_le h.H_nodup (fun x hx => h.col_lt x (h.H_sub x hx))
  have hstart : (rd M hd).right = S.H.headD hd := chain_next hch
  rw [hstart]
  exact assert_chain S.H hd fuel hch hhd (by omega)

/-- In a well-formed mesh a column of the header ring holds a cell exactly when
some row with a cell in it has all its cells in columns of the header ring. -/
theorem WF.size_pos_iff {M : Mesh} {hd : Nat} {S : Shape} (h : WF M hd S) {j : Nat}
    (hj : j ∈ S.H) :
    0 < (rd M j).size ↔
      ∃ ρ ∈ S.rows, j ∈ colsOf M ρ ∧ ∀ y ∈ ρ, (rd M y).column ∈ S.H := by
  have hjc := h.H_sub j hj
  rw [(h.col_size j hjc).1, List.length_pos]
  constructor
  · intro hne
    obtain ⟨x, hx⟩ := List.exists_mem_of_ne_nil _ hne
    obtain ⟨ρ, hρ, hxρ⟩ := h.vrow j hjc x hx
    refine ⟨ρ, hρ, ?_, fun y hy => (h.live j hj x hx ρ hρ hxρ y hy).1⟩
    exact List.mem_map.2 ⟨x, hxρ, (h.vcell j hjc x hx).2.2.2⟩
  · rintro ⟨ρ, hρ, hjρ, hall⟩
    obtain ⟨y, hy, rfl⟩ := List.mem_map.1 hjρ
    exact List.ne_nil_of_mem (h.full ρ hρ hall y hy)

/-! ## The feasibility check of `Solve` -/

/-- With enough fuel, `Solve` on a built solver reaches its assertion loop on the
mesh with the marked columns covered; it fails there when a column of the header
ring has size 0, and otherwise is the run of `Search` on that mesh. -/
theorem Solve_total {n : Nat} {rows : List (List Nat)} {d0 : DLX} {S : Shape}
    (hB : Built n rows d0 S) (pre : List Nat) (hpre : ∀ j ∈ pre, j < n) {fuel : Nat}
    (hf : d0.nodes.length < fuel) :
    WF (coverCols S (preList n pre) d0.nodes) n (coverShape S (preList n pre)) ∧
    ((∀ c ∈ (coverShape S (preList n pre)).H,
        0 < (rd (coverCols S (preList n pre) d0.nodes) c).size) →
      (preCoverAll d0 pre).Solve fuel =
        Search fuel fuel
          { preCoverAll d0 pre with nodes := coverCols S (preList n pre) d0.nodes }) ∧
    ((¬ ∀ c ∈ (coverShape S (preList n pre)).H,
        0 < (rd (coverCols S (preList n pre) d0.nodes) c).size) →
      (preCoverAll d0 pre).Solve fuel = .error .assertFailed) := by
  rw [preCoverAll_eq]
  have hn := hB.n_cols_eq
  have hh := hB.head_eq
  have hcov := hB.covered_eq
  have hwf := hB.wf
  have hH := hB.H_eq
  obtain ⟨nc, nr, cov, nodes, sel, hd0⟩ := d0
  simp only at hn hh hcov hwf hf ⊢
  subst hn hh hcov
  have hnd : (List.range hd0).Nodup := List.nodup_range hd0
  have hsub : ∀ i ∈ List.range hd0, i ∈ S.H := fun i hi => by rw [hH]; exact hi
  have hfilter : (List.range hd0).filter (fun i =>
      (pre.foldl (fun c k => c.set k true) (List.replicate hd0 false)).getD i false) =
      preList hd0 pre := by
    unfold preList
    apply List.filter_congr
    intro i hi
    rw [List.mem_range] at hi
    rw [Bool.eq_iff_iff, covered_getD]
    simp [hi]
  have hM := preCover_total hd0 fuel
    (pre.foldl (fun c k => c.set k true) (List.replicate hd0 false))
    (List.range hd0) hwf hnd hsub hf
  rw [hfilter] at hM
  have hnd' : (preList hd0 pre).Nodup := hnd.filter _
  have hsub' : ∀ c ∈ preList hd0 pre, c ∈ S.H := by
    intro c hc
    rw [hH]
    exact (List.mem_filter.1 hc).1
  obtain ⟨w1, _, _, _⟩ := wf_coverCols (hd0) _ hwf hnd' hsub'
  have hf1 : (coverCols S (preList hd0 pre) nodes).length < fuel := by simpa using hf
  obtain ⟨a1, a2⟩ := assert_total w1.toWF0 hf1
  refine ⟨w1, fun hall => ?_, fun hall => ?_⟩
  · unfold DLX.Solve
    simp only
    rw [hM]
    simp only
    rw [a1 hall]
  · unfold DLX.Solve
    simp only
    rw [hM]
    simp only
    rw [a2 hall]

/-- After the pre-covering loop every column of the header ring has a size above
0 exactly when every column that is not marked is in some added row that holds no
marked column. -/
theorem feasible_iff {n : Nat} {rows : List (List Nat)} {d0 : DLX} {S : Shape}
    (hB : Built n rows d0 S) (hrows : ∀ r ∈ rows, ∀ j ∈ r, j < n)
    (pre : List Nat) (hpre : ∀ j ∈ pre, j < n) :
    (∀ c ∈ (coverShape S (preList n pre)).H,
        0 < (rd (coverCols S (preList n pre) d0.nodes) c).size) ↔
      ∀ j, j < n → j ∉ pre →
        ∃ i, i < rows.length ∧ j ∈ rows.getD i [] ∧ ∀ p ∈ pre, p ∉ rows.getD i [] := by
  have hnd' : (preList n pre).Nodup := (List.nodup_range n).filter _
  have hsub' : ∀ c ∈ preList n pre, c ∈ S.H := by
    intro c hc
    rw [hB.H_eq]
    exact (List.mem_filter.1 hc).1
  obtain ⟨w1, _, _, _⟩ := wf_coverCols (n) _ hB.wf hnd' hsub'
  obtain ⟨_, hHmem⟩ := pre_H hB pre hpre
  constructor
  · intro hall j hj hjp
    have hjH := (hHmem j).2 ⟨hj, hjp⟩
    obtain ⟨ρ, hρ, hjρ, hcols⟩ := (w1.size_pos_iff hjH).1 (hall j hjH)
    rw [coverShape_rows] at hρ
    rw [colsOf_coverCols] at hjρ
    obtain ⟨x, hx, _⟩ := List.mem_map.1 hjρ
    obtain ⟨hid, hmem⟩ := hB.row_of_mem hρ hx
    refine ⟨_, hid, (hmem j).1 hjρ, ?_⟩
    intro p hp hpr
    obtain ⟨y, hy, rfl⟩ := List.mem_map.1 ((hmem p).2 hpr)
    have := hcols y hy
    rw [coverCols_column] at this
    exact ((hHmem _).1 this).2 hp
  · intro hall c hc
    obtain ⟨hcn, hcp⟩ := (hHmem c).1 hc
    obtain ⟨i, hi, hci, hno⟩ := hall c hcn hcp
    obtain ⟨hρ, hmem⟩ := hB.row_getD hi
    have hin : rows.getD i [] ∈ rows := by
      rw [List.getD_eq_getElem _ _ hi]; exact List.getElem_mem _
    apply (w1.size_pos_iff hc).2
    refine ⟨S.rows.getD i [], by rw [coverShape_rows]; exact hρ, ?_, ?_⟩
    · rw [colsOf_coverCols]; exact (hmem c).2 hci
    · intro y hy
      rw [coverCols_column]
      have hy' : (rd d0.nodes y).column ∈ rows.getD i [] :=
        (hmem _).1 (List.mem_map.2 ⟨y, hy, rfl⟩)
      exact (hHmem _).2 ⟨hrows _ hin _ hy', fun hp => hno _ hp hy'⟩

/-- C17. The feasibility check of `Solve`: for a solver built by the constructor,
`AddRow` and `PreCoverColumn` calls with in-range indices, and fuel beyond the
size of the store, `Solve` ends in its failed assertion if and only if some
column that is not pre-covered is in no added row free of pre-covered columns;
so the assertion holds if and only if every column that is not pre-covered is in
at least one added row that contains no pre-covered column. -/
theorem solve_feasibility (n : Nat) (rows : List (List Nat)) (pre : List Nat)
    (hrows : ∀ r ∈ rows, ∀ j ∈ r, j < n) (hpre : ∀ j ∈ pre, j < n)
    (hlen : rows.length < 18446744073709551616) (fuel : Nat)
    (hf : (build n rows).nodes.length < fuel) :
    (preCoverAll (build n rows) pre).Solve fuel ≠ .error .assertFailed ↔
      ∀ j, j < n → j ∉ pre →
        ∃ i, i < rows.length ∧ j ∈ rows.getD i [] ∧ ∀ p ∈ pre, p ∉ rows.getD i [] := by
  obtain ⟨S, hB⟩ := build_built n rows hrows hlen
  obtain ⟨_, t1, t2⟩ := Solve_total hB pre hpre hf
  rw [← feasible_iff hB hrows pre hpre]
  constructor
  · intro hne
    by_contra hall
    exact hne (t2 hall)
  · intro hall
    rw [t1 hall]
    exact Search_noAssert fuel fuel _

/-! ## The rows a successful search selects -/

/-- The candidate-row loop of `Search` when it returns `true`: the rows tried
before left the solver as it was, and the loop ended in the row of a cell `r` of
the column, whose identifier was pushed and whose other columns were covered
before the search that returned `true` was entered. -/
theorem tryRows_true {lf : Nat} {search : DLX → Except Fault (Bool × DLX)}
    (hrec : ∀ d2 S2 b d', WF d2.nodes d2.head S2 → search d2 = .ok (b, d') →
      SearchPost d2 S2 b d')
    {d : DLX} {S : Shape} (h : WF d.nodes d.head S) {c : Nat} (hc : c ∈ S.H) :
    ∀ (R P : List Nat), S.V c = P ++ R → ∀ (k : Nat) (d' : DLX),
      tryRows lf search c k (R.headD c) { d with nodes := coverPure S c d.nodes } =
        .ok (true, d') →
      ∃ r ∈ R, ∃ M2, r ≠ c ∧ (rd (coverPure S c d.nodes) r).column = c ∧
        forRing (fun M c => (rd M c).right) r (fun c M => CoverColumn lf (rd M c).column M)
          lf (rd (coverPure S c d.nodes) r).right (coverPure S c d.nodes) = .ok M2 ∧
        M2 = coverCols S (c :: (S.others r).map (fun y => (rd d.nodes y).column)) d.nodes ∧
        search { d with
          nodes := M2
          selected_rows := d.selected_rows ++ [(rd (coverPure S c d.nodes) r).row] } =
          .ok (true, d')
  | _, _, _, 0, _, e => by simp [tryRows] at e
  | [], _, _, k + 1, d', e => by
    rw [List.headD_nil, tryRows, if_pos rfl] at e
    have := Except.ok.inj e
    simp only [Prod.mk.injEq] at this
    exact absurd this.1 (by decide)
  | r :: rest, P, hV, k + 1, d', e => by
    have hr : r ∈ S.V c := by rw [hV]; simp
    have hne : r ≠ c := (h.V_cell hc hr).1
    obtain ⟨_, ρ, hρ, hrρ⟩ := h.V_cell hc hr
    have h1 := cover_wf h hc
    obtain ⟨n1, n2, n3⟩ := h.choice_cols hc hr
    have hcols : ∀ y ∈ (S.cover c).others r,
        (rd (coverPure S c d.nodes) y).column ∈ (S.cover c).H := by
      intro y hy
      rw [coverPure_column, cover_H]
      exact n3 y hy
    have hmap : ((S.cover c).others r).map (fun y => (rd (coverPure S c d.nodes) y).column) =
        (S.others r).map (fun y => (rd d.nodes y).column) := by
      rw [cover_others]
      apply List.map_congr_left
      intro y _
      simp
    have hcol : (rd (coverPure S c d.nodes) r).column = c := by
      rw [coverPure_column]
      exact (h.toWF0.cell_of_V (h.H_sub c hc) hr).2.2.2
    obtain ⟨w1, _, _, _⟩ := wf_coverCols (d.head) _ h n1 n2
    rw [List.headD_cons, tryRows, if_neg hne] at e
    simp only at e
    split at e
    · cases e
    · rename_i M2 hM2
      have eM2 := coverOthers_ok h1 (ρ := ρ) (by simpa using hρ) hrρ hcols hM2
      rw [hmap] at eM2
      have eM2' : M2 = coverCols S (c :: (S.others r).map (fun y => (rd d.nodes y).column))
          d.nodes := eM2
      split at e
      · cases e
      · rename_i d3 hs
        have := Except.ok.inj e
        simp only [Prod.mk.injEq, true_and] at this
        subst this
        exact ⟨r, List.mem_cons_self _ _, M2, hne, hcol, hM2, eM2', hs⟩
      · rename_i d3 hs
        rw [eM2'] at hs
        have hpost := hrec _ _ _ _ w1 hs
        obtain ⟨ed3, _⟩ := hpost
        split at e
        · cases e
        · rename_i M4 hM4
          rw [ed3] at hM4
          simp only at hM4
          rw [← hmap] at hM4
          have eM4 := uncoverOthers_ok h1 (ρ := ρ) (by simpa using hρ) hrρ hcols hM4
          have hd5 : ({ d3 with nodes := M4, selected_rows := d3.selected_rows.dropLast } : DLX) =
              { d with nodes := coverPure S c d.nodes } := by
            rw [ed3, eM4]
            simp
          rw [hd5] at e
          have hnext : (rd M4 r).down = rest.headD c := by
            rw [eM4]
            have hring := h1.vring c (by simpa using h.H_sub c hc)
            rw [cover_V_self h hc, hV, chain_append] at hring
            exact chain_next hring.2
          rw [hnext] at e
          obtain ⟨r', hr', rest'⟩ := tryRows_true hrec h hc rest (P ++ [r]) (by simp [hV]) k d' e
          exact ⟨r', List.mem_cons_of_mem _ hr', rest'⟩

/-- A run of `Search` on a well-formed mesh that returns `true` has pushed the
identifiers of the rows it selected, level by level, outermost first. -/
theorem Search_chosen (lf : Nat) : ∀ (depth : Nat) (d : DLX) (S : Shape) (d' : DLX),
    WF d.nodes d.head S → Search lf depth d = .ok (true, d') →
    ∃ ids, Chosen lf depth d ids d' ∧ d'.selected_rows = d.selected_rows ++ ids
  | 0, _, _, _, _, e => by simp [Search] at e
  | depth + 1, d, S, d', h, e => by
    have e0 := e
    rw [Search] at e
    by_cases h0 : (rd d.nodes d.head).right = d.head
    · rw [if_pos h0] at e
      have := Except.ok.inj e
      simp only [Prod.mk.injEq, true_and] at this
      subst this
      exact ⟨[], Chosen.done depth d h0, by simp⟩
    · rw [if_neg h0] at e
      split at e
      · cases e
      · cases e
      · rename_i c hsel
        have hc := selectColumn_ok h.toWF0 hsel
        split at e
        · cases e
        · rename_i M1 hM1
          have eM1 := ok_of_CoverColumn h hc hM1
          subst eM1
          have hstart : (rd (coverPure S c d.nodes) c).down = (S.V c).headD c := by
            have hring := (cover_wf h hc).vring c (by simpa using h.H_sub c hc)
            rw [cover_V_self h hc] at hring
            exact chain_next hring
          rw [hstart] at e
          split at e
          · cases e
          · rename_i d3 ht
            have := Except.ok.inj e
            simp only [Prod.mk.injEq, true_and] at this
            subst this
            obtain ⟨r, hr, M2, hne, hcol, hM2, eM2, hs⟩ :=
              tryRows_true (fun d2 S2 b d' => Search_spec lf depth d2 S2 b d') h hc
                (S.V c) [] rfl lf _ ht
            obtain ⟨n1, n2, _⟩ := h.choice_cols hc hr
            obtain ⟨w1, _, _, _⟩ := wf_coverCols (d.head) _ h n1 n2
            rw [← eM2] at w1
            obtain ⟨ids, hch, hsel'⟩ := Search_chosen lf depth _ _ _ w1 hs
            refine ⟨_ :: ids, Chosen.step depth d c r _ M2 ids _ h0 hsel hM1 hne hcol hM2 hch, ?_⟩
            rw [hsel']
            simp
          · split at e
            · cases e
            · have := Except.ok.inj e
              simp only [Prod.mk.injEq] at this
              exact absurd this.1 (by decide)

/-- C20. The selection is balanced: on a well-formed mesh a call of `Search` that
returns `false` leaves `selected_rows_` as it was on entry, and a call that
returns `true` leaves the entry value extended by the identifiers of the rows
selected at each level, outermost first; and for a solver built by the
constructor, `AddRow` and `PreCoverColumn` calls with in-range indices,
`GetSolution` is empty after `Solve` returned `false`. -/
theorem selection_balanced :
    (∀ (fuel depth : Nat) (d : DLX) (S : Shape) (d' : DLX), WF d.nodes d.head S →
      Search fuel depth d = .ok (false, d') → d'.selected_rows = d.selected_rows) ∧
    (∀ (fuel depth : Nat) (d : DLX) (S : Shape) (d' : DLX), WF d.nodes d.head S →
      Search fuel depth d = .ok (true, d') →
      ∃ ids, Chosen fuel depth d ids d' ∧ d'.selected_rows = d.selected_rows ++ ids) ∧
    (∀ (n : Nat) (rows : List (List Nat)) (pre : List Nat) (fuel : Nat) (d' : DLX),
      (∀ r ∈ rows, ∀ j ∈ r, j < n) → (∀ j ∈ pre, j < n) →
      rows.length < 18446744073709551616 →
      (preCoverAll (build n rows) pre).Solve fuel = .ok (false, d') →
      d'.GetSolution = []) := by
  refine ⟨?_, ?_, ?_⟩
  · intro fuel depth d S d' hw h
    rw [(Search_spec fuel depth d S false d' hw h).1]
  · intro fuel depth d S d' hw h
    exact Search_chosen fuel depth d S d' hw h
  · intro n rows pre fuel d' hrows hpre hlen h
    obtain ⟨S, hB⟩ := build_built n rows hrows hlen
    obtain ⟨_, _, _, hd', _⟩ := Solve_spec hB pre hpre h
    rw [hd', preCoverAll_eq]
    exact hB.selected_eq

/-! ## Termination of `Search` -/

theorem filter_length_le_of_imp {α : Type} (p q : α → Bool) :
    ∀ (l : List α), (∀ x ∈ l, q x = true → p x = true) →
      (l.filter q).length ≤ (l.filter p).length
  | [], _ => le_refl _
  | x :: l, h => by
    have ih := filter_length_le_of_imp p q l (fun y hy => h y (List.mem_cons_of_mem _ hy))
    rw [List.filter_cons, List.filter_cons]
    by_cases hq : q x = true
    · rw [if_pos hq, if_pos (h x (List.mem_cons_self _ _) hq)]
      simp only [List.length_cons]
      omega
    · rw [if_neg hq]
      split
      · simp only [List.length_cons]; omega
      · exact ih

theorem filter_length_lt_of_imp {α : Type} (p q : α → Bool) (a : α) (hpa : p a = true)
    (hqa : ¬ q a = true) :
    ∀ (l : List α), (∀ x ∈ l, q x = true → p x = true) → a ∈ l →
      (l.filter q).length < (l.filter p).length
  | [], _, ha => by cases ha
  | x :: l, h, ha => by
    have h' : ∀ y ∈ l, q y = true → p y = true := fun y hy => h y (List.mem_cons_of_mem _ hy)
    rw [List.filter_cons, List.filter_cons]
    rcases List.mem_cons.1 ha with rfl | ha
    · have := filter_length_le_of_imp p q l h'
      rw [if_neg hqa, if_pos hpa]
      simp only [List.length_cons]
      omega
    · have ih := filter_length_lt_of_imp p q a hpa hqa l h' ha
      by_cases hq : q x = true
      · rw [if_pos hq, if_pos (h x (List.mem_cons_self _ _) hq)]
        simp only [List.length_cons]
        omega
      · rw [if_neg hq]
        split
        · simp only [List.length_cons]; omega
        · exact ih

theorem liveRows_length_le (S : Shape) (M : Mesh) : (S.liveRows M).length ≤ S.rows.length :=
  List.length_filter_le _ _

/-- Selecting a row takes it out of the rows that can still be selected, and
brings none back. -/
theorem liveRows_lt {M : Mesh} {hd : Nat} {S : Shape} (h : WF M hd S) {c : Nat}
    (hc : c ∈ S.H) {r : Nat} (hr : r ∈ S.V c) :
    ((coverShape S (c :: (S.others r).map (fun y => (rd M y).column))).liveRows
      (coverCols S (c :: (S.others r).map (fun y => (rd M y).column)) M)).length <
      (S.liveRows M).length := by
  obtain ⟨n1, n2, _⟩ := h.choice_cols hc hr
  obtain ⟨_, _, _, w4⟩ := wf_coverCols (hd) _ h n1 n2
  obtain ⟨_, ρ, hρ, hrρ⟩ := h.V_cell hc hr
  have hall : (c :: (S.others r).map (fun y => (rd M y).column) ++
      (coverShape S (c :: (S.others r).map (fun y => (rd M y).column))).H).Nodup :=
    w4.nodup_iff.2 h.H_nodup
  have hdisj := (List.nodup_append.1 hall).2.2
  have hsub : ∀ x, x ∈ (coverShape S (c :: (S.others r).map (fun y => (rd M y).column))).H →
      x ∈ S.H := fun x hx => w4.subset (List.mem_append_right _ hx)
  have hcnot : c ∉ (coverShape S (c :: (S.others r).map (fun y => (rd M y).column))).H :=
    fun hm => hdisj (List.mem_cons_self _ _) hm
  unfold Shape.liveRows
  simp only [coverShape_rows, coverCols_column]
  apply filter_length_lt_of_imp _ _ ρ
  · rw [List.all_eq_true]
    intro y hy
    rw [decide_eq_true_eq]
    exact (h.live c hc r hr ρ hρ hrρ y hy).1
  · rw [List.all_eq_true]
    intro hq
    have := hq r hrρ
    rw [decide_eq_true_eq, (h.toWF0.cell_of_V (h.H_sub c hc) hr).2.2.2] at this
    exact hcnot this
  · intro ρ' _ hq
    rw [List.all_eq_true] at hq ⊢
    intro y hy
    have := hq y hy
    rw [decide_eq_true_eq] at this ⊢
    exact hsub _ this
  · exact hρ

/-- The candidate-row loop of `Search` does not run out of fuel when the fuel
exceeds the size of the store and the searches it calls do not. -/
theorem tryRows_total {lf : Nat} (search : DLX → Except Fault (Bool × DLX))
    {d : DLX} {S : Shape}
    (hrec : ∀ d2 S2 b d', WF d2.nodes d2.head S2 → search d2 = .ok (b, d') →
      SearchPost d2 S2 b d')
    (htot : ∀ d2 S2, WF d2.nodes d2.head S2 → d2.nodes.length = d.nodes.length →
      (S2.liveRows d2.nodes).length < (S.liveRows d.nodes).length →
      search d2 ≠ .error .outOfFuel)
    (h : WF d.nodes d.head S) (hf : d.nodes.length < lf) {c : Nat} (hc : c ∈ S.H) :
    ∀ (R P : List Nat), S.V c = P ++ R → ∀ (k : Nat), R.length < k →
      tryRows lf search c k (R.headD c) { d with nodes := coverPure S c d.nodes } ≠
        .error .outOfFuel
  | _, _, _, 0, hk => absurd hk (Nat.not_lt_zero _)
  | [], _, _, k + 1, _ => by
    rw [List.headD_nil, tryRows, if_pos rfl]
    simp
  | r :: rest, P, hV, k + 1, hk => by
    have hr : r ∈ S.V c := by rw [hV]; simp
    have hne : r ≠ c := (h.V_cell hc hr).1
    obtain ⟨_, ρ, hρ, hrρ⟩ := h.V_cell hc hr
    have h1 := cover_wf h hc
    obtain ⟨n1, n2, n3⟩ := h.choice_cols hc hr
    have hcols : ∀ y ∈ (S.cover c).others r,
        (rd (coverPure S c d.nodes) y).column ∈ (S.cover c).H := by
      intro y hy
      rw [coverPure_column, cover_H]
      exact n3 y hy
    have hmap : ((S.cover c).others r).map (fun y => (rd (coverPure S c d.nodes) y).column) =
        (S.others r).map (fun y => (rd d.nodes y).column) := by
      rw [cover_others]
      apply List.map_congr_left
      intro y _
      simp
    have hf1 : (coverPure S c d.nodes).length < lf := by simpa using hf
    obtain ⟨w1, _, _, _⟩ := wf_coverCols (d.head) _ h n1 n2
    have hcov := coverOthers_total h1 (ρ := ρ) (by simpa using hρ) hrρ hcols hf1
    have hunc := uncoverOthers_total h1 (ρ := ρ) (by simpa using hρ) hrρ hcols hf1
    rw [hmap] at hcov hunc
    have hcov' : forRing (fun M c => (rd M c).right) r
        (fun c M => CoverColumn lf (rd M c).column M) lf
        (rd (coverPure S c d.nodes) r).right (coverPure S c d.nodes) =
        .ok (coverCols S (c :: (S.others r).map (fun y => (rd d.nodes y).column)) d.nodes) :=
      hcov
    rw [List.headD_cons, tryRows, if_neg hne]
    simp only
    rw [hcov']
    simp only
    split
    · rename_i e he
      intro heq
      rw [Except.error.injEq] at heq
      subst heq
      refine htot _ _ w1 ?_ ?_ he
      · simp
      · exact liveRows_lt h hc hr
    · simp
    · rename_i d3 hs
      have hpost := hrec _ _ _ _ w1 hs
      obtain ⟨ed3, _⟩ := hpost
      rw [ed3]
      simp only
      have hunc' : forRing (fun M c => (rd M c).left) r
          (fun c M => UncoverColumn lf (rd M c).column M) lf
          (rd (coverCols S (c :: (S.others r).map (fun y => (rd d.nodes y).column)) d.nodes)
            r).left
          (coverCols S (c :: (S.others r).map (fun y => (rd d.nodes y).column)) d.nodes) =
          .ok (coverPure S c d.nodes) := hunc
      rw [hunc']
      simp only
      have hnext : (rd (coverPure S c d.nodes) r).down = rest.headD c := by
        have hring := h1.vring c (by simpa using h.H_sub c hc)
        rw [cover_V_self h hc, hV, chain_append] at hring
        exact chain_next hring.2
      rw [hnext]
      have hd5 : ({ d with
          nodes := coverPure S c d.nodes
          selected_rows :=
            (d.selected_rows ++ [(rd (coverPure S c d.nodes) r).row]).dropLast } : DLX) =
          { d with nodes := coverPure S c d.nodes } := by
        simp
      rw [hd5]
      exact tryRows_total search hrec htot h hf hc rest (P ++ [r]) (by simp [hV]) k
        (by simp only [List.length_cons] at hk; omega)

/-- On a well-formed mesh `Search` does not run out of fuel or nesting depth when
the fuel exceeds the size of the store and the depth exceeds the number of rows
that can still be selected. -/
theorem Search_total (lf : Nat) : ∀ (depth : Nat) (d : DLX) (S : Shape),
    WF d.nodes d.head S → d.nodes.length < lf → (S.liveRows d.nodes).length < depth →
    Search lf depth d ≠ .error .outOfFuel
  | 0, _, _, _, _, hd => absurd hd (Nat.not_lt_zero _)
  | depth + 1, d, S, h, hf, hd => by
    rw [Search]
    split
    · simp
    · obtain ⟨r, hr, _, _⟩ := selectColumn_ring h.toWF0 hf
      rw [hr]
      cases r with
      | none => simp
      | some c =>
        simp only
        have hc := selectColumn_ok h.toWF0 hr
        rw [CoverColumn_total h hc hf]
        simp only
        have hstart : (rd (coverPure S c d.nodes) c).down = (S.V c).headD c := by
          have hring := (cover_wf h hc).vring c (by simpa using h.H_sub c hc)
          rw [cover_V_self h hc] at hring
          exact chain_next hring
        rw [hstart]
        have hVlen : (S.V c).length < lf := by
          have := nodup_length_le (h.vnodup c (h.H_sub c hc))
            (fun x hx => (h.vcell c (h.H_sub c hc) x hx).1)
          omega
        have htr := tryRows_total (fun d2 => Search lf depth d2)
          (fun d2 S2 b d' => Search_spec lf depth d2 S2 b d')
          (fun d2 S2 w2 hl2 hlt => Search_total lf depth d2 S2 w2 (by rw [hl2]; exact hf)
            (by omega))
          h hf hc (S.V c) [] rfl lf hVlen
        split
        · rename_i e he
          intro heq
          rw [Except.error.injEq] at heq
          subst heq
          exact htr he
        · simp
        · rename_i d3 ht
          obtain ⟨ed3, _⟩ := (tryRows_spec (fun d2 S2 b d' => Search_spec lf depth d2 S2 b d')
            h hc (S.V c) [] rfl lf false _ ht).2 rfl
          rw [ed3]
          simp only
          rw [UncoverColumn_total h hc hf]
          simp

/-- With enough fuel the pre-covering loop of `Solve` on a built solver yields the
mesh with the marked columns covered. -/
theorem preCover_run {n : Nat} {rows : List (List Nat)} {d0 : DLX} {S : Shape}
    (hB : Built n rows d0 S) (pre : List Nat) {fuel : Nat} (hf : d0.nodes.length < fuel) :
    (List.range (preCoverAll d0 pre).n_cols).foldlM
        (preCover fuel (preCoverAll d0 pre).covered) (preCoverAll d0 pre).nodes =
      .ok (coverCols S (preList n pre) d0.nodes) := by
  rw [preCoverAll_eq]
  have hn := hB.n_cols_eq
  have hcov := hB.covered_eq
  have hwf := hB.wf
  have hH := hB.H_eq
  obtain ⟨nc, nr, cov, nodes, sel, hd0⟩ := d0
  simp only at hn hcov hwf hf ⊢
  subst hn hcov
  have hnd : (List.range nc).Nodup := List.nodup_range nc
  have hsub : ∀ i ∈ List.range nc, i ∈ S.H := fun i hi => by rw [hH]; exact hi
  have hfilter : (List.range nc).filter (fun i =>
      (pre.foldl (fun c k => c.set k true) (List.replicate nc false)).getD i false) =
      preList nc pre := by
    unfold preList
    apply List.filter_congr
    intro i hi
    rw [List.mem_range] at hi
    rw [Bool.eq_iff_iff, covered_getD]
    simp [hi]
  have hM := preCover_total nc fuel
    (pre.foldl (fun c k => c.set k true) (List.replicate nc false))
    (List.range nc) hwf hnd hsub hf
  rw [hfilter] at hM
  exact hM

/-- C16. Every run of `Search` ends: for a solver built by the constructor,
`AddRow` and `PreCoverColumn` calls with in-range indices, on the mesh the
pre-covering loop of `Solve` leaves, `Search` run with fuel beyond the size of
the store and a nesting depth beyond the number of rows added neither runs out
of fuel nor exceeds the depth: it returns, or it ends in the dereference of the
null `min_col`; and `Solve`, with fuel beyond the size of the store and the
number of rows, does not run out of fuel either. -/
theorem search_terminates (n : Nat) (rows : List (List Nat)) (pre : List Nat)
    (hrows : ∀ r ∈ rows, ∀ j ∈ r, j < n) (hpre : ∀ j ∈ pre, j < n)
    (hlen : rows.length < 18446744073709551616) (fuel depth : Nat)
    (hf : (build n rows).nodes.length < fuel) (hd : rows.length < depth) :
    ((∃ b d', Search fuel depth
        { preCoverAll (build n rows) pre with
          nodes := finalMesh ((List.range (preCoverAll (build n rows) pre).n_cols).foldlM
            (preCover fuel (preCoverAll (build n rows) pre).covered)
            (preCoverAll (build n rows) pre).nodes) } = .ok (b, d')) ∨
      Search fuel depth
        { preCoverAll (build n rows) pre with
          nodes := finalMesh ((List.range (preCoverAll (build n rows) pre).n_cols).foldlM
            (preCover fuel (preCoverAll (build n rows) pre).covered)
            (preCoverAll (build n rows) pre).nodes) } = .error .nullDeref) ∧
    (rows.length < fuel →
      (preCoverAll (build n rows) pre).Solve fuel ≠ .error .outOfFuel) := by
  obtain ⟨S, hB⟩ := build_built n rows hrows hlen
  obtain ⟨w1, t1, t2⟩ := Solve_total hB pre hpre hf
  have hlive : ((coverShape S (preList n pre)).liveRows
      (coverCols S (preList n pre) (build n rows).nodes)).length ≤ rows.length := by
    have := liveRows_length_le (coverShape S (preList n pre))
      (coverCols S (preList n pre) (build n rows).nodes)
    rw [coverShape_rows, hB.rows_len] at this
    exact this
  have hhead : (preCoverAll (build n rows) pre).head = n := by
    rw [preCoverAll_eq]; exact hB.head_eq
  constructor
  · rw [preCover_run hB pre hf]
    have hw : WF ({ preCoverAll (build n rows) pre with
        nodes := coverCols S (preList n pre) (build n rows).nodes } : DLX).nodes
        ({ preCoverAll (build n rows) pre with
          nodes := coverCols S (preList n pre) (build n rows).nodes } : DLX).head
        (coverShape S (preList n pre)) := by
      show WF (coverCols S (preList n pre) (build n rows).nodes)
        (preCoverAll (build n rows) pre).head _
      rw [hhead]
      exact w1
    have h1 := Search_total fuel depth _ _ hw (by simpa using hf) (by
      show ((coverShape S (preList n pre)).liveRows
        (coverCols S (preList n pre) (build n rows).nodes)).length < depth
      omega)
    have h2 := Search_noAssert fuel depth
      { preCoverAll (build n rows) pre with
        nodes := coverCols S (preList n pre) (build n rows).nodes }
    show (∃ b d', Search fuel depth
        { preCoverAll (build n rows) pre with
          nodes := coverCols S (preList n pre) (build n rows).nodes } = .ok (b, d')) ∨
      Search fuel depth
        { preCoverAll (build n rows) pre with
          nodes := coverCols S (preList n pre) (build n rows).nodes } = .error .nullDeref
    cases hres : Search fuel depth
        { preCoverAll (build n rows) pre with
          nodes := coverCols S (preList n pre) (build n rows).nodes } with
    | ok p => exact Or.inl ⟨p.1, p.2, rfl⟩
    | error e =>
      cases e with
      | outOfFuel => exact absurd hres h1
      | nullDeref => exact Or.inr rfl
      | assertFailed => exact absurd hres h2
  · intro hfr
    by_cases hall : ∀ c ∈ (coverShape S (preList n pre)).H,
        0 < (rd (coverCols S (preList n pre) (build n rows).nodes) c).size
    · rw [t1 hall]
      apply Search_total fuel fuel _ (coverShape S (preList n pre))
      · show WF (coverCols S (preList n pre) (build n rows).nodes)
          (preCoverAll (build n rows) pre).head _
        rw [hhead]
        exact w1
      · simpa using hf
      · show ((coverShape S (preList n pre)).liveRows
          (coverCols S (preList n pre) (build n rows).nodes)).length < fuel
        omega
    · rw [t2 hall]
      simp

/-! ## Instances of the later theorems -/

set_option maxRecDepth 100000 in
/-- C14. The scan of `Search` does not select a column of minimum size: on the
solver with two columns and the rows `{0, 1}` and `{0}`, no column is
pre-covered, `Solve` enters `Search` on the mesh as built, the header ring holds
column 0 of size 2 followed by column 1 of size 1, and the scan selects column 0,
for every fuel that lets it run; `Solve` returns the row `{0, 1}` it found in
column 0. -/
theorem scan_skips_last_column :
    (∀ fuel, (build 2 [[0, 1], [0]]).Solve (fuel + 3) =
      Search (fuel + 3) (fuel + 3) (build 2 [[0, 1], [0]])) ∧
    (rd (build 2 [[0, 1], [0]]).nodes 2).right = 0 ∧
    (rd (build 2 [[0, 1], [0]]).nodes 0).right = 1 ∧
    (rd (build 2 [[0, 1], [0]]).nodes 1).right = 2 ∧
    (rd (build 2 [[0, 1], [0]]).nodes 0).size = 2 ∧
    (rd (build 2 [[0, 1], [0]]).nodes 1).size = 1 ∧
    (∀ fuel, selectColumn (build 2 [[0, 1], [0]]).nodes 2 (fuel + 2)
      (rd (build 2 [[0, 1], [0]]).nodes 2).right none = .ok (some 0)) ∧
    (build 2 [[0, 1], [0]]).Solve 5 =
      .ok (true, finalState ((build 2 [[0, 1], [0]]).Solve 5)) ∧
    (finalState ((build 2 [[0, 1], [0]]).Solve 5)).GetSolution = [0] :=
  ⟨fun _ => rfl, rfl, rfl, rfl, rfl, rfl, fun _ => rfl, rfl, rfl⟩

/-- The mesh `exitMesh` is the mesh of the second `Search` entry in the run of
`Solve` on five columns and the rows `{0, 1}`, `{1, 3}`, `{2, 4}`: the scan first
selects column 0, whose first cell is 6; in `exitMesh` the header ring holds the
columns 2, 3, 4, of sizes 1, 0, 1. -/
theorem exitMesh_ring :
    selectColumn (build 5 exitRows).nodes 5 12 (rd (build 5 exitRows).nodes 5).right none =
      .ok (some 0) ∧
    (rd (finalMesh (CoverColumn 12 0 (build 5 exitRows).nodes)) 0).down = 6 ∧
    (rd exitMesh 5).right = 2 ∧ (rd exitMesh 2).right = 3 ∧ (rd exitMesh 3).right = 4 ∧
    (rd exitMesh 4).right = 5 ∧
    (rd exitMesh 2).size = 1 ∧ (rd exitMesh 3).size = 0 ∧ (rd exitMesh 4).size = 1 :=
  ⟨rfl, rfl, rfl, rfl, rfl, rfl, rfl, rfl, rfl⟩

/-- C15, the claim as stated fails: on the mesh on which `Search` is entered the
second time in the run of `Solve` on five columns and the rows `{0, 1}`,
`{1, 3}`, `{2, 4}`, the scan with the early exit selects column 2, of size 1, and
the scan without it selects column 3, of size 0. -/
theorem early_exit_changes_choice :
    selectColumn exitMesh 5 12 (rd exitMesh 5).right none = .ok (some 2) ∧
    selectColumnNoBreak exitMesh 5 12 (rd exitMesh 5).right none = .ok (some 3) ∧
    (rd exitMesh 2).size = 1 ∧ (rd exitMesh 3).size = 0 :=
  ⟨rfl, rfl, rfl, rfl⟩

set_option maxRecDepth 100000 in
/-- The amended theorem on the early exit at the mesh of four columns and the
rows `{0, 1, 2, 3}` and `{0, 2, 3}`, whose columns have the sizes 2, 1, 2, 2: the
early exit fires at column 1 (with fuel 2 the scan with the early exit returns
column 1 and the scan without it is still running), and with fuel beyond the size
of the store both scans return the same column. -/
theorem early_exit_same_choice_witness :
    (rd (build 4 [[0, 1, 2, 3], [0, 2, 3]]).nodes 0).size = 2 ∧
    (rd (build 4 [[0, 1, 2, 3], [0, 2, 3]]).nodes 1).size = 1 ∧
    selectColumn (build 4 [[0, 1, 2, 3], [0, 2, 3]]).nodes 4 2
      (rd (build 4 [[0, 1, 2, 3], [0, 2, 3]]).nodes 4).right none = .ok (some 1) ∧
    selectColumnNoBreak (build 4 [[0, 1, 2, 3], [0, 2, 3]]).nodes 4 2
      (rd (build 4 [[0, 1, 2, 3], [0, 2, 3]]).nodes 4).right none = .error .outOfFuel ∧
    selectColumn (build 4 [[0, 1, 2, 3], [0, 2, 3]]).nodes 4 20
      (rd (build 4 [[0, 1, 2, 3], [0, 2, 3]]).nodes 4).right none = .ok (some 1) ∧
    ∃ S, WF0 (build 4 [[0, 1, 2, 3], [0, 2, 3]]).nodes 4 S ∧ S.H = [0, 1, 2, 3] ∧
      (build 4 [[0, 1, 2, 3], [0, 2, 3]]).nodes.length < 20 ∧
      (∀ e ∈ S.H, 0 < (rd (build 4 [[0, 1, 2, 3], [0, 2, 3]]).nodes e).size) ∧
      ∃ r, selectColumn (build 4 [[0, 1, 2, 3], [0, 2, 3]]).nodes 4 20
          (rd (build 4 [[0, 1, 2, 3], [0, 2, 3]]).nodes 4).right none = .ok r ∧
        selectColumnNoBreak (build 4 [[0, 1, 2, 3], [0, 2, 3]]).nodes 4 20
          (rd (build 4 [[0, 1, 2, 3], [0, 2, 3]]).nodes 4).right none = .ok r := by
  obtain ⟨S, hB⟩ := build_built 4 [[0, 1, 2, 3], [0, 2, 3]] (by decide) (by decide)
  have hH : S.H = [0, 1, 2, 3] := hB.H_eq
  have hpos : ∀ e ∈ S.H, 0 < (rd (build 4 [[0, 1, 2, 3], [0, 2, 3]]).nodes e).size := by
    rw [hH]; decide
  exact ⟨rfl, rfl, rfl, rfl, rfl, S, hB.wf.toWF0, hH, by decide, hpos,
    early_exit_same_choice (build 4 [[0, 1, 2, 3], [0, 2, 3]]).nodes 4 S hB.wf.toWF0 20
      (by decide) hpos⟩

/-- The theorem on the null `min_col` at the solver with one column and the row
`{0}`. -/
theorem scan_null_min_col_witness :
    ∃ S, WF0 (build 1 [[0]]).nodes (build 1 [[0]]).head S ∧ S.H = [0] ∧
      (build 1 [[0]]).nodes.length < 5 ∧
      (∃ r, selectColumn (build 1 [[0]]).nodes (build 1 [[0]]).head 5
          (rd (build 1 [[0]]).nodes (build 1 [[0]]).head).right none = .ok r ∧
        (r = none ↔ S.H.length = 1)) ∧
      (S.H.length = 1 → ∀ depth, Search 5 (depth + 1) (build 1 [[0]]) = .error .nullDeref) := by
  obtain ⟨S, hB⟩ := build_built 1 [[0]] (by decide) (by decide)
  have hH : S.H = [0] := hB.H_eq
  exact ⟨S, hB.wf.toWF0, hH, by decide,
    scan_null_min_col (build 1 [[0]]) S hB.wf.toWF0 5 (by decide) (by rw [hH]; simp)⟩

/-- The theorem on row identifiers at four calls of `AddRow`, two of them with
the empty list. -/
theorem row_ids_sequential_witness :
    (∀ r ∈ [[], [2, 0, 2], [], [1]], ∀ j ∈ r, j < 3) ∧
    ∀ k, k < [[], [2, 0, 2], [], [1]].length →
      ∀ i, i < (unique (([[], [2, 0, 2], [], [1]].getD k []).insertionSort (· ≤ ·))).length →
        (rd (build 3 [[], [2, 0, 2], [], [1]]).nodes
          ((build 3 ([[], [2, 0, 2], [], [1]].take k)).nodes.length + i)).row = k :=
  ⟨by decide, (row_ids_sequential 3 [[], [2, 0, 2], [], [1]] (by decide) (by decide)).1⟩

/-- The theorem on empty rows at a two-column solver that holds the row `{0}`. -/
theorem empty_row_noop_witness :
    (∀ r ∈ [[0]], ∀ j ∈ r, j < 2) ∧
    (build 2 [[0]]).AddRow [] = { build 2 [[0]] with n_rows := [[0]].length + 1 } :=
  ⟨by decide, (empty_row_noop 2 [[0]] (by decide) (by decide)).2.1⟩

/-- The theorem on pre-cover marks at the columns 0 and 2 of a three-column
solver. -/
theorem preCover_flag_witness :
    0 < (build 3 [[0]]).covered.length ∧ 2 < (build 3 [[0]]).covered.length ∧
    ((build 3 [[0]]).PreCoverColumn 0).PreCoverColumn 0 = (build 3 [[0]]).PreCoverColumn 0 ∧
    ((build 3 [[0]]).PreCoverColumn 0).PreCoverColumn 2 =
      ((build 3 [[0]]).PreCoverColumn 2).PreCoverColumn 0 ∧
    ((build 3 [[0]]).PreCoverColumn 0).covered.getD 0 false = true :=
  ⟨by decide, by decide,
    (preCover_flag (build 3 [[0]]) 0 2 (by decide) (by decide)).1,
    (preCover_flag (build 3 [[0]]) 0 2 (by decide) (by decide)).2.1,
    (preCover_flag (build 3 [[0]]) 0 2 (by decide) (by decide)).2.2.1⟩

set_option maxRecDepth 100000 in
/-- The termination theorem at the solver with one column and the row `{0}`: the
run of `Search` ends at once, in the dereference of the null `min_col`, and
`Solve` does not run out of fuel. -/
theorem search_terminates_witness :
    (∀ r ∈ [[0]], ∀ j ∈ r, j < 1) ∧ (build 1 [[0]]).nodes.length < 5 ∧
    [[0]].length < 2 ∧
    Search 5 2
      { preCoverAll (build 1 [[0]]) [] with
        nodes := finalMesh ((List.range (preCoverAll (build 1 [[0]]) []).n_cols).foldlM
          (preCover 5 (preCoverAll (build 1 [[0]]) []).covered)
          (preCoverAll (build 1 [[0]]) []).nodes) } = .error .nullDeref ∧
    ((∃ b d', Search 5 2
        { preCoverAll (build 1 [[0]]) [] with
          nodes := finalMesh ((List.range (preCoverAll (build 1 [[0]]) []).n_cols).foldlM
            (preCover 5 (preCoverAll (build 1 [[0]]) []).covered)
            (preCoverAll (build 1 [[0]]) []).nodes) } = .ok (b, d')) ∨
      Search 5 2
        { preCoverAll (build 1 [[0]]) [] with
          nodes := finalMesh ((List.range (preCoverAll (build 1 [[0]]) []).n_cols).foldlM
            (preCover 5 (preCoverAll (build 1 [[0]]) []).covered)
            (preCoverAll (build 1 [[0]]) []).nodes) } = .error .nullDeref) ∧
    ((preCoverAll (build 1 [[0]]) []).Solve 5 ≠ .error .outOfFuel) :=
  ⟨by decide, by decide, by decide, rfl,
    (search_terminates 1 [[0]] [] (by decide) (by decide) (by decide) 5 2
      (by decide) (by decide)).1,
    (search_terminates 1 [[0]] [] (by decide) (by decide) (by decide) 5 2
      (by decide) (by decide)).2 (by decide)⟩

set_option maxRecDepth 100000 in
/-- The feasibility theorem at three columns, the rows `{0, 1}` and `{2}` and
column 0 pre-covered: column 1 is only in a row that holds column 0, and the
assertion fails. -/
theorem solve_feasibility_witness :
    (∀ r ∈ [[0, 1], [2]], ∀ j ∈ r, j < 3) ∧ (∀ j ∈ [0], j < 3) ∧
    (build 3 [[0, 1], [2]]).nodes.length < 20 ∧
    (preCoverAll (build 3 [[0, 1], [2]]) [0]).Solve 20 = .error .assertFailed ∧
    ((preCoverAll (build 3 [[0, 1], [2]]) [0]).Solve 20 ≠ .error .assertFailed ↔
      ∀ j, j < 3 → j ∉ [0] →
        ∃ i, i < [[0, 1], [2]].length ∧ j ∈ [[0, 1], [2]].getD i [] ∧
          ∀ p ∈ [0], p ∉ [[0, 1], [2]].getD i []) :=
  ⟨by decide, by decide, by decide, rfl,
    solve_feasibility 3 [[0, 1], [2]] [0] (by decide) (by decide) (by decide) 20 (by decide)⟩

/-- The theorem on the order of a column at column 2 of three columns and the
rows `{0, 2}`, `{1}`, `{2, 0, 2}`. -/
theorem column_order_witness :
    (∀ r ∈ [[0, 2], [1], [2, 0, 2]], ∀ j ∈ r, j < 3) ∧
    ∃ l, Chain (fun x => (rd (build 3 [[0, 2], [1], [2, 0, 2]]).nodes x).down)
        (fun x => (rd (build 3 [[0, 2], [1], [2, 0, 2]]).nodes x).up) 2 l 2 ∧ 2 ∉ l ∧
      (∀ x ∈ l, (rd (build 3 [[0, 2], [1], [2, 0, 2]]).nodes x).column = 2) ∧
      l.map (fun x => (rd (build 3 [[0, 2], [1], [2, 0, 2]]).nodes x).row) =
        (List.range [[0, 2], [1], [2, 0, 2]].length).filter
          (fun i => decide (2 ∈ [[0, 2], [1], [2, 0, 2]].getD i [])) ∧
      (l.map (fun x => (rd (build 3 [[0, 2], [1], [2, 0, 2]]).nodes x).row)).Sorted (· < ·) :=
  ⟨by decide, column_order 3 [[0, 2], [1], [2, 0, 2]] (by decide) (by decide) 2 (by decide)⟩

set_option maxRecDepth 100000 in
/-- The theorem on the selection at Knuth's example, where `Search` returns
`true`, and at a matrix without an exact cover, where `Solve` returns `false`. -/
theorem selection_balanced_witness :
    (Search 30 30 (build 7 knuthRows) =
        .ok (true, finalState (Search 30 30 (build 7 knuthRows))) ∧
      ∃ ids, Chosen 30 30 (build 7 knuthRows) ids (finalState (Search 30 30 (build 7 knuthRows))) ∧
        (finalState (Search 30 30 (build 7 knuthRows))).selected_rows =
          (build 7 knuthRows).selected_rows ++ ids) ∧
    ((preCoverAll (build 4 [[0, 1], [1, 2], [3]]) []).Solve 10 =
        .ok (false, finalState ((preCoverAll (build 4 [[0, 1], [1, 2], [3]]) []).Solve 10)) ∧
      (finalState ((preCoverAll (build 4 [[0, 1], [1, 2], [3]]) []).Solve 10)).GetSolution =
        []) := by
  obtain ⟨S, hB⟩ := build_built 7 knuthRows (by decide) (by decide)
  exact ⟨⟨rfl, selection_balanced.2.1 30 30 (build 7 knuthRows) S _ hB.wf rfl⟩,
    rfl, selection_balanced.2.2 4 [[0, 1], [1, 2], [3]] [] 10 _ (by decide) (by decide)
      (by decide) rfl⟩

end dlx
